import Mathlib

/-!
Verification of the maze data model, generators and solvers of `a8.py`.

Shallow embedding conventions:
* A `Cell` is identified by its `(row, col)` coordinates (in one grid, the
  Python object identity of a cell coincides with its coordinate pair, since
  `prepare_grid` allocates exactly one cell object per coordinate pair).
* The mutable per-cell `links` sets are represented by one global list of
  directed pairs: `(a, b) ∈ g.links` means `b ∈ a.links` in Python.  Adding to
  a Python `set` is modelled by `setAdd` (append if absent).  Where Python
  iterates over a `set` (an unspecified order), we iterate the list in
  insertion order; every property proved below about such iterations is
  insensitive to that order.
* Python's global `random` is modelled by an explicit stream `rng : Nat → Nat`
  together with a running index: the k-th random draw of a run reads `rng k`.
  `random.choice(xs)` is modelled by indexing with `rng k % xs.length`,
  `random.randint(0,1)` by `rng k % 2`, `random.choice([True, False])` by
  `rng k % 2 = 0`.  Quantifying over all `rng` covers all random behaviours.
* Loops without a structural termination measure (`while stack`, the Dijkstra
  queue loop) are embedded with explicit fuel; we prove separately that the
  chosen fuel is never exhausted, so the fuel-free Python behaviour coincides
  with the embedded one.
-/

namespace Maze

/-- A lattice node; `row`/`col` are its immutable identity
(`Cell.__init__` stores them; `prepare_grid` creates one cell per pair). -/
structure Cell where
  row : Int
  col : Int
deriving DecidableEq

/-- The four direction keys `Cell.NORTH/SOUTH/EAST/WEST`. -/
inductive Dir where
  | north
  | south
  | east
  | west
deriving DecidableEq

/-- Python `range(n)` for an `int` argument (empty for `n ≤ 0`). -/
def pyRange (n : Int) : List Int :=
  (List.range n.toNat).map (fun i => Int.ofNat i)

/-- Grid state: the dimensions passed to `Grid.__init__` plus the current
link relation (union of all per-cell `links` sets, as directed pairs). -/
structure Grid where
  num_rows : Int
  num_cols : Int
  links : List (Cell × Cell)
deriving DecidableEq

/-- `Grid(num_rows, num_cols)`: `prepare_grid` allocates the cells (derived
here from the dimensions, see `Grid.rowsList`), `configure_cells` wires the
neighbor slots (derived here in `Grid.get_neighbor`); no cell is linked. -/
def Grid.construct (num_rows num_cols : Int) : Grid :=
  ⟨num_rows, num_cols, []⟩

/-- `self.rows` as built by `prepare_grid`:
`[[Cell(row, col) for col in range(self.num_cols)] for row in range(self.num_rows)]`. -/
def Grid.rowsList (g : Grid) : List (List Cell) :=
  (pyRange g.num_rows).map (fun row => (pyRange g.num_cols).map (fun col => ⟨row, col⟩))

/-- `Grid.all_cells`: `[cell for row in self.rows for cell in row]`. -/
def Grid.all_cells (g : Grid) : List Cell :=
  g.rowsList.flatten

/-- `Grid.get_cell`: bounds check, then `self.rows[row][col]`; `None` when out
of range. -/
def Grid.get_cell (g : Grid) (row col : Int) : Option Cell :=
  if 0 ≤ row ∧ row < g.num_rows ∧ 0 ≤ col ∧ col < g.num_cols then
    g.rowsList[row.toNat]?.bind (fun r => r[col.toNat]?)
  else
    none

/-- `Cell.get_neighbor`, with the wiring performed once by `configure_cells`:
north is `get_cell(row - 1, col)`, south `get_cell(row + 1, col)`,
east `get_cell(row, col + 1)`, west `get_cell(row, col - 1)`.  The slots are
never mutated after construction, so lookup is this pure function. -/
def Grid.get_neighbor (g : Grid) (c : Cell) : Dir → Option Cell
  | .north => g.get_cell (c.row - 1) c.col
  | .south => g.get_cell (c.row + 1) c.col
  | .east => g.get_cell c.row (c.col + 1)
  | .west => g.get_cell c.row (c.col - 1)

/-- Python `set.add`: append if not already present. -/
def setAdd {α : Type} [DecidableEq α] (l : List α) (x : α) : List α :=
  if x ∈ l then l else l ++ [x]

/-- One-directional half of `Cell.link`: `self.links.add(cell)`. -/
def Grid.linkDir (g : Grid) (a b : Cell) : Grid :=
  { g with links := setAdd g.links (a, b) }

/-- `Cell.link(cell, bidirectional)`: add `cell` to `self.links`; when
`bidirectional`, also `cell.link(self, False)`. -/
def Grid.linkFlag (g : Grid) (a b : Cell) (bidirectional : Bool) : Grid :=
  let g1 := g.linkDir a b
  if bidirectional then g1.linkDir b a else g1

/-- `Cell.link(cell)` with the default `bidirectional=True`. -/
def Grid.link (g : Grid) (a b : Cell) : Grid :=
  g.linkFlag a b true

/-- `b ∈ a.links` (the state of `Cell.is_linked`). -/
def Grid.Linked (g : Grid) (a b : Cell) : Prop :=
  (a, b) ∈ g.links

instance (g : Grid) (a b : Cell) : Decidable (g.Linked a b) :=
  inferInstanceAs (Decidable ((a, b) ∈ g.links))

/-- `Cell.is_linked`. -/
def Grid.is_linked (g : Grid) (a b : Cell) : Bool :=
  decide (g.Linked a b)

/-- The list underlying the Python set `a.links` (iteration order: insertion
order; all results proved about iterations over it are order-insensitive). -/
def Grid.cellLinks (g : Grid) (a : Cell) : List Cell :=
  (g.links.filter (fun p => decide (p.1 = a))).map (fun p => p.2)

/-- The link relation viewed undirected. -/
def Grid.LinkedU (g : Grid) (a b : Cell) : Prop :=
  g.Linked a b ∨ g.Linked b a

/-- Connectivity along undirected links. -/
def Grid.Reach (g : Grid) : Cell → Cell → Prop :=
  Relation.ReflTransGen g.LinkedU

/-- Reachability along directed links (the relation `solve_maze` traverses). -/
def Grid.ReachD (g : Grid) : Cell → Cell → Prop :=
  Relation.ReflTransGen g.Linked

/-- Canonical orientation of a pair, for counting undirected edges. -/
def normPair (p : Cell × Cell) : Cell × Cell :=
  if p.1.row < p.2.row ∨ (p.1.row = p.2.row ∧ p.1.col ≤ p.2.col) then p else (p.2, p.1)

/-- Number of undirected links (the spec counts links as undirected edges). -/
def Grid.edgeCount (g : Grid) : Nat :=
  (g.links.map normPair).toFinset.card

/-- All link endpoints are cells of the grid. -/
def Grid.WF (g : Grid) : Prop :=
  ∀ p ∈ g.links, p.1 ∈ g.all_cells ∧ p.2 ∈ g.all_cells

/-- The link relation is symmetric (invariant 1 of the spec). -/
def Grid.Symm (g : Grid) : Prop :=
  ∀ a b : Cell, g.Linked a b → g.Linked b a

/-! ### Solvers -/

/-- One `while stack:` iteration state step of `Grid.solve_maze`.  The Python
stack (`append`/`pop` at the right end) is modelled with the top at the list
head; pushing the linked neighbors one by one to the head preserves the LIFO
order of the source.  Result: `none` = fuel exhausted (proved unreachable
below), `some none` = Python `return None`, `some (some p)` = `return path`. -/
def solveMazeLoop (g : Grid) (end_cell : Cell) :
    Nat → List (Cell × List Cell) → List Cell → Option (Option (List Cell))
  | 0, _, _ => none
  | fuel + 1, stack, visited =>
    match stack with
    | [] => some none
    | (current, path) :: rest =>
      if current = end_cell then some (some path)
      else
        let visited' := setAdd visited current
        let stack' := (g.cellLinks current).foldl
          (fun st nbr => if nbr ∈ visited' then st else (nbr, path ++ [nbr]) :: st) rest
        solveMazeLoop g end_cell fuel stack' visited'

/-- Fuel sufficient for `solve_maze` (every stack entry carries a duplicate-free
path through link endpoints, so the iteration count is bounded; see
`solveMazeLoop_measure_some`). -/
def dfsFuel (g : Grid) : Nat :=
  (g.links.length + 2) ^ (g.links.length + 2) + 1

/-- `Grid.solve_maze(start_cell, end_cell)`. -/
def Grid.solve_maze (g : Grid) (start_cell end_cell : Cell) : Option (Option (List Cell)) :=
  solveMazeLoop g end_cell (dfsFuel g) [(start_cell, [start_cell])] []

/-- Solver scratch state: every cell's `distance` (a number) and `previous`
(absent attribute modelled as `none`), plus the solver's `queue`. -/
structure DState where
  dist : Cell → Nat
  prev : Cell → Option Cell
  queue : List (Nat × Cell)

/-- The scratch state of a freshly built grid and solver: `Cell.__init__` sets
`distance = 0` and defines no `previous`; `DjikstraSolver.__init__` starts
with an empty queue. -/
def freshState : DState :=
  ⟨fun _ => 0, fun _ => none, []⟩

/-- Stable insertion of an entry into a key-sorted queue (strictly-smaller
keys pass, equal keys keep earlier entries first). -/
def insSorted (p : Nat × Cell) : List (Nat × Cell) → List (Nat × Cell)
  | [] => [p]
  | q :: rest => if p.1 ≤ q.1 then p :: q :: rest else q :: insSorted p rest

/-- Stable sort by key, as performed by Python's stable
`self.queue.sort(key=lambda x: x[0])`.  (Stable sorting has a unique result,
so this insertion sort is extensionally the sort the source performs.) -/
def pySortByKey : List (Nat × Cell) → List (Nat × Cell)
  | [] => []
  | p :: rest => insSorted p (pySortByKey rest)

/-- `DjikstraSolver.add_to_queue`: append, then stable-sort by distance. -/
def addToQueue (queue : List (Nat × Cell)) (cell : Cell) (distance : Nat) :
    List (Nat × Cell) :=
  pySortByKey (queue ++ [(distance, cell)])

/-- `DjikstraSolver.initialize`: set every cell's distance to `10000`, then the
distance of `get_cell(0, 0)` to `0`.  (For a grid with no cells Python would
raise an `AttributeError` on `None`; the claims only use grids with
`num_rows, num_cols ≥ 1`, where the lookup succeeds.) -/
def DjikstraSolver.initialize (g : Grid) (s : DState) : DState :=
  let s1 := g.all_cells.foldl (fun s c => { s with dist := Function.update s.dist c 10000 }) s
  match g.get_cell 0 0 with
  | some start => { s1 with dist := Function.update s1.dist start 0 }
  | none => s1

/-- `DjikstraSolver.weight`: `1 if cell2 in cell1.links else 10000`. -/
def DjikstraSolver.weight (g : Grid) (cell1 cell2 : Cell) : Nat :=
  if g.Linked cell1 cell2 then 1 else 10000

/-- `DjikstraSolver.relax`: for every linked neighbor, update distance,
predecessor and queue when the candidate distance is strictly smaller. -/
def DjikstraSolver.relax (g : Grid) (s : DState) (cell : Cell) : DState :=
  (g.cellLinks cell).foldl
    (fun s nbr =>
      let new_distance := s.dist cell + DjikstraSolver.weight g cell nbr
      if new_distance < s.dist nbr then
        { dist := Function.update s.dist nbr new_distance,
          prev := Function.update s.prev nbr (some cell),
          queue := addToQueue s.queue nbr new_distance }
      else s)
    s

/-- Relaxation as the spec says an implementer should write it: iterate only
over existing links, at unit edge cost, with no weight-function call.  C8
states that `DjikstraSolver.relax` coincides with it. -/
def DjikstraSolver.relaxUnit (g : Grid) (s : DState) (cell : Cell) : DState :=
  (g.cellLinks cell).foldl
    (fun s nbr =>
      let new_distance := s.dist cell + 1
      if new_distance < s.dist nbr then
        { dist := Function.update s.dist nbr new_distance,
          prev := Function.update s.prev nbr (some cell),
          queue := addToQueue s.queue nbr new_distance }
      else s)
    s

/-- The `while self.queue:` loop of `DjikstraSolver.solve`: pop the head of
the sorted queue, relax.  `none` = fuel exhausted (proved unreachable for
well-formed grids below). -/
def djLoop (g : Grid) : Nat → DState → Option DState
  | 0, _ => none
  | fuel + 1, s =>
    match s.queue with
    | [] => some s
    | (_, curr_cell) :: rest => djLoop g fuel (DjikstraSolver.relax g { s with queue := rest } curr_cell)

/-- Fuel sufficient for the Dijkstra loop: the sum of all cell distances plus
the queue length strictly decreases every iteration. -/
def djFuel (g : Grid) : Nat :=
  10000 * g.all_cells.length + 2

/-- One backward step list of `DjikstraSolver.recover_path`: append `current`;
stop at `(0, 0)`; otherwise move to the linked neighbor of strictly smaller
distance with the smallest distance (Python's `min` keeps the first minimum).
Fuel-based; since the distance strictly decreases at every step,
`dist current + 1` fuel always suffices (`recoverAux_fuel`). -/
def recoverAux (g : Grid) (dist : Cell → Nat) : Nat → Cell → List Cell
  | 0, _ => []
  | fuel + 1, current =>
    if current.row = 0 ∧ current.col = 0 then [current]
    else
      let neighbors := (g.cellLinks current).filter (fun n => decide (dist n < dist current))
      match neighbors with
      | [] => [current]
      | n0 :: ns => current ::
          recoverAux g dist fuel (ns.foldl (fun best y => if dist y < dist best then y else best) n0)

/-- `DjikstraSolver.recover_path`: walk back from the south-east corner,
then reverse. -/
def DjikstraSolver.recover_path (g : Grid) (dist : Cell → Nat) : List Cell :=
  match g.get_cell (g.num_rows - 1) (g.num_cols - 1) with
  | some target => (recoverAux g dist (dist target + 1) target).reverse
  | none => []

/-- `DjikstraSolver.solve`, started from scratch state `s₀` (state of the
one-solver-per-grid lifecycle: `freshState`).  `none` = a case the Python
program cannot reach on the grids of the claims (missing corner cell or fuel
exhaustion, both proved unreachable there); `some []` = `return []` (no path
found); `some p` = the recovered path. -/
def DjikstraSolver.solve (g : Grid) (s₀ : DState) : Option (List Cell) :=
  match g.get_cell 0 0 with
  | none => none
  | some start =>
    let s1 := DjikstraSolver.initialize g s₀
    let s2 := { s1 with queue := addToQueue s1.queue start 0 }
    match djLoop g (djFuel g) s2 with
    | none => none
    | some sF =>
      match g.get_cell (g.num_rows - 1) (g.num_cols - 1) with
      | none => none
      | some target =>
        if sF.dist target = 10000 then some []
        else some (DjikstraSolver.recover_path g sF.dist)

/-! ### Graph-theoretic predicates -/

/-- A simple path along undirected links: nonempty, from `x` to `y`, each
consecutive pair linked (in either direction), no repeated node. -/
def IsPath (g : Grid) (p : List Cell) (x y : Cell) : Prop :=
  p.head? = some x ∧ p.getLast? = some y ∧ List.Chain' g.LinkedU p ∧ p.Nodup

/-- Unique simple paths: the standard characterization of an acyclic
undirected graph. -/
def UP (g : Grid) : Prop :=
  ∀ x y p q, IsPath g p x y → IsPath g q x y → p = q

/-- No cycle: there is no closed link walk of length at least 3 visiting
distinct nodes. -/
def NoCycle (g : Grid) : Prop :=
  ¬∃ (x : Cell) (l : List Cell), 3 ≤ l.length ∧ List.Chain g.LinkedU x l ∧
    l.getLast? = some x ∧ (x :: l.dropLast).Nodup

/-- Row-major order on cells. -/
def rmLt (v w : Cell) : Prop :=
  v.row < w.row ∨ (v.row = w.row ∧ v.col < w.col)

instance (v w : Cell) : Decidable (rmLt v w) := by
  unfold rmLt
  infer_instance

/-- Geometric neighborhood: the two cells differ by exactly 1 in exactly one
coordinate. -/
def GeoNbr (v w : Cell) : Prop :=
  (v.row - w.row).natAbs + (v.col - w.col).natAbs = 1

/-- The spanning-tree property of the spec (invariant 3): the undirected link
count is `R·C − 1`, every two cells are connected, and there is no cycle. -/
def IsSpanningTree (g : Grid) : Prop :=
  g.edgeCount = g.num_rows.toNat * g.num_cols.toNat - 1 ∧
    (∀ a ∈ g.all_cells, ∀ b ∈ g.all_cells, g.Reach a b) ∧
    NoCycle g

/-! ### DFS verification predicates -/

/-- A directed link path from `x` to `b` whose nodes after `x` avoid
`visited`: the completeness invariant of the `solve_maze` loop. -/
def UnvPath (g : Grid) (visited : List Cell) (x b : Cell) : Prop :=
  ∃ l : List Cell, List.Chain g.Linked x l ∧ (x :: l).getLast? = some b ∧
    ∀ y ∈ l, y ∉ visited

/-- Invariant of one `solve_maze` stack entry `(node, path)`: the path starts
at the solve's start `a`, ends at the entry's node, follows links, repeats no
node, stays inside the universe `u`, and all nodes before the last are
already visited. -/
def EntryOK (g : Grid) (a : Cell) (u visited : List Cell) (e : Cell × List Cell) : Prop :=
  e.2.head? = some a ∧ e.2.getLast? = some e.1 ∧ List.Chain' g.Linked e.2 ∧
    e.2.Nodup ∧ e.2.dropLast ⊆ visited ∧ e.2 ⊆ u

/-- Termination weight of a stack entry: entries with longer paths weigh
exponentially less; replacing an entry by link-successors with longer paths
strictly shrinks the stack's total weight. -/
def dfsWeight (g : Grid) (e : Cell × List Cell) : Nat :=
  (g.links.length + 2) ^ ((g.links.length + 2) - e.2.length)

/-- Total termination measure of the `solve_maze` stack. -/
def stackMeasure (g : Grid) (stack : List (Cell × List Cell)) : Nat :=
  (stack.map (dfsWeight g)).sum

/-! ### Generators -/

/-- `random.choice(xs)` driven by one raw draw `r`: pick index `r % len(xs)`.
Quantifying theorems over all draw streams covers every possible choice.
(Python raises on an empty list; every call site in the source passes a
nonempty list.) -/
def pyChoice (xs : List Cell) (r : Nat) : Cell :=
  xs.getD (r % xs.length) ⟨0, 0⟩

/-- The candidate list `neighbors` built by the loop body of
`BinaryTreeMazeMaker.make_maze`: the south neighbor if it exists, then the
east neighbor if it exists. -/
def btCandidates (g : Grid) (cell : Cell) : List Cell :=
  (match g.get_neighbor cell .south with
    | some s => [s]
    | none => []) ++
  (match g.get_neighbor cell .east with
    | some e => [e]
    | none => [])

/-- The body of the `for cell in self.grid.all_cells():` loop of
`BinaryTreeMazeMaker.make_maze`; the `Nat` component counts consumed random
draws. -/
def btStep (rng : Nat → Nat) (st : Grid × Nat) (cell : Cell) : Grid × Nat :=
  let g := st.1
  let k := st.2
  match btCandidates g cell with
  | [] => (g, k)
  | n :: ns => (g.link cell (pyChoice (n :: ns) (rng k)), k + 1)

/-- `BinaryTreeMazeMaker.make_maze`. -/
def BinaryTreeMazeMaker.make_maze (g : Grid) (rng : Nat → Nat) : Grid :=
  (g.all_cells.foldl (btStep rng) (g, 0)).1

/-- Loop invariant of the Binary-Tree generator after the cells in `done`
have been processed: shape is unchanged; links are symmetric, well-formed,
geometric; paths are unique; the undirected edge count equals the number of
processed cells with candidates; every processed cell with candidates has a
link into its candidate list; every link pointing row-major-forward starts
at a processed cell; and any two cells without forward links are connected
only if equal (so each component has a unique row-major maximum). -/
def BTInv (g0 gcur : Grid) (done : List Cell) : Prop :=
  gcur.num_rows = g0.num_rows ∧ gcur.num_cols = g0.num_cols ∧
  gcur.Symm ∧ gcur.WF ∧ UP gcur ∧
  (∀ v w, gcur.Linked v w → GeoNbr v w) ∧
  gcur.edgeCount = (done.filter (fun c => decide (btCandidates g0 c ≠ []))).length ∧
  (∀ c ∈ done, btCandidates g0 c ≠ [] → ∃ d ∈ btCandidates g0 c, gcur.LinkedU c d) ∧
  (∀ v w, gcur.Linked v w → rmLt v w → v ∈ done) ∧
  (∀ x y, gcur.Reach x y → (¬∃ w, gcur.Linked x w ∧ rmLt x w) →
    (¬∃ w, gcur.Linked y w ∧ rmLt y w) → x = y)

/-- The body of the inner loop of `SidewinderMazeMaker.make_maze`; state:
grid, current run, consumed draws.  The coin `random.randint(0, 1)` is drawn
only when `should_close_out` actually evaluates it (Python's `or`/`and`
short-circuit). -/
def swStep (rng : Nat → Nat) (st : Grid × List Cell × Nat) (cell : Cell) :
    Grid × List Cell × Nat :=
  let g := st.1
  let run := st.2.1 ++ [cell]
  let k := st.2.2
  let at_eastern_boundary := (g.get_neighbor cell .east).isNone
  let at_northern_boundary := (g.get_neighbor cell .north).isNone
  let coin : Bool × Nat :=
    if at_eastern_boundary then (true, k)
    else if at_northern_boundary then (false, k)
    else (decide (rng k % 2 = 0), k + 1)
  if coin.1 then
    let member := pyChoice run (rng coin.2)
    let g' :=
      match g.get_neighbor member .north with
      | some n => g.link member n
      | none => g
    (g', [], coin.2 + 1)
  else
    let g' :=
      match g.get_neighbor cell .east with
      | some e => g.link cell e
      | none => g
    (g', run, coin.2)

/-- `SidewinderMazeMaker.make_maze`: row by row, the run resets at the start
of each row. -/
def SidewinderMazeMaker.make_maze (g : Grid) (rng : Nat → Nat) : Grid :=
  (g.rowsList.foldl
    (fun st row =>
      let st2 := row.foldl (swStep rng) (st.1, [], st.2)
      (st2.1, st2.2.2))
    (g, 0)).1

/-- The contiguous cells `⟨r, j0⟩ … ⟨r, t-1⟩` of one row (the Sidewinder
run). -/
def colSeg (r j0 t : Int) : List Cell :=
  (pyRange (t - j0)).map (fun i => ⟨r, j0 + i⟩)

/-- The rows `r … R-1` of the grid, each as its cell list (the suffix of
`rowsList` still to be processed). -/
def rowSeg (R C r : Int) : List (List Cell) :=
  (pyRange (R - r)).map (fun i => colSeg (r + i) 0 C)

/-- The already-closed-out region during a Sidewinder pass: every cell of a
row before `r`, or of row `r` strictly left of the current run start `j0`. -/
def swMain (g0 : Grid) (r j0 : Int) (x : Cell) : Prop :=
  x ∈ g0.all_cells ∧ (x.row < r ∨ (x.row = r ∧ x.col < j0))

/-- The current-run component during a Sidewinder pass: row `r`, columns
`j0 … t` (column `t` is the yet-unprocessed cell already east-linked when the
run is nonempty). -/
def swRun (g0 : Grid) (r j0 t : Int) (x : Cell) : Prop :=
  x ∈ g0.all_cells ∧ x.row = r ∧ j0 ≤ x.col ∧ x.col ≤ t

/-- Sidewinder loop invariant (between cell steps inside row `r`): shape,
symmetry, well-formedness, unique paths, geometric links, and the exact
component structure — the closed-out region is one class, the current run
another, everything else isolated. -/
def SWInv (g0 g : Grid) (r j0 t : Int) : Prop :=
  g.num_rows = g0.num_rows ∧ g.num_cols = g0.num_cols ∧
  g.Symm ∧ g.WF ∧ UP g ∧ (∀ v w, g.Linked v w → GeoNbr v w) ∧
  (∀ x y, g.Reach x y ↔ x = y ∨ (swMain g0 r j0 x ∧ swMain g0 r j0 y) ∨
    (swRun g0 r j0 t x ∧ swRun g0 r j0 t y))

/-- Python `cell in sets` / `sets[cell]` for the Eller `sets` dictionary,
modelled as an insertion-ordered association list. -/
def dictGet? : List (Cell × Nat) → Cell → Option Nat
  | [], _ => none
  | (c', v) :: rest, c => if c = c' then some v else dictGet? rest c

/-- `sets[cell]` where the key is known to be present (Python would raise
`KeyError` otherwise; all reads in the source are of present keys). -/
def dictGet (sets : List (Cell × Nat)) (c : Cell) : Nat :=
  (dictGet? sets c).getD 0

/-- `sets[cell] = v`: overwrite if present, else append (dict insertion
order). -/
def dictSet : List (Cell × Nat) → Cell → Nat → List (Cell × Nat)
  | [], c, v => [(c, v)]
  | (c', v') :: rest, c, v =>
    if c = c' then (c, v) :: rest else (c', v') :: dictSet rest c v

/-- `EllerMazeMaker.merge_sets`: relabel every key carrying `source` to
`target`. -/
def mergeSets (sets : List (Cell × Nat)) (source target : Nat) : List (Cell × Nat) :=
  sets.map (fun p => if p.2 = source then (p.1, target) else p)

/-- Helper of `group_sets_by_id`: append `c` to the group of `id`, creating
the group at the end on first occurrence (dict insertion order). -/
def addToGroup : List (Nat × List Cell) → Nat → Cell → List (Nat × List Cell)
  | [], id, c => [(id, [c])]
  | (id', l) :: rest, id, c =>
    if id = id' then (id', l ++ [c]) :: rest else (id', l) :: addToGroup rest id c

/-- `EllerMazeMaker.group_sets_by_id`: group the row's cells by current set
id; the list order is the first-occurrence order of ids, matching Python's
dict value order. -/
def groupSetsById (sets : List (Cell × Nat)) (row : List Cell) : List (Nat × List Cell) :=
  row.foldl (fun groups cell => addToGroup groups (dictGet sets cell) cell) []

/-- State of `EllerMazeMaker.make_maze`: grid, the `sets` dict, the fresh-id
counter, consumed draws. -/
structure EllerState where
  g : Grid
  sets : List (Cell × Nat)
  set_counter : Nat
  k : Nat

/-- First phase of an Eller row: give every cell not yet in `sets` a fresh
set id. -/
def ellerAssign (row : List Cell) (st : EllerState) : EllerState :=
  row.foldl
    (fun st cell =>
      match dictGet? st.sets cell with
      | some _ => st
      | none =>
        { st with
          set_counter := st.set_counter + 1,
          sets := dictSet st.sets cell (st.set_counter + 1) })
    st

/-- Second phase: for each adjacent pair (west to east), when the ids differ,
flip a coin (`random.choice([True, False])`, drawn only then); on success,
link and merge the sets. -/
def ellerHorizontal (rng : Nat → Nat) (row : List Cell) (st : EllerState) : EllerState :=
  (row.zip row.tail).foldl
    (fun st pq =>
      if dictGet st.sets pq.1 ≠ dictGet st.sets pq.2 then
        if rng st.k % 2 = 0 then
          { st with
            g := st.g.link pq.1 pq.2,
            sets := mergeSets st.sets (dictGet st.sets pq.1) (dictGet st.sets pq.2),
            k := st.k + 1 }
        else { st with k := st.k + 1 }
      else st)
    st

/-- Third phase: for every group of the row (except in the last row), carve
south from one randomly chosen member and propagate its set id to the south
cell.  The `get_cell` lookup is `some` whenever `y < num_rows - 1`. -/
def ellerVertical (rng : Nat → Nat) (y : Nat) (row : List Cell) (st : EllerState) :
    EllerState :=
  (groupSetsById st.sets row).foldl
    (fun st grp =>
      if (y : Int) < st.g.num_rows - 1 then
        let cell_to_link := pyChoice grp.2 (rng st.k)
        let st' := { st with k := st.k + 1 }
        match st'.g.get_cell (cell_to_link.row + 1) cell_to_link.col with
        | some south_cell =>
          { st' with
            g := st'.g.link cell_to_link south_cell,
            sets := dictSet st'.sets south_cell (dictGet st'.sets cell_to_link) }
        | none => st'
      else st)
    st

/-- Last-row phase: link every adjacent pair whose ids (still) differ, with
no coin flip and no merge. -/
def ellerLastRow (row : List Cell) (st : EllerState) : EllerState :=
  (row.zip row.tail).foldl
    (fun st pq =>
      if dictGet st.sets pq.1 ≠ dictGet st.sets pq.2 then
        { st with g := st.g.link pq.1 pq.2 }
      else st)
    st

/-- `EllerMazeMaker.make_maze`. -/
def EllerMazeMaker.make_maze (g : Grid) (rng : Nat → Nat) : Grid :=
  ((g.rowsList.enum).foldl
    (fun st yrow =>
      let st1 := ellerAssign yrow.2 st
      let st2 := ellerHorizontal rng yrow.2 st1
      let st3 := ellerVertical rng yrow.1 yrow.2 st2
      if (yrow.1 : Int) = st3.g.num_rows - 1 then ellerLastRow yrow.2 st3 else st3)
    ⟨g, [], 0, 0⟩).g

/-! ### Eller verification predicates -/

/-- `cell in sets`. -/
def keyed (sets : List (Cell × Nat)) (c : Cell) : Prop :=
  dictGet? sets c ≠ none

/-- The number of distinct set ids currently in use. -/
def nids (sets : List (Cell × Nat)) : Nat :=
  (sets.map Prod.snd).toFinset.card

/-- Core Eller loop invariant, true at every intermediate state: shape,
symmetric well-formed geometric links, unique paths, links only between
keyed cells, two keyed cells connected exactly when their set ids agree,
distinct dict keys, ids bounded by the counter, and the edge/class count
balance. -/
structure ECore (g0 : Grid) (st : EllerState) : Prop where
  shapeR : st.g.num_rows = g0.num_rows
  shapeC : st.g.num_cols = g0.num_cols
  symm : st.g.Symm
  wf : st.g.WF
  up : UP st.g
  geo : ∀ v w, st.g.Linked v w → GeoNbr v w
  keyin : ∀ c, keyed st.sets c → c ∈ g0.all_cells
  linkkey : ∀ a b, st.g.Linked a b → keyed st.sets a ∧ keyed st.sets b
  classes : ∀ a b, keyed st.sets a → keyed st.sets b →
    (st.g.Reach a b ↔ dictGet st.sets a = dictGet st.sets b)
  nodupkeys : (st.sets.map Prod.fst).Nodup
  bound : ∀ p ∈ st.sets, p.2 ≤ st.set_counter
  count : st.g.edgeCount + nids st.sets = st.sets.length

/-- Keys lie in rows `≤ y`, and rows `< y` are fully keyed (the state between
row passes: row `y` holds only the cells seeded by the carves from above). -/
def rowsDone (sets : List (Cell × Nat)) (g0 : Grid) (y : Int) : Prop :=
  (∀ c, keyed sets c → c.row ≤ y) ∧ (∀ c ∈ g0.all_cells, c.row < y → keyed sets c)

/-- Keys lie in rows `≤ y` and rows `≤ y` are fully keyed (the state after the
assignment phase of row `y`). -/
def rowsDoneF (sets : List (Cell × Nat)) (g0 : Grid) (y : Int) : Prop :=
  (∀ c, keyed sets c → c.row ≤ y) ∧ (∀ c ∈ g0.all_cells, c.row ≤ y → keyed sets c)

/-- Every set class has a representative in row `y`. -/
def rowRep (sets : List (Cell × Nat)) (y : Int) : Prop :=
  ∀ a, keyed sets a → ∃ d, keyed sets d ∧ d.row = y ∧ dictGet sets d = dictGet sets a

/-- Within row `y`, distinct keyed cells carry distinct ids. -/
def rowInj (sets : List (Cell × Nat)) (y : Int) : Prop :=
  ∀ c d, keyed sets c → keyed sets d → c.row = y → d.row = y →
    dictGet sets c = dictGet sets d → c = d

/-- The full Eller invariant between row passes. -/
def EInv (g0 : Grid) (st : EllerState) (y : Int) : Prop :=
  ECore g0 st ∧ rowsDone st.sets g0 y ∧ rowRep st.sets y ∧ rowInj st.sets y

/-- Equal ids are contiguous among the columns `0 … j` of row `y`. -/
def rowConvex (sets : List (Cell × Nat)) (y j : Int) : Prop :=
  ∀ a b c : Int, 0 ≤ a → a ≤ b → b ≤ c → c ≤ j →
    dictGet sets ⟨y, a⟩ = dictGet sets ⟨y, c⟩ → dictGet sets ⟨y, b⟩ = dictGet sets ⟨y, a⟩

/-- Each column beyond `j` of row `y` carries an id distinct from every other
column of the row (true of the not-yet-processed part of the horizontal
pass). -/
def rowFresh (sets : List (Cell × Nat)) (y j C : Int) : Prop :=
  ∀ a b : Int, 0 ≤ a → a < b → b < C → j < b →
    dictGet sets ⟨y, a⟩ ≠ dictGet sets ⟨y, b⟩

/-- The class of `x` meets columns `0 … j` of row `y` (the merged zone of the
last-row pass). -/
def rowTouch (sets : List (Cell × Nat)) (y j : Int) (x : Cell) : Prop :=
  ∃ c : Int, 0 ≤ c ∧ c ≤ j ∧ dictGet sets ⟨y, c⟩ = dictGet sets x

/-- Every key in row `y + 1` sits below a row-`y` key whose id (in the
pre-carve dict `sets0`) has already been carved. -/
def carvedBelow (sets0 sets : List (Cell × Nat)) (y : Int) (D : List Nat) : Prop :=
  ∀ c, keyed sets c → c.row = y + 1 →
    keyed sets0 ⟨y, c.col⟩ ∧ dictGet sets0 ⟨y, c.col⟩ ∈ D

/-- Every carved id has a keyed representative in row `y + 1`. -/
def carveWitness (sets : List (Cell × Nat)) (y : Int) (D : List Nat) : Prop :=
  ∀ gid ∈ D, ∃ d, keyed sets d ∧ d.row = y + 1 ∧ dictGet sets d = gid

/-- The adjacent pairs `(⟨r,j⟩,⟨r,j+1⟩) … (⟨r,t-1⟩,⟨r,t⟩)` of one row (the
`zip(row, row[1:])` iteration of the horizontal and last-row passes). -/
def zipSeg (r j t : Int) : List (Cell × Cell) :=
  (pyRange (t - j)).map (fun i => (⟨r, j + i⟩, ⟨r, j + i + 1⟩))

/-- Validity of a suffix of the group list against the dict `sets`: groups
are nonempty, their members are keyed row-`y` cells of the grid carrying the
group id, and group ids are distinct. -/
def goodGroups (sets : List (Cell × Nat)) (y C : Int) (S : List (Nat × List Cell)) : Prop :=
  (∀ p ∈ S, p.2 ≠ [] ∧ ∀ c ∈ p.2, c.row = y ∧ 0 ≤ c.col ∧ c.col < C ∧
    keyed sets c ∧ dictGet sets c = p.1) ∧ (S.map Prod.fst).Nodup

/-! ### Dijkstra-loop invariant and the chain grids -/

/-- Sum of all cell distances: together with the queue length, the
termination measure of the Dijkstra loop. -/
def sumDist (g : Grid) (s : DState) : Nat :=
  (g.all_cells.map s.dist).sum

/-- Invariant of the Dijkstra loop: queued entries carry grid cells, the
start cell's distance is zero, every cell's distance is at most the
sentinel, every distance below the sentinel is witnessed by a path with at
most that many edges, and every link out of a cell either already satisfies
the triangle bound or its source still awaits processing in the queue. -/
def DInv (g : Grid) (s : DState) : Prop :=
  (∀ q ∈ s.queue, Prod.snd q ∈ g.all_cells) ∧
  s.dist ⟨0, 0⟩ = 0 ∧
  (∀ x ∈ g.all_cells, s.dist x ≤ 10000) ∧
  (∀ x ∈ g.all_cells, s.dist x < 10000 →
    ∃ p, IsPath g p ⟨0, 0⟩ x ∧ p.length ≤ s.dist x + 1) ∧
  (∀ u v : Cell, u ∈ g.all_cells → g.Linked u v →
    s.dist v ≤ s.dist u + 1 ∨ ∃ d, (d, u) ∈ s.queue)

/-- The body of the `relax` fold, named for use in the loop proofs (it is
definitionally the lambda inside `DjikstraSolver.relax`). -/
def relaxStep (g : Grid) (cell : Cell) (s : DState) (nbr : Cell) : DState :=
  let new_distance := s.dist cell + DjikstraSolver.weight g cell nbr
  if new_distance < s.dist nbr then
    { dist := Function.update s.dist nbr new_distance,
      prev := Function.update s.prev nbr (some cell),
      queue := addToQueue s.queue nbr new_distance }
  else s

/-- Generalization of `DInv` to the middle of one relaxation pass over the
popped cell's links: a link out of a cell may also be excused because its
source is the cell being relaxed and its target has not been processed yet
(it lies in `l`, the remaining neighbor list). -/
def DRelaxInv (g : Grid) (cell : Cell) (l : List Cell) (s : DState) : Prop :=
  (∀ q ∈ s.queue, Prod.snd q ∈ g.all_cells) ∧
  s.dist ⟨0, 0⟩ = 0 ∧
  (∀ x ∈ g.all_cells, s.dist x ≤ 10000) ∧
  (∀ x ∈ g.all_cells, s.dist x < 10000 →
    ∃ p, IsPath g p ⟨0, 0⟩ x ∧ p.length ≤ s.dist x + 1) ∧
  (∀ u v : Cell, u ∈ g.all_cells → g.Linked u v →
    s.dist v ≤ s.dist u + 1 ∨ (∃ d, (d, u) ∈ s.queue) ∨ (u = cell ∧ v ∈ l))

/-- A 1×`C` grid whose first `n + 1` row cells are linked into a chain
(`(0, i)`–`(0, i + 1)` for every `i < n`). -/
def chainLinks (C : Int) (n : Nat) : Grid :=
  (List.range n).foldl (fun (g : Grid) (i : Nat) => g.link ⟨0, (i : Int)⟩ ⟨0, (i : Int) + 1⟩)
    (Grid.construct 1 C)

/-- The 1×`(n + 1)` chain grid: a spanning tree whose unique corner-to-corner
path has exactly `n` edges. -/
def chainGrid (n : Nat) : Grid :=
  chainLinks ((n : Int) + 1) n

/-- The row cells of the chain in order: its unique corner-to-corner path. -/
def chainPath (n : Nat) : List Cell :=
  (List.range (n + 1)).map (fun (i : Nat) => ⟨0, (i : Int)⟩)

/-! ### Shape lemmas -/

theorem pyRange_length (n : Int) : (pyRange n).length = n.toNat := by
  rw [pyRange, List.length_map, List.length_range]

theorem mem_pyRange {n i : Int} : i ∈ pyRange n ↔ 0 ≤ i ∧ i < n := by
  rw [pyRange, List.mem_map]
  constructor
  · rintro ⟨j, hj, rfl⟩
    rw [List.mem_range] at hj
    simp only [Int.ofNat_eq_natCast]
    omega
  · rintro ⟨h0, hn⟩
    refine ⟨i.toNat, List.mem_range.2 (by omega), ?_⟩
    simp only [Int.ofNat_eq_natCast]
    omega

theorem pyRange_nodup (n : Int) : (pyRange n).Nodup :=
  List.Nodup.map (fun a b h => by
    simp only [Int.ofNat_eq_natCast] at h
    omega) (List.nodup_range n.toNat)

theorem pyRange_getElem? {n : Int} {i : Nat} (h : (i : Int) < n) :
    (pyRange n)[i]? = some (i : Int) := by
  have hi : i < n.toNat := by omega
  rw [pyRange, List.getElem?_map, List.getElem?_range hi]
  simp only [Option.map_some', Int.ofNat_eq_natCast]

theorem get_cell_eq (g : Grid) (row col : Int) :
    g.get_cell row col =
      if 0 ≤ row ∧ row < g.num_rows ∧ 0 ≤ col ∧ col < g.num_cols then
        some ⟨row, col⟩
      else none := by
  unfold Grid.get_cell
  by_cases h : 0 ≤ row ∧ row < g.num_rows ∧ 0 ≤ col ∧ col < g.num_cols
  · obtain ⟨h1, h2, h3, h4⟩ := h
    have hr : ((row.toNat : Int)) < g.num_rows := by omega
    have hc : ((col.toNat : Int)) < g.num_cols := by omega
    rw [if_pos ⟨h1, h2, h3, h4⟩, if_pos ⟨h1, h2, h3, h4⟩, Grid.rowsList,
      List.getElem?_map, pyRange_getElem? hr]
    simp only [Option.map_some', Option.some_bind, List.getElem?_map, pyRange_getElem? hc]
    rw [Int.toNat_of_nonneg h1, Int.toNat_of_nonneg h3]
  · simp [h]

theorem mem_all_cells {g : Grid} {c : Cell} :
    c ∈ g.all_cells ↔
      0 ≤ c.row ∧ c.row < g.num_rows ∧ 0 ≤ c.col ∧ c.col < g.num_cols := by
  simp only [Grid.all_cells, Grid.rowsList, List.mem_flatten, List.mem_map]
  constructor
  · rintro ⟨L, ⟨r, hr, rfl⟩, hc⟩
    obtain ⟨cc, hcc, rfl⟩ := List.mem_map.1 hc
    have hr' := mem_pyRange.1 hr
    have hc' := mem_pyRange.1 hcc
    exact ⟨hr'.1, hr'.2, hc'.1, hc'.2⟩
  · rintro ⟨h1, h2, h3, h4⟩
    refine ⟨(pyRange g.num_cols).map (fun col => ⟨c.row, col⟩), ⟨c.row, mem_pyRange.2 ⟨h1, h2⟩, rfl⟩, ?_⟩
    exact List.mem_map.2 ⟨c.col, mem_pyRange.2 ⟨h3, h4⟩, rfl⟩

theorem all_cells_nodup (g : Grid) : g.all_cells.Nodup := by
  unfold Grid.all_cells Grid.rowsList
  rw [List.nodup_flatten]
  constructor
  · intro L hL
    obtain ⟨r, _, rfl⟩ := List.mem_map.1 hL
    exact List.Nodup.map (fun a b h => by injection h) (pyRange_nodup _)
  · rw [List.pairwise_map]
    refine List.Pairwise.imp ?_ (pyRange_nodup g.num_rows)
    intro a b h x hxa hxb
    obtain ⟨ca, _, rfl⟩ := List.mem_map.1 hxa
    obtain ⟨cb, _, hcb⟩ := List.mem_map.1 hxb
    exact h (by injection hcb with h1 h2; exact h1.symm)

theorem all_cells_length (g : Grid) :
    g.all_cells.length = g.num_rows.toNat * g.num_cols.toNat := by
  unfold Grid.all_cells Grid.rowsList
  rw [List.length_flatten, List.map_map]
  have h : (List.length ∘ fun row : Int =>
      (pyRange g.num_cols).map (fun col => (⟨row, col⟩ : Cell)))
      = fun _ : Int => g.num_cols.toNat := by
    funext r
    simp only [Function.comp_apply, List.length_map, pyRange_length]
  rw [h, List.map_const', List.sum_replicate, smul_eq_mul, pyRange_length]

theorem construct_shape (R C : Int) :
    (Grid.construct R C).num_rows = R ∧ (Grid.construct R C).num_cols = C ∧
      (Grid.construct R C).links = [] :=
  ⟨rfl, rfl, rfl⟩

/-- Linking (in either mode) preserves the dimensions, hence all shape-derived
data (`rowsList`, `all_cells`, `get_cell`, `get_neighbor`). -/
theorem linkFlag_shape (g : Grid) (a b : Cell) (f : Bool) :
    ((g.linkFlag a b f).num_rows = g.num_rows) ∧ ((g.linkFlag a b f).num_cols = g.num_cols) := by
  unfold Grid.linkFlag Grid.linkDir
  cases f <;> simp

/-! ### C5 and C9 -/

/-- C5 counterexample: `Grid.__init__` performs no dimension validation and
the program defines no `ConfigurationError`; constructing with `rows = 0`
succeeds and yields a grid object with zero cells (rather than failing). -/
theorem C5_counterexample :
    (Grid.construct 0 1).all_cells = [] ∧ (Grid.construct 0 1).num_rows = 0 := by
  constructor
  · decide
  · rfl

/-- C5 (amended): construction never fails; for `rows, cols ≥ 1` it allocates
exactly `rows × cols` cells, one per in-range `(row, col)` pair (no
duplicates); for `rows ≤ 0` or `cols ≤ 0` it yields a grid with no cells
(`toNat` sends non-positive dimensions to `0`). -/
theorem C5_construct_cells (R C : Int) :
    (Grid.construct R C).all_cells.length = R.toNat * C.toNat ∧
      (Grid.construct R C).all_cells.Nodup ∧
      (∀ c : Cell, c ∈ (Grid.construct R C).all_cells ↔
        0 ≤ c.row ∧ c.row < R ∧ 0 ≤ c.col ∧ c.col < C) :=
  ⟨all_cells_length _, all_cells_nodup _, fun _ => mem_all_cells⟩

/-- C9: `get_cell` returns `None` on any out-of-range coordinate (never an
error: the guarded branch is total), and for in-range coordinates returns the
node whose identity is that pair; that node occurs exactly once among the
grid's cells.  Stated for arbitrary grid states: lookup depends only on the
dimensions. -/
theorem C9_get_cell (g : Grid) (row col : Int) :
    (g.get_cell row col =
      if 0 ≤ row ∧ row < g.num_rows ∧ 0 ≤ col ∧ col < g.num_cols then
        some ⟨row, col⟩
      else none) ∧
    (g.all_cells.count (⟨row, col⟩ : Cell) =
      if 0 ≤ row ∧ row < g.num_rows ∧ 0 ≤ col ∧ col < g.num_cols then 1 else 0) := by
  refine ⟨get_cell_eq g row col, ?_⟩
  by_cases h : 0 ≤ row ∧ row < g.num_rows ∧ 0 ≤ col ∧ col < g.num_cols
  · rw [if_pos h]
    exact List.count_eq_one_of_mem (all_cells_nodup g) (mem_all_cells.2 h)
  · rw [if_neg h]
    rw [List.count_eq_zero]
    intro hc
    exact h (mem_all_cells.1 hc)

/-! ### Basic link lemmas -/

theorem mem_cellLinks {g : Grid} {a b : Cell} : b ∈ g.cellLinks a ↔ g.Linked a b := by
  simp only [Grid.cellLinks, List.mem_map, List.mem_filter, decide_eq_true_eq, Grid.Linked]
  constructor
  · rintro ⟨p, ⟨hp, h1⟩, h2⟩
    cases p
    simp only at h1 h2
    subst h1; subst h2
    exact hp
  · intro h
    exact ⟨(a, b), ⟨h, rfl⟩, rfl⟩

theorem foldl_congr_mem {α β : Type} {l : List α} {f f' : β → α → β} {s : β}
    (h : ∀ x ∈ l, ∀ t, f t x = f' t x) : l.foldl f s = l.foldl f' s := by
  induction l generalizing s with
  | nil => rfl
  | cons a l ih =>
    simp only [List.foldl_cons]
    rw [h a (List.mem_cons_self a l) s]
    exact ih (fun x hx t => h x (List.mem_cons_of_mem a hx) t)

/-! ### C10, C8, C6, C7 -/

/-- C10: `solve_maze(s, s)` immediately pops the seeded entry `(s, [s])`,
sees `current == end_cell`, and returns `[s]`, whatever the grid's link
state. -/
theorem C10_solve_maze_self (g : Grid) (s : Cell) :
    g.solve_maze s s = some (some [s]) := by
  have h : dfsFuel g = ((g.links.length + 2) ^ (g.links.length + 2)) + 1 := rfl
  rw [Grid.solve_maze, h, solveMazeLoop]
  simp

/-- C8: during a solve, relaxation iterates only over `cell.links`, so every
`weight` call is on a linked pair and yields `1`; `relax` therefore coincides
with the unit-cost relaxation `relaxUnit` in which the unlinked `10000`
branch of `weight` does not exist. -/
theorem C8_relax_eq_relaxUnit (g : Grid) (s : DState) (cell : Cell) :
    DjikstraSolver.relax g s cell = DjikstraSolver.relaxUnit g s cell := by
  unfold DjikstraSolver.relax DjikstraSolver.relaxUnit
  refine foldl_congr_mem ?_
  intro nbr hnbr t
  have hl : g.Linked cell nbr := mem_cellLinks.1 hnbr
  simp only [DjikstraSolver.weight, if_pos hl]

theorem initFold_prev (l : List Cell) (s : DState) :
    (l.foldl (fun s c => { s with dist := Function.update s.dist c 10000 }) s).prev
      = s.prev := by
  induction l generalizing s with
  | nil => rfl
  | cons a l ih => simpa using ih _

theorem initFold_queue (l : List Cell) (s : DState) :
    (l.foldl (fun s c => { s with dist := Function.update s.dist c 10000 }) s).queue
      = s.queue := by
  induction l generalizing s with
  | nil => rfl
  | cons a l ih => simpa using ih _

theorem initFold_dist (l : List Cell) (s : DState) (c : Cell) :
    (l.foldl (fun s c => { s with dist := Function.update s.dist c 10000 }) s).dist c
      = if c ∈ l then 10000 else s.dist c := by
  induction l generalizing s with
  | nil => simp
  | cons a l ih =>
    simp only [List.foldl_cons, ih, List.mem_cons]
    by_cases hc : c ∈ l
    · simp [hc]
    · by_cases hca : c = a <;> simp [hc, hca, Function.update]

/-- The start cell of every Dijkstra solve on a grid with positive
dimensions. -/
theorem get_cell_start {g : Grid} (hR : 1 ≤ g.num_rows) (hC : 1 ≤ g.num_cols) :
    g.get_cell 0 0 = some ⟨0, 0⟩ := by
  rw [get_cell_eq]
  exact if_pos ⟨le_refl 0, by omega, le_refl 0, by omega⟩

theorem initialize_spec (g : Grid) (s : DState)
    (hR : 1 ≤ g.num_rows) (hC : 1 ≤ g.num_cols) :
    ( DjikstraSolver.initialize g s).prev = s.prev ∧
    ( DjikstraSolver.initialize g s).queue = s.queue ∧
    ( DjikstraSolver.initialize g s).dist ⟨0, 0⟩ = 0 ∧
    (∀ c ∈ g.all_cells, c ≠ ⟨0, 0⟩ →
      ( DjikstraSolver.initialize g s).dist c = 10000) := by
  unfold DjikstraSolver.initialize
  rw [get_cell_start hR hC]
  refine ⟨initFold_prev _ _, initFold_queue _ _, ?_, ?_⟩
  · simp [Function.update]
  · intro c hc hne
    simp only [Function.update, initFold_dist]
    simp [hne, hc]

/-- C6 (amended): `initialize` sets the distance of every cell to the
sentinel `10000` and then `get_cell(0,0)`'s distance to `0`; it does not
touch predecessors (or the queue).  On the first solve of a fresh grid all
predecessors are already absent, so they are all empty after `initialize`;
but emptiness of predecessors is not something `initialize` establishes
(see the counterexample). -/
theorem C6_initialize (g : Grid) (s : DState)
    (hR : 1 ≤ g.num_rows) (hC : 1 ≤ g.num_cols) :
    ( DjikstraSolver.initialize g s).prev = s.prev ∧
    ( DjikstraSolver.initialize g s).dist ⟨0, 0⟩ = 0 ∧
    (∀ c ∈ g.all_cells, c ≠ ⟨0, 0⟩ →
      ( DjikstraSolver.initialize g s).dist c = 10000) := by
  obtain ⟨h1, _, h3, h4⟩ := initialize_spec g s hR hC
  exact ⟨h1, h3, h4⟩

/-- C6 witness: the amended statement at a concrete input. -/
theorem C6_initialize_witness :
    ( DjikstraSolver.initialize (Grid.construct 1 2) freshState).prev = freshState.prev ∧
    ( DjikstraSolver.initialize (Grid.construct 1 2) freshState).dist ⟨0, 0⟩ = 0 ∧
    (∀ c ∈ (Grid.construct 1 2).all_cells, c ≠ ⟨0, 0⟩ →
      ( DjikstraSolver.initialize (Grid.construct 1 2) freshState).dist c = 10000) :=
  C6_initialize (Grid.construct 1 2) freshState (by decide) (by decide)

/-- C6 counterexample: `initialize` does *not* set predecessors to empty.
Take the 1×2 grid with its two cells linked and run the first loop iteration
of an actual solve (pop the seeded start, `relax` it): this leaves
`previous[(0,1)] = (0,0)`.  A subsequent `initialize` — exactly what the
start of every solve executes — leaves that stale predecessor in place, so
the claim that initialization sets every node's predecessor to empty is
false. -/
theorem C6_counterexample :
    ( DjikstraSolver.initialize ((Grid.construct 1 2).link ⟨0, 0⟩ ⟨0, 1⟩)
        (DjikstraSolver.relax ((Grid.construct 1 2).link ⟨0, 0⟩ ⟨0, 1⟩)
          { DjikstraSolver.initialize ((Grid.construct 1 2).link ⟨0, 0⟩ ⟨0, 1⟩) freshState with
              queue := [] }
          ⟨0, 0⟩)).prev ⟨0, 1⟩ = some ⟨0, 0⟩ := by
  decide

/-- C7, unweighted-traversal half, plus helpers for the weighted half. -/
theorem C7_solve_maze_disconnected (R C : Int) (a b : Cell) (hab : a ≠ b) :
    (Grid.construct R C).solve_maze a b = some none := by
  have h : dfsFuel (Grid.construct R C) = 4 + 1 := rfl
  rw [Grid.solve_maze, h, solveMazeLoop]
  simp only [if_neg hab]
  have hcl : (Grid.construct R C).cellLinks a = [] := rfl
  rw [hcl]
  rfl

theorem relax_no_links {g : Grid} {s : DState} {c : Cell}
    (h : g.cellLinks c = []) : DjikstraSolver.relax g s c = s := by
  unfold DjikstraSolver.relax
  rw [h]
  rfl

theorem djLoop_succ (g : Grid) (fuel : Nat) (s : DState) :
    djLoop g (fuel + 1) s =
      match s.queue with
      | [] => some s
      | (_, curr_cell) :: rest =>
        djLoop g fuel (DjikstraSolver.relax g { s with queue := rest } curr_cell) := rfl

/-- C7: on a freshly constructed grid (no generator has run: zero links),
solving between two distinct nodes yields the explicit not-found value for
both solvers — `None` for `solve_maze`, `[]` for `DjikstraSolver.solve` —
and neither computation errors (both totalize to `some` results).  For the
weighted solver the two distinct endpoints are its fixed corners, so the
grid must have more than one cell. -/
theorem C7_disconnected (R C : Int) (a b : Cell) (hab : a ≠ b)
    (hR : 1 ≤ R) (hC : 1 ≤ C) (hcorner : ¬(R = 1 ∧ C = 1)) :
    (Grid.construct R C).solve_maze a b = some none ∧
    DjikstraSolver.solve (Grid.construct R C) freshState = some [] := by
  refine ⟨C7_solve_maze_disconnected R C a b hab, ?_⟩
  set g := Grid.construct R C with hg
  have hgR : g.num_rows = R := rfl
  have hgC : g.num_cols = C := rfl
  unfold DjikstraSolver.solve
  rw [get_cell_start (by rw [hgR]; exact hR) (by rw [hgC]; exact hC)]
  have hfuel : djFuel g = (10000 * g.all_cells.length + 1) + 1 := rfl
  have hq : ( DjikstraSolver.initialize g freshState).queue = [] := by
    unfold DjikstraSolver.initialize
    rw [get_cell_start (by rw [hgR]; exact hR) (by rw [hgC]; exact hC)]
    exact initFold_queue _ _
  dsimp only
  rw [hfuel, djLoop_succ]
  simp only [hq]
  have haddq : addToQueue [] ⟨0, 0⟩ 0 = [(0, ⟨0, 0⟩)] := rfl
  rw [haddq]
  dsimp only
  rw [relax_no_links (by rfl)]
  rw [djLoop_succ]
  have hb : (0 : Int) ≤ R - 1 ∧ R - 1 < R ∧ (0 : Int) ≤ C - 1 ∧ C - 1 < C := by omega
  have htarget : g.get_cell (g.num_rows - 1) (g.num_cols - 1)
      = some ⟨R - 1, C - 1⟩ := by
    rw [get_cell_eq]
    exact if_pos hb
  rw [htarget]
  have hne : (⟨R - 1, C - 1⟩ : Cell) ≠ ⟨0, 0⟩ := by
    intro h
    injection h with h1 h2
    exact hcorner ⟨by omega, by omega⟩
  have hmem : (⟨R - 1, C - 1⟩ : Cell) ∈ g.all_cells := mem_all_cells.2 hb
  have hd := (initialize_spec g freshState (by rw [hgR]; exact hR)
    (by rw [hgC]; exact hC)).2.2.2 _ hmem hne
  simp [hd]

/-- C7 witness: the statement at the concrete 2×2 grid and its two corners. -/
theorem C7_disconnected_witness :
    (Grid.construct 2 2).solve_maze ⟨0, 0⟩ ⟨1, 1⟩ = some none ∧
    DjikstraSolver.solve (Grid.construct 2 2) freshState = some [] :=
  C7_disconnected 2 2 ⟨0, 0⟩ ⟨1, 1⟩ (by decide) (by decide) (by decide) (by decide)

/-! ### C3: the unweighted traversal solver returns a valid simple path -/

theorem mem_setAdd {α : Type} [DecidableEq α] {l : List α} {x y : α} :
    y ∈ setAdd l x ↔ y ∈ l ∨ y = x := by
  unfold setAdd
  by_cases h : x ∈ l
  · rw [if_pos h]
    constructor
    · exact Or.inl
    · rintro (hy | rfl)
      · exact hy
      · exact h
  · rw [if_neg h]
    simp [List.mem_append]

theorem cellLinks_sub_snd (g : Grid) (c : Cell) :
    g.cellLinks c ⊆ g.links.map Prod.snd := by
  intro x hx
  simp only [Grid.cellLinks, List.mem_map, List.mem_filter] at hx
  obtain ⟨p, ⟨hp, _⟩, h2⟩ := hx
  exact List.mem_map.2 ⟨p, hp, h2⟩

theorem cellLinks_length_le (g : Grid) (c : Cell) :
    (g.cellLinks c).length ≤ g.links.length := by
  rw [Grid.cellLinks, List.length_map]
  exact List.length_filter_le _ _

theorem nodup_subset_length {l u : List Cell} (hn : l.Nodup) (hs : l ⊆ u) :
    l.length ≤ u.length := by
  calc l.length = l.toFinset.card := (List.toFinset_card_of_nodup hn).symm
    _ ≤ u.toFinset.card :=
      Finset.card_le_card (fun x hx => List.mem_toFinset.2 (hs (List.mem_toFinset.1 hx)))
    _ ≤ u.length := u.toFinset_card_le

theorem mem_pushFold (_g : Grid) (v p : List Cell) (l : List Cell)
    (st : List (Cell × List Cell)) (x : Cell × List Cell) :
    x ∈ l.foldl (fun st nbr => if nbr ∈ v then st else (nbr, p ++ [nbr]) :: st) st ↔
      x ∈ st ∨ ∃ nbr ∈ l, nbr ∉ v ∧ x = (nbr, p ++ [nbr]) := by
  induction l generalizing st with
  | nil => simp
  | cons a l ih =>
    simp only [List.foldl_cons]
    by_cases ha : a ∈ v
    · rw [if_pos ha, ih]
      constructor
      · rintro (h | ⟨nbr, hn, hnv, rfl⟩)
        · exact Or.inl h
        · exact Or.inr ⟨nbr, List.mem_cons_of_mem _ hn, hnv, rfl⟩
      · rintro (h | ⟨nbr, hn, hnv, rfl⟩)
        · exact Or.inl h
        · rcases List.mem_cons.1 hn with rfl | hn
          · exact absurd ha hnv
          · exact Or.inr ⟨nbr, hn, hnv, rfl⟩
    · rw [if_neg ha, ih]
      constructor
      · rintro (h | ⟨nbr, hn, hnv, rfl⟩)
        · rcases List.mem_cons.1 h with rfl | h
          · exact Or.inr ⟨a, List.mem_cons_self a l, ha, rfl⟩
          · exact Or.inl h
        · exact Or.inr ⟨nbr, List.mem_cons_of_mem _ hn, hnv, rfl⟩
      · rintro (h | ⟨nbr, hn, hnv, rfl⟩)
        · exact Or.inl (List.mem_cons_of_mem _ h)
        · rcases List.mem_cons.1 hn with rfl | hn
          · exact Or.inl (List.mem_cons_self _ _)
          · exact Or.inr ⟨nbr, hn, hnv, rfl⟩

theorem pushFold_measure (g : Grid) (v p : List Cell) (l : List Cell)
    (st : List (Cell × List Cell)) :
    stackMeasure g (l.foldl (fun st nbr => if nbr ∈ v then st else (nbr, p ++ [nbr]) :: st) st)
      ≤ stackMeasure g st +
        l.length * (g.links.length + 2) ^ ((g.links.length + 2) - (p.length + 1)) := by
  induction l generalizing st with
  | nil => simp
  | cons a l ih =>
    simp only [List.foldl_cons, List.length_cons]
    by_cases ha : a ∈ v
    · rw [if_pos ha]
      refine le_trans (ih st) ?_
      exact Nat.add_le_add_left (Nat.mul_le_mul_right _ (Nat.le_succ _)) _
    · rw [if_neg ha]
      have h1 := ih ((a, p ++ [a]) :: st)
      have h2 : stackMeasure g ((a, p ++ [a]) :: st)
          = (g.links.length + 2) ^ ((g.links.length + 2) - (p.length + 1))
            + stackMeasure g st := by
        simp [stackMeasure, dfsWeight, List.length_append]
      rw [h2] at h1
      nlinarith [h1]

/-- When an unvisited path leads from the just-popped `cur` to `b ≠ cur`, one
of `cur`'s pushed link-successors carries an unvisited path to `b` avoiding
the enlarged visited set. -/
theorem unvPath_step_aux (g : Grid) (visited : List Cell) (cur b : Cell) (hne : cur ≠ b) :
    ∀ n l, l.length ≤ n → List.Chain g.Linked cur l → (cur :: l).getLast? = some b →
      (∀ y ∈ l, y ∉ visited) →
      ∃ y, g.Linked cur y ∧ y ∉ setAdd visited cur ∧ UnvPath g (setAdd visited cur) y b := by
  intro n
  induction n with
  | zero =>
    intro l hl _ hlast _
    have hl0 : l = [] := List.length_eq_zero.1 (Nat.le_zero.1 hl)
    subst hl0
    simp only [List.getLast?_singleton, Option.some.injEq] at hlast
    exact absurd hlast hne
  | succ n ih =>
    intro l hl hchain hlast hunv
    match l, hchain with
    | [], _ =>
      simp only [List.getLast?_singleton, Option.some.injEq] at hlast
      exact absurd hlast hne
    | x1 :: l', List.Chain.cons hstep hchain' =>
      have hx1nv : x1 ∉ visited := hunv x1 (List.mem_cons_self _ _)
      by_cases hx1 : x1 = cur
      · subst hx1
        refine ih l' (by simpa using hl) hchain' ?_ (fun y hy => hunv y (List.mem_cons_of_mem _ hy))
        rwa [List.getLast?_cons_cons] at hlast
      · by_cases hcur : cur ∈ l'
        · obtain ⟨l1, l2, rfl⟩ := List.append_of_mem hcur
          have hchain2 : List.Chain g.Linked cur l2 := (List.chain_split.1 hchain').2
          have hlast2 : (cur :: l2).getLast? = some b := by
            have he : cur :: x1 :: (l1 ++ cur :: l2) = (cur :: x1 :: l1) ++ (cur :: l2) := by
              simp
            rw [he, List.getLast?_append_of_ne_nil _ (List.cons_ne_nil _ _)] at hlast
            exact hlast
          have hlen : l2.length ≤ n := by
            have := hl
            simp only [List.length_cons, List.length_append] at this
            omega
          exact ih l2 hlen hchain2 hlast2
            (fun y hy => hunv y (List.mem_cons_of_mem _ (List.mem_append_right _ (List.mem_cons_of_mem _ hy))))
        · refine ⟨x1, hstep, ?_, ⟨l', hchain', ?_, ?_⟩⟩
          · rw [mem_setAdd]
            push_neg
            exact ⟨hx1nv, hx1⟩
          · rwa [List.getLast?_cons_cons] at hlast
          · intro y hy
            rw [mem_setAdd]
            push_neg
            exact ⟨hunv y (List.mem_cons_of_mem _ hy), fun heq => hcur (heq ▸ hy)⟩

theorem unvPath_step (g : Grid) {visited : List Cell} {cur b : Cell}
    (hne : cur ≠ b) (h : UnvPath g visited cur b) :
    ∃ y, g.Linked cur y ∧ y ∉ setAdd visited cur ∧ UnvPath g (setAdd visited cur) y b := by
  obtain ⟨l, hchain, hlast, hunv⟩ := h
  exact unvPath_step_aux g visited cur b hne l.length l le_rfl hchain hlast hunv

theorem reachD_unvPath {g : Grid} {a b : Cell} (h : g.ReachD a b) :
    UnvPath g [] a b := by
  unfold Grid.ReachD at h
  induction h using Relation.ReflTransGen.head_induction_on with
  | refl => exact ⟨[], List.Chain.nil, rfl, by simp⟩
  | head hstep _ ih =>
    obtain ⟨l, hc, hl, _⟩ := ih
    exact ⟨_ :: l, List.Chain.cons hstep hc, by rwa [List.getLast?_cons_cons], by simp⟩

theorem solveMazeLoop_cons (g : Grid) (end_cell : Cell) (fuel : Nat) (cur : Cell)
    (path : List Cell) (rest : List (Cell × List Cell)) (visited : List Cell) :
    solveMazeLoop g end_cell (fuel + 1) ((cur, path) :: rest) visited =
      if cur = end_cell then some (some path)
      else
        solveMazeLoop g end_cell fuel
          ((g.cellLinks cur).foldl
            (fun st nbr => if nbr ∈ setAdd visited cur then st
              else (nbr, path ++ [nbr]) :: st) rest)
          (setAdd visited cur) := rfl

theorem head?_append_of_head? {l l' : List Cell} {a : Cell} (h : l.head? = some a) :
    (l ++ l').head? = some a := by
  cases l with
  | nil => simp at h
  | cons x xs => simpa using h

theorem mem_of_getLast?_dropLast {l : List Cell} {c x : Cell}
    (hl : l.getLast? = some c) (hx : x ∈ l) : x ∈ l.dropLast ∨ x = c := by
  have hne : l ≠ [] := by
    intro h
    subst h
    simp at hl
  have hdl : l.dropLast ++ [l.getLast hne] = l := List.dropLast_append_getLast hne
  have hc : l.getLast hne = c := by
    have := List.getLast?_eq_getLast l hne
    rw [this] at hl
    exact Option.some.inj hl
  rw [← hdl] at hx
  rcases List.mem_append.1 hx with h | h
  · exact Or.inl h
  · right
    rw [← hc]
    simpa using h

/-- Master lemma for `solve_maze`: given the entry invariant, enough fuel,
and a stack entry from which `b` is reachable through unvisited nodes, the
loop returns a duplicate-free linked path from `a` to `b`. -/
theorem solveMazeLoop_main (g : Grid) (a b : Cell) :
    ∀ (fuel : Nat) (stack : List (Cell × List Cell)) (visited : List Cell),
      stackMeasure g stack ≤ fuel →
      (∀ e ∈ stack, EntryOK g a (a :: g.links.map Prod.snd) visited e) →
      (∃ e ∈ stack, UnvPath g visited e.1 b) →
      ∃ p, solveMazeLoop g b fuel stack visited = some (some p) ∧
        p.head? = some a ∧ p.getLast? = some b ∧ List.Chain' g.Linked p ∧ p.Nodup := by
  intro fuel
  induction fuel with
  | zero =>
    intro stack visited hm _ hex
    obtain ⟨e, he, _⟩ := hex
    exfalso
    have h1 : 0 < dfsWeight g e := Nat.pos_pow_of_pos _ (by omega)
    have h2 : dfsWeight g e ≤ stackMeasure g stack :=
      List.single_le_sum (fun x _ => Nat.zero_le x) _ (List.mem_map.2 ⟨e, he, rfl⟩)
    omega
  | succ fuel ih =>
    intro stack visited hm hinv hex
    cases stack with
    | nil =>
      obtain ⟨e, he, _⟩ := hex
      exact absurd he (List.not_mem_nil e)
    | cons top rest =>
      obtain ⟨cur, path⟩ := top
      rw [solveMazeLoop_cons]
      by_cases hcb : cur = b
      · subst hcb
        obtain ⟨h1, h2, h3, h4, _, _⟩ := hinv _ (List.mem_cons_self _ _)
        exact ⟨path, by rw [if_pos rfl], h1, h2, h3, h4⟩
      · rw [if_neg hcb]
        obtain ⟨hp1, hp2, hp3, hp4, hp5, hp6⟩ := hinv _ (List.mem_cons_self _ _)
        have hpathmem : ∀ x ∈ path, x ∈ setAdd visited cur := by
          intro x hx
          rcases mem_of_getLast?_dropLast hp2 hx with h | rfl
          · exact mem_setAdd.2 (Or.inl (hp5 h))
          · exact mem_setAdd.2 (Or.inr rfl)
        have hpathne : path ≠ [] := by
          intro h
          subst h
          simp at hp1
        -- Entry invariant for the new stack.
        have hinv' : ∀ e ∈ (g.cellLinks cur).foldl
            (fun st nbr => if nbr ∈ setAdd visited cur then st
              else (nbr, path ++ [nbr]) :: st) rest,
            EntryOK g a (a :: g.links.map Prod.snd) (setAdd visited cur) e := by
          intro e he
          rcases (mem_pushFold g _ path _ rest e).1 he with h | ⟨nbr, hn, hnv, rfl⟩
          · obtain ⟨k1, k2, k3, k4, k5, k6⟩ := hinv _ (List.mem_cons_of_mem _ h)
            exact ⟨k1, k2, k3, k4, fun x hx => mem_setAdd.2 (Or.inl (k5 hx)), k6⟩
          · have hlk : g.Linked cur nbr := mem_cellLinks.1 hn
            refine ⟨head?_append_of_head? hp1, List.getLast?_concat path, ?_, ?_, ?_, ?_⟩
            · rw [List.chain'_append]
              refine ⟨hp3, List.chain'_singleton nbr, ?_⟩
              intro x hx y hy
              rw [hp2, Option.mem_def, Option.some.injEq] at hx
              simp only [List.head?_cons, Option.mem_def, Option.some.injEq] at hy
              subst hx
              subst hy
              exact hlk
            · rw [List.nodup_append]
              refine ⟨hp4, List.nodup_singleton nbr, ?_⟩
              intro x hx hx'
              simp only [List.mem_singleton] at hx'
              subst hx'
              exact hnv (hpathmem x hx)
            · rw [List.dropLast_concat]
              exact hpathmem
            · intro x hx
              rcases List.mem_append.1 hx with h | h
              · exact hp6 h
              · simp only [List.mem_singleton] at h
                subst h
                exact List.mem_cons_of_mem _ (cellLinks_sub_snd g cur (mem_cellLinks.2 hlk))
        -- Completeness invariant for the new stack.
        have key : UnvPath g visited cur b →
            ∃ e ∈ (g.cellLinks cur).foldl
              (fun st nbr => if nbr ∈ setAdd visited cur then st
                else (nbr, path ++ [nbr]) :: st) rest,
              UnvPath g (setAdd visited cur) e.1 b := by
          intro hup
          obtain ⟨y, hy1, hy2, hy3⟩ := unvPath_step g hcb hup
          refine ⟨(y, path ++ [y]), ?_, hy3⟩
          exact (mem_pushFold g _ path _ rest _).2
            (Or.inr ⟨y, mem_cellLinks.2 hy1, hy2, rfl⟩)
        have hex' : ∃ e ∈ (g.cellLinks cur).foldl
            (fun st nbr => if nbr ∈ setAdd visited cur then st
              else (nbr, path ++ [nbr]) :: st) rest,
            UnvPath g (setAdd visited cur) e.1 b := by
          obtain ⟨e, he, hue⟩ := hex
          rcases List.mem_cons.1 he with rfl | he
          · exact key hue
          · obtain ⟨l, hc, hl, hu⟩ := hue
            by_cases hcl : cur ∈ l
            · obtain ⟨l1, l2, rfl⟩ := List.append_of_mem hcl
              have hchain2 : List.Chain g.Linked cur l2 := (List.chain_split.1 hc).2
              have hlast2 : (cur :: l2).getLast? = some b := by
                have heq : e.1 :: (l1 ++ cur :: l2) = (e.1 :: l1) ++ (cur :: l2) := by
                  simp
                rw [heq, List.getLast?_append_of_ne_nil _ (List.cons_ne_nil _ _)] at hl
                exact hl
              exact key ⟨l2, hchain2, hlast2,
                fun y hy => hu y (List.mem_append_right _ (List.mem_cons_of_mem _ hy))⟩
            · refine ⟨e, (mem_pushFold g _ path _ rest e).2 (Or.inl he), l, hc, hl, ?_⟩
              intro y hy
              rw [mem_setAdd]
              push_neg
              exact ⟨hu y hy, fun heq => hcl (heq ▸ hy)⟩
        -- The measure shrinks.
        have hm' : stackMeasure g ((g.cellLinks cur).foldl
            (fun st nbr => if nbr ∈ setAdd visited cur then st
              else (nbr, path ++ [nbr]) :: st) rest) ≤ fuel := by
          have hplen : path.length ≤ g.links.length + 1 := by
            have := nodup_subset_length hp4 hp6
            simpa using this
          have hppos : 1 ≤ path.length := by
            cases path
            · exact absurd rfl hpathne
            · simp
          set L := g.links.length with hL
          set len := path.length with hlen
          have hbound := pushFold_measure g (setAdd visited cur) path (g.cellLinks cur) rest
          have hcl : (g.cellLinks cur).length ≤ L := cellLinks_length_le g cur
          have hub : (g.cellLinks cur).length * (L + 2) ^ ((L + 2) - (len + 1))
              ≤ L * (L + 2) ^ ((L + 2) - (len + 1)) :=
            Nat.mul_le_mul_right _ hcl
          have hEe : (L + 2) - len = ((L + 2) - (len + 1)) + 1 := by omega
          have hmtop : stackMeasure g ((cur, path) :: rest)
              = (L + 2) ^ ((L + 2) - len) + stackMeasure g rest := by
            simp [stackMeasure, dfsWeight]
          have hXpos : 0 < (L + 2) ^ ((L + 2) - (len + 1)) := Nat.pos_pow_of_pos _ (by omega)
          rw [hmtop] at hm
          rw [hEe, pow_succ] at hm
          nlinarith [hbound, hub, hXpos, hm]
        obtain ⟨p, hp, h1, h2, h3, h4⟩ := ih _ _ hm' hinv' hex'
        exact ⟨p, hp, h1, h2, h3, h4⟩

/-- C3: on any grid, if `end_cell` is reachable from `start_cell` along
links, `solve_maze` returns a sequence that starts at `start_cell`, ends at
`end_cell`, whose consecutive members are all linked, and that repeats no
node. -/
theorem C3_solve_maze (g : Grid) (a b : Cell) (h : g.ReachD a b) :
    ∃ p, g.solve_maze a b = some (some p) ∧ p.head? = some a ∧
      p.getLast? = some b ∧ List.Chain' g.Linked p ∧ p.Nodup := by
  apply solveMazeLoop_main g a b (dfsFuel g) [(a, [a])] []
  · have h1 : dfsWeight g (a, [a]) ≤ (g.links.length + 2) ^ (g.links.length + 2) := by
      unfold dfsWeight
      exact Nat.pow_le_pow_right (by omega) (by omega)
    have h2 : stackMeasure g [(a, [a])] = dfsWeight g (a, [a]) := by
      simp [stackMeasure]
    unfold dfsFuel
    omega
  · intro e he
    rw [List.mem_singleton] at he
    subst he
    exact ⟨rfl, rfl, List.chain'_singleton a, List.nodup_singleton a, by simp, by simp⟩
  · exact ⟨(a, [a]), List.mem_singleton.2 rfl, reachD_unvPath h⟩

/-- C3 witness: the concrete 1×2 grid with its two cells linked. -/
theorem C3_solve_maze_witness :
    ∃ p, ((Grid.construct 1 2).link ⟨0, 0⟩ ⟨0, 1⟩).solve_maze ⟨0, 0⟩ ⟨0, 1⟩
        = some (some p) ∧
      p.head? = some ⟨0, 0⟩ ∧ p.getLast? = some ⟨0, 1⟩ ∧
      List.Chain' ((Grid.construct 1 2).link ⟨0, 0⟩ ⟨0, 1⟩).Linked p ∧ p.Nodup :=
  C3_solve_maze _ _ _ (Relation.ReflTransGen.single (by decide))

/-! ### Incremental graph framework: adding one fresh edge -/

theorem linkedU_symm {g : Grid} {a b : Cell} (h : g.LinkedU a b) : g.LinkedU b a :=
  h.symm

theorem reach_refl (g : Grid) (x : Cell) : g.Reach x x :=
  Relation.ReflTransGen.refl

theorem reach_symm {g : Grid} {x y : Cell} (h : g.Reach x y) : g.Reach y x := by
  unfold Grid.Reach at *
  induction h with
  | refl => exact Relation.ReflTransGen.refl
  | tail _ hstep ih => exact Relation.ReflTransGen.head (linkedU_symm hstep) ih

theorem reach_trans {g : Grid} {x y z : Cell} (h1 : g.Reach x y) (h2 : g.Reach y z) :
    g.Reach x z :=
  Relation.ReflTransGen.trans h1 h2

theorem reach_of_linkedU {g : Grid} {x y : Cell} (h : g.LinkedU x y) : g.Reach x y :=
  Relation.ReflTransGen.single h

theorem reach_nil {g : Grid} (hl : g.links = []) {x y : Cell} (h : g.Reach x y) :
    x = y := by
  induction h with
  | refl => rfl
  | tail _ hstep ih =>
    exfalso
    rcases hstep with h | h <;> · rw [Grid.Linked, hl] at h; exact List.not_mem_nil _ h

theorem link_shape (g : Grid) (a b : Cell) :
    (g.link a b).num_rows = g.num_rows ∧ (g.link a b).num_cols = g.num_cols :=
  linkFlag_shape g a b true

theorem linked_link {g : Grid} {a b x y : Cell} :
    (g.link a b).Linked x y ↔ g.Linked x y ∨ (x = a ∧ y = b) ∨ (x = b ∧ y = a) := by
  show (x, y) ∈ setAdd (setAdd g.links (a, b)) (b, a) ↔ _
  rw [mem_setAdd, mem_setAdd]
  constructor
  · rintro ((h | h) | h)
    · exact Or.inl h
    · rw [Prod.mk.injEq] at h
      exact Or.inr (Or.inl h)
    · rw [Prod.mk.injEq] at h
      exact Or.inr (Or.inr h)
  · rintro (h | ⟨rfl, rfl⟩ | ⟨rfl, rfl⟩)
    · exact Or.inl (Or.inl h)
    · exact Or.inl (Or.inr rfl)
    · exact Or.inr rfl

theorem linkedU_link {g : Grid} {a b x y : Cell} :
    (g.link a b).LinkedU x y ↔
      g.LinkedU x y ∨ (x = a ∧ y = b) ∨ (x = b ∧ y = a) := by
  unfold Grid.LinkedU
  rw [linked_link, linked_link]
  tauto

theorem reach_mono_link {g : Grid} {a b x y : Cell} (h : g.Reach x y) :
    (g.link a b).Reach x y := by
  induction h with
  | refl => exact Relation.ReflTransGen.refl
  | tail _ hstep ih =>
    exact Relation.ReflTransGen.tail ih (linkedU_link.2 (Or.inl hstep))

/-- How reachability changes when one edge `a–b` is added. -/
theorem reach_link {g : Grid} {a b x y : Cell} :
    (g.link a b).Reach x y ↔
      g.Reach x y ∨ (g.Reach x a ∧ g.Reach b y) ∨ (g.Reach x b ∧ g.Reach a y) := by
  constructor
  · intro h
    induction h with
    | refl => exact Or.inl (reach_refl g x)
    | tail _ hstep ih =>
      rcases linkedU_link.1 hstep with hs | ⟨ha, hb⟩ | ⟨ha, hb⟩
      · rcases ih with h | ⟨h1, h2⟩ | ⟨h1, h2⟩
        · exact Or.inl (reach_trans h (reach_of_linkedU hs))
        · exact Or.inr (Or.inl ⟨h1, reach_trans h2 (reach_of_linkedU hs)⟩)
        · exact Or.inr (Or.inr ⟨h1, reach_trans h2 (reach_of_linkedU hs)⟩)
      · subst ha
        subst hb
        rcases ih with h | ⟨h1, h2⟩ | ⟨h1, h2⟩
        · exact Or.inr (Or.inl ⟨h, reach_refl g _⟩)
        · exact Or.inl (reach_trans h1 (reach_symm h2))
        · exact Or.inl h1
      · subst ha
        subst hb
        rcases ih with h | ⟨h1, h2⟩ | ⟨h1, h2⟩
        · exact Or.inr (Or.inr ⟨h, reach_refl g _⟩)
        · exact Or.inl h1
        · exact Or.inl (reach_trans h1 (reach_symm h2))
  · rintro (h | ⟨h1, h2⟩ | ⟨h1, h2⟩)
    · exact reach_mono_link h
    · refine Relation.ReflTransGen.trans (reach_mono_link h1)
        (Relation.ReflTransGen.head ?_ (reach_mono_link h2))
      exact linkedU_link.2 (Or.inr (Or.inl ⟨rfl, rfl⟩))
    · refine Relation.ReflTransGen.trans (reach_mono_link h1)
        (Relation.ReflTransGen.head ?_ (reach_mono_link h2))
      exact linkedU_link.2 (Or.inr (Or.inr ⟨rfl, rfl⟩))

theorem getLast?_mem {l : List Cell} {c : Cell} (h : l.getLast? = some c) : c ∈ l := by
  cases l with
  | nil => simp at h
  | cons x xs =>
    have hne : x :: xs ≠ [] := List.cons_ne_nil x xs
    rw [List.getLast?_eq_getLast _ hne] at h
    rw [← Option.some.inj h]
    exact List.getLast_mem hne

theorem head?_mem {l : List Cell} {c : Cell} (h : l.head? = some c) : c ∈ l := by
  cases l with
  | nil => simp at h
  | cons x xs =>
    rw [List.head?_cons] at h
    rw [← Option.some.inj h]
    exact List.mem_cons_self x xs

theorem ne_nil_of_head? {l : List Cell} {c : Cell} (h : l.head? = some c) : l ≠ [] := by
  intro hl
  subst hl
  simp at h

theorem ne_nil_of_getLast? {l : List Cell} {c : Cell} (h : l.getLast? = some c) :
    l ≠ [] := by
  intro hl
  subst hl
  simp at h

theorem chain'_reach {g : Grid} :
    ∀ (p : List Cell) (x y : Cell), p.head? = some x → p.getLast? = some y →
      List.Chain' g.LinkedU p → g.Reach x y := by
  intro p
  induction p with
  | nil => intro x y h; simp at h
  | cons u rest ih =>
    intro x y hh hl hc
    rw [List.head?_cons, Option.some.injEq] at hh
    subst hh
    cases rest with
    | nil =>
      simp only [List.getLast?_singleton, Option.some.injEq] at hl
      subst hl
      exact reach_refl g _
    | cons z rest' =>
      rw [List.chain'_cons] at hc
      rw [List.getLast?_cons_cons] at hl
      exact Relation.ReflTransGen.head hc.1 (ih z y rfl hl hc.2)

theorem path_reach {g : Grid} {p : List Cell} {x y : Cell} (h : IsPath g p x y) :
    g.Reach x y :=
  chain'_reach p x y h.1 h.2.1 h.2.2.1

/-- Any duplicate-free chain in `g.link a b` either avoids the new edge or
crosses it exactly once, splitting into two chains of `g`. -/
theorem path_decomp {g : Grid} {a b : Cell}
    (hna : ¬g.Linked a b) (hnb : ¬g.Linked b a) :
    ∀ p : List Cell, List.Chain' (g.link a b).LinkedU p → p.Nodup →
      List.Chain' g.LinkedU p ∨
      (∃ p1 p2, p = p1 ++ p2 ∧ p1.getLast? = some a ∧ p2.head? = some b ∧
        List.Chain' g.LinkedU p1 ∧ List.Chain' g.LinkedU p2) ∨
      (∃ p1 p2, p = p1 ++ p2 ∧ p1.getLast? = some b ∧ p2.head? = some a ∧
        List.Chain' g.LinkedU p1 ∧ List.Chain' g.LinkedU p2) := by
  intro p
  induction p with
  | nil => intro _ _; exact Or.inl List.chain'_nil
  | cons x rest ih =>
    intro hc hn
    cases rest with
    | nil => exact Or.inl (List.chain'_singleton x)
    | cons z rest' =>
      rw [List.chain'_cons] at hc
      obtain ⟨hxz, hc'⟩ := hc
      rw [List.nodup_cons] at hn
      obtain ⟨hxn, hn'⟩ := hn
      have hxz' : g.LinkedU x z ∨ (x = a ∧ z = b) ∨ (x = b ∧ z = a) := by
        rcases linkedU_link.1 hxz with h | h | h
        · exact Or.inl h
        · exact Or.inr (Or.inl h)
        · exact Or.inr (Or.inr h)
      rcases ih hc' hn' with hold | ⟨p1, p2, heq, hl1, hh2, hch1, hch2⟩
          | ⟨p1, p2, heq, hl1, hh2, hch1, hch2⟩
      · rcases hxz' with h | ⟨rfl, rfl⟩ | ⟨rfl, rfl⟩
        · exact Or.inl (List.chain'_cons.2 ⟨h, hold⟩)
        · exact Or.inr (Or.inl ⟨[x], z :: rest', rfl, rfl, rfl,
            List.chain'_singleton x, hold⟩)
        · exact Or.inr (Or.inr ⟨[x], z :: rest', rfl, rfl, rfl,
            List.chain'_singleton x, hold⟩)
      · -- tail splits with p1 ending at a, p2 starting at b
        rcases hxz' with h | ⟨rfl, rfl⟩ | ⟨rfl, rfl⟩
        · cases p1 with
          | nil => simp at hl1
          | cons w p1t =>
            have hw : w = z := by
              have := congrArg List.head? heq
              simp at this
              exact this.symm
            subst hw
            refine Or.inr (Or.inl ⟨x :: w :: p1t, p2, by simp [heq], ?_, hh2, ?_, hch2⟩)
            · rw [List.getLast?_cons_cons]
              exact hl1
            · exact List.chain'_cons.2 ⟨h, hch1⟩
        · exfalso
          have : x ∈ z :: rest' := by
            rw [heq]
            exact List.mem_append_left _ (getLast?_mem hl1)
          exact hxn this
        · exfalso
          have : x ∈ z :: rest' := by
            rw [heq]
            exact List.mem_append_right _ (head?_mem hh2)
          exact hxn this
      · -- tail splits with p1 ending at b, p2 starting at a
        rcases hxz' with h | ⟨rfl, rfl⟩ | ⟨rfl, rfl⟩
        · cases p1 with
          | nil => simp at hl1
          | cons w p1t =>
            have hw : w = z := by
              have := congrArg List.head? heq
              simp at this
              exact this.symm
            subst hw
            refine Or.inr (Or.inr ⟨x :: w :: p1t, p2, by simp [heq], ?_, hh2, ?_, hch2⟩)
            · rw [List.getLast?_cons_cons]
              exact hl1
            · exact List.chain'_cons.2 ⟨h, hch1⟩
        · exfalso
          have : x ∈ z :: rest' := by
            rw [heq]
            exact List.mem_append_right _ (head?_mem hh2)
          exact hxn this
        · exfalso
          have : x ∈ z :: rest' := by
            rw [heq]
            exact List.mem_append_left _ (getLast?_mem hl1)
          exact hxn this

/-- From a split `p = p1 ++ p2` of a path from `x` to `y`, extract the two
piece paths. -/
theorem split_pieces {g : Grid} {p p1 p2 : List Cell} {x y c d : Cell}
    (heq : p = p1 ++ p2) (hph : p.head? = some x) (hpl : p.getLast? = some y)
    (hpn : p.Nodup) (hl1 : p1.getLast? = some c) (hh2 : p2.head? = some d)
    (hch1 : List.Chain' g.LinkedU p1) (hch2 : List.Chain' g.LinkedU p2) :
    IsPath g p1 x c ∧ IsPath g p2 d y := by
  subst heq
  have h1ne : p1 ≠ [] := ne_nil_of_getLast? hl1
  have h2ne : p2 ≠ [] := ne_nil_of_head? hh2
  rw [List.nodup_append] at hpn
  refine ⟨⟨?_, hl1, hch1, hpn.1⟩, ⟨hh2, ?_, hch2, hpn.2.1⟩⟩
  · cases p1 with
    | nil => exact absurd rfl h1ne
    | cons u t => simpa using hph
  · rwa [List.getLast?_append_of_ne_nil _ h2ne] at hpl

/-- Adding an edge between two cells that are not yet connected preserves
unique simple paths. -/
theorem up_link {g : Grid} {a b : Cell} (hup : UP g) (hnr : ¬g.Reach a b) :
    UP (g.link a b) := by
  have hab : a ≠ b := fun h => hnr (h ▸ reach_refl g a)
  have hna : ¬g.Linked a b := fun h => hnr (reach_of_linkedU (Or.inl h))
  have hnb : ¬g.Linked b a := fun h => hnr (reach_of_linkedU (Or.inr h))
  intro x y p q hp hq
  obtain ⟨hph, hpl, hpc, hpn⟩ := hp
  obtain ⟨hqh, hql, hqc, hqn⟩ := hq
  rcases path_decomp hna hnb p hpc hpn with hpo | ⟨p1, p2, hpe, hpa, hpb, hpc1, hpc2⟩
      | ⟨p1, p2, hpe, hpa, hpb, hpc1, hpc2⟩ <;>
    rcases path_decomp hna hnb q hqc hqn with hqo | ⟨q1, q2, hqe, hqa, hqb, hqc1, hqc2⟩
      | ⟨q1, q2, hqe, hqa, hqb, hqc1, hqc2⟩
  · exact hup x y p q ⟨hph, hpl, hpo, hpn⟩ ⟨hqh, hql, hqo, hqn⟩
  · exfalso
    obtain ⟨hq1, hq2⟩ := split_pieces hqe hqh hql hqn hqa hqb hqc1 hqc2
    exact hnr (reach_trans (reach_symm (path_reach hq1))
      (reach_trans (chain'_reach p x y hph hpl hpo) (reach_symm (path_reach hq2))))
  · exfalso
    obtain ⟨hq1, hq2⟩ := split_pieces hqe hqh hql hqn hqa hqb hqc1 hqc2
    exact hnr (reach_trans (path_reach hq2)
      (reach_trans (reach_symm (chain'_reach p x y hph hpl hpo)) (path_reach hq1)))
  · exfalso
    obtain ⟨hp1, hp2⟩ := split_pieces hpe hph hpl hpn hpa hpb hpc1 hpc2
    exact hnr (reach_trans (reach_symm (path_reach hp1))
      (reach_trans (chain'_reach q x y hqh hql hqo) (reach_symm (path_reach hp2))))
  · obtain ⟨hp1, hp2⟩ := split_pieces hpe hph hpl hpn hpa hpb hpc1 hpc2
    obtain ⟨hq1, hq2⟩ := split_pieces hqe hqh hql hqn hqa hqb hqc1 hqc2
    rw [hpe, hqe, hup x a p1 q1 hp1 hq1, hup b y p2 q2 hp2 hq2]
  · exfalso
    obtain ⟨hp1, hp2⟩ := split_pieces hpe hph hpl hpn hpa hpb hpc1 hpc2
    obtain ⟨hq1, hq2⟩ := split_pieces hqe hqh hql hqn hqa hqb hqc1 hqc2
    exact hnr (reach_trans (reach_symm (path_reach hp1)) (path_reach hq1))
  · exfalso
    obtain ⟨hp1, hp2⟩ := split_pieces hpe hph hpl hpn hpa hpb hpc1 hpc2
    exact hnr (reach_trans (path_reach hp2)
      (reach_trans (reach_symm (chain'_reach q x y hqh hql hqo)) (path_reach hp1)))
  · exfalso
    obtain ⟨hp1, hp2⟩ := split_pieces hpe hph hpl hpn hpa hpb hpc1 hpc2
    obtain ⟨hq1, hq2⟩ := split_pieces hqe hqh hql hqn hqa hqb hqc1 hqc2
    exact hnr (reach_trans (reach_symm (path_reach hq1)) (path_reach hp1))
  · obtain ⟨hp1, hp2⟩ := split_pieces hpe hph hpl hpn hpa hpb hpc1 hpc2
    obtain ⟨hq1, hq2⟩ := split_pieces hqe hqh hql hqn hqa hqb hqc1 hqc2
    rw [hpe, hqe, hup x b p1 q1 hp1 hq1, hup a y p2 q2 hp2 hq2]

theorem cell_eq {a b : Cell} (h1 : a.row = b.row) (h2 : a.col = b.col) : a = b := by
  cases a
  cases b
  simp only [Cell.mk.injEq]
  exact ⟨h1, h2⟩

theorem normPair_swap (a b : Cell) : normPair (b, a) = normPair (a, b) := by
  unfold normPair
  by_cases h1 : a.row < b.row ∨ (a.row = b.row ∧ a.col ≤ b.col) <;>
    by_cases h2 : b.row < a.row ∨ (b.row = a.row ∧ b.col ≤ a.col)
  · have hab : a = b := by
      rcases h1 with h1 | ⟨h1, h1'⟩ <;> rcases h2 with h2 | ⟨h2, h2'⟩ <;>
        exact cell_eq (by omega) (by omega)
    subst hab
    rfl
  · rw [if_pos h1, if_neg h2]
  · rw [if_neg h1, if_pos h2]
  · exfalso
    rcases not_or.1 h1 with ⟨h1a, h1b⟩
    rcases not_or.1 h2 with ⟨h2a, h2b⟩
    rw [not_and_or] at h1b h2b
    rcases h1b with h | h <;> rcases h2b with h' | h' <;> omega

theorem normPair_cases (p : Cell × Cell) : normPair p = p ∨ normPair p = (p.2, p.1) := by
  unfold normPair
  by_cases h : p.1.row < p.2.row ∨ (p.1.row = p.2.row ∧ p.1.col ≤ p.2.col)
  · rw [if_pos h]
    exact Or.inl rfl
  · rw [if_neg h]
    exact Or.inr rfl

theorem links_link_fresh {g : Grid} {a b : Cell} (hab : a ≠ b)
    (hna : ¬g.Linked a b) (hnb : ¬g.Linked b a) :
    (g.link a b).links = g.links ++ [(a, b), (b, a)] := by
  show setAdd (setAdd g.links (a, b)) (b, a) = _
  have h1 : setAdd g.links (a, b) = g.links ++ [(a, b)] := by
    rw [setAdd, if_neg]
    exact hna
  have h2 : (b, a) ∉ g.links ++ [(a, b)] := by
    intro h
    rcases List.mem_append.1 h with h | h
    · exact hnb h
    · rw [List.mem_singleton, Prod.mk.injEq] at h
      exact hab h.1.symm
  rw [h1, setAdd, if_neg h2]
  simp

theorem edgeCount_link {g : Grid} {a b : Cell} (hab : a ≠ b)
    (hna : ¬g.Linked a b) (hnb : ¬g.Linked b a) :
    (g.link a b).edgeCount = g.edgeCount + 1 := by
  unfold Grid.edgeCount
  rw [links_link_fresh hab hna hnb]
  have hmap : (g.links ++ [(a, b), (b, a)]).map normPair
      = g.links.map normPair ++ [normPair (a, b), normPair (a, b)] := by
    rw [List.map_append]
    simp [normPair_swap]
  rw [hmap]
  have hnotmem : normPair (a, b) ∉ (g.links.map normPair).toFinset := by
    rw [List.mem_toFinset, List.mem_map]
    rintro ⟨p, hp, hnp⟩
    rcases normPair_cases p with h | h <;> rcases normPair_cases (a, b) with h' | h' <;>
        rw [h, h'] at hnp
    · rw [hnp] at hp
      exact hna hp
    · cases p
      rw [Prod.mk.injEq] at hnp
      obtain ⟨h1, h2⟩ := hnp
      subst h1
      subst h2
      exact hnb hp
    · cases p
      rw [Prod.mk.injEq] at hnp
      obtain ⟨h1, h2⟩ := hnp
      subst h1
      subst h2
      exact hnb hp
    · cases p
      rw [Prod.mk.injEq] at hnp
      obtain ⟨h1, h2⟩ := hnp
      subst h1
      subst h2
      exact hna hp
  have htf : (g.links.map normPair ++ [normPair (a, b), normPair (a, b)]).toFinset
      = insert (normPair (a, b)) (g.links.map normPair).toFinset := by
    rw [List.toFinset_append]
    ext e
    simp only [Finset.mem_union, List.mem_toFinset, Finset.mem_insert, List.mem_cons,
      List.mem_singleton, List.not_mem_nil, or_false]
    tauto
  rw [htf, Finset.card_insert_of_not_mem hnotmem]

theorem up_nil {g : Grid} (hl : g.links = []) : UP g := by
  have hp : ∀ p x y, IsPath g p x y → p = [x] := by
    rintro p x y ⟨hh, hl2, hc, _⟩
    cases p with
    | nil => simp at hh
    | cons u rest =>
      rw [List.head?_cons, Option.some.injEq] at hh
      subst hh
      cases rest with
      | nil => rfl
      | cons z rest' =>
        rw [List.chain'_cons] at hc
        exfalso
        rcases hc.1 with h | h <;> · rw [Grid.Linked, hl] at h; exact List.not_mem_nil _ h
  intro x y p q hpp hqq
  rw [hp p x y hpp, hp q x y hqq]

theorem noCycle_of_up {g : Grid} (hup : UP g) : NoCycle g := by
  rintro ⟨x, l, hlen, hchain, hlast, hnodup⟩
  have hlne : l ≠ [] := by
    intro h
    subst h
    simp at hlen
  have hld : l = l.dropLast ++ [x] := by
    have h1 := List.dropLast_append_getLast hlne
    have h2 := List.getLast?_eq_getLast l hlne
    rw [h2, Option.some.injEq] at hlast
    rw [hlast] at h1
    exact h1.symm
  obtain ⟨v1, ld⟩ : ∃ v1 ld, l.dropLast = v1 :: ld := by
    cases hdl : l.dropLast with
    | nil =>
      exfalso
      have := congrArg List.length hld
      rw [hdl] at this
      simp at this
      omega
    | cons v1 ld => exact ⟨v1, ld, rfl⟩
  obtain ⟨ld, hdl⟩ := ld
  have hldlen : l.dropLast.length = l.length - 1 := List.length_dropLast l
  have hldne : ld ≠ [] := by
    intro h
    subst h
    rw [hdl] at hldlen
    simp at hldlen
    omega
  -- the short path [x, v1]
  have hchain' : List.Chain' g.LinkedU (x :: l) := hchain
  have hxv1 : g.LinkedU x v1 := by
    have : x :: l = x :: v1 :: (ld ++ [x]) := by
      rw [hld, hdl]
      simp
    rw [this, List.chain'_cons] at hchain'
    exact hchain'.1
  have hxnv1 : x ≠ v1 := by
    rw [hdl] at hnodup
    rw [List.nodup_cons] at hnodup
    intro h
    exact hnodup.1 (h ▸ List.mem_cons_self _ _)
  have hpshort : IsPath g [x, v1] x v1 :=
    ⟨rfl, rfl, List.chain'_cons.2 ⟨hxv1, List.chain'_singleton v1⟩, by
      simp [hxnv1]⟩
  -- the long path x :: reverse (dropLast l)
  have hchain2 : List.Chain' g.LinkedU (l.dropLast ++ [x]) := by
    rw [← hld]
    exact (List.chain'_cons'.1 hchain').2
  have hchainrev : List.Chain' g.LinkedU (x :: l.dropLast.reverse) := by
    have h1 : x :: l.dropLast.reverse = (l.dropLast ++ [x]).reverse := by
      simp
    rw [h1, List.chain'_reverse]
    exact List.Chain'.imp (fun a b h => linkedU_symm h) hchain2
  have hplong : IsPath g (x :: l.dropLast.reverse) x v1 := by
    refine ⟨rfl, ?_, hchainrev, ?_⟩
    · have h1 : x :: l.dropLast.reverse = [x] ++ (ld.reverse ++ [v1]) := by
        rw [hdl]
        simp
      rw [h1, List.getLast?_append_of_ne_nil _ (by simp), List.getLast?_concat]
    · rw [List.nodup_cons] at hnodup ⊢
      rw [List.mem_reverse, List.nodup_reverse]
      exact hnodup
  have heq := hup x v1 _ _ hpshort hplong
  have hlen2 : ([x, v1] : List Cell).length = (x :: l.dropLast.reverse).length :=
    congrArg List.length heq
  rw [List.length_cons, List.length_cons, List.length_cons, List.length_nil,
    List.length_reverse] at hlen2
  omega

/-! ### Preservation of shape-level data and invariants by `link` -/

theorem all_cells_link (g : Grid) (a b : Cell) :
    (g.link a b).all_cells = g.all_cells := rfl

theorem get_neighbor_link (g : Grid) (a b c : Cell) (d : Dir) :
    (g.link a b).get_neighbor c d = g.get_neighbor c d := by
  cases d <;> rfl

theorem symm_link {g : Grid} (h : g.Symm) (a b : Cell) : (g.link a b).Symm := by
  intro x y hxy
  rcases linked_link.1 hxy with hl | ⟨rfl, rfl⟩ | ⟨rfl, rfl⟩
  · exact linked_link.2 (Or.inl (h x y hl))
  · exact linked_link.2 (Or.inr (Or.inr ⟨rfl, rfl⟩))
  · exact linked_link.2 (Or.inr (Or.inl ⟨rfl, rfl⟩))

theorem wf_link {g : Grid} (h : g.WF) {a b : Cell} (ha : a ∈ g.all_cells)
    (hb : b ∈ g.all_cells) : (g.link a b).WF := by
  intro p hp
  have hp' : g.Linked p.1 p.2 ∨ (p.1 = a ∧ p.2 = b) ∨ (p.1 = b ∧ p.2 = a) :=
    linked_link.1 hp
  rw [all_cells_link]
  rcases hp' with hl | ⟨h1, h2⟩ | ⟨h1, h2⟩
  · exact h _ hl
  · rw [h1, h2]
    exact ⟨ha, hb⟩
  · rw [h1, h2]
    exact ⟨hb, ha⟩

theorem geo_link {g : Grid} (h : ∀ v w, g.Linked v w → GeoNbr v w) {a b : Cell}
    (hab : GeoNbr a b) : ∀ v w, (g.link a b).Linked v w → GeoNbr v w := by
  intro v w hvw
  rcases linked_link.1 hvw with hl | ⟨rfl, rfl⟩ | ⟨rfl, rfl⟩
  · exact h v w hl
  · exact hab
  · unfold GeoNbr at *
    omega

theorem linkedU_mono_link {g : Grid} {a b x y : Cell} (h : g.LinkedU x y) :
    (g.link a b).LinkedU x y :=
  linkedU_link.2 (Or.inl h)

/-! ### Row-major order facts -/

theorem rmLt_irrefl (v : Cell) : ¬rmLt v v := by
  unfold rmLt
  omega

theorem rmLt_asymm {v w : Cell} (h : rmLt v w) : ¬rmLt w v := by
  unfold rmLt at *
  omega

theorem pyRange_sorted (n : Int) : (pyRange n).Pairwise (· < ·) := by
  unfold pyRange
  rw [List.pairwise_map]
  refine List.Pairwise.imp ?_ (List.pairwise_lt_range n.toNat)
  intro a b h
  simp only [Int.ofNat_eq_natCast]
  omega

theorem all_cells_pairwise_rmLt (g : Grid) : g.all_cells.Pairwise rmLt := by
  unfold Grid.all_cells Grid.rowsList
  rw [List.pairwise_flatten]
  constructor
  · intro l hl
    obtain ⟨r, _, rfl⟩ := List.mem_map.1 hl
    rw [List.pairwise_map]
    refine List.Pairwise.imp ?_ (pyRange_sorted g.num_cols)
    intro c1 c2 h
    exact Or.inr ⟨rfl, h⟩
  · rw [List.pairwise_map]
    refine List.Pairwise.imp ?_ (pyRange_sorted g.num_rows)
    intro r1 r2 h x hx y hy
    obtain ⟨c1, _, rfl⟩ := List.mem_map.1 hx
    obtain ⟨c2, _, rfl⟩ := List.mem_map.1 hy
    exact Or.inl h

theorem mem_done_rmLt {g : Grid} {done todo : List Cell} {c : Cell}
    (hsplit : g.all_cells = done ++ c :: todo) : ∀ d ∈ done, rmLt d c := by
  have hpw := all_cells_pairwise_rmLt g
  rw [hsplit, List.pairwise_append] at hpw
  intro d hd
  exact hpw.2.2 d hd c (List.mem_cons_self _ _)

theorem not_mem_done {g : Grid} {done todo : List Cell} {c : Cell}
    (hsplit : g.all_cells = done ++ c :: todo) : c ∉ done := by
  intro hc
  exact rmLt_irrefl c (mem_done_rmLt hsplit c hc)

/-! ### Binary-tree generator helpers -/

theorem pyChoice_mem {xs : List Cell} (h : xs ≠ []) (r : Nat) : pyChoice xs r ∈ xs := by
  have hlen : r % xs.length < xs.length := Nat.mod_lt _ (List.length_pos.2 h)
  show (xs.getD (r % xs.length) ⟨0, 0⟩) ∈ xs
  rw [List.getD_eq_getElem?_getD, List.getElem?_eq_getElem hlen]
  exact List.getElem_mem hlen

/-- `btCandidates` depends only on the grid dimensions. -/
theorem btCandidates_congr {g1 g2 : Grid} (hr : g1.num_rows = g2.num_rows)
    (hc : g1.num_cols = g2.num_cols) (cell : Cell) :
    btCandidates g1 cell = btCandidates g2 cell := by
  unfold btCandidates Grid.get_neighbor
  simp only [get_cell_eq, hr, hc]

theorem btCandidates_eq (g : Grid) (cell : Cell) :
    btCandidates g cell =
      (if 0 ≤ cell.row + 1 ∧ cell.row + 1 < g.num_rows ∧ 0 ≤ cell.col ∧
          cell.col < g.num_cols then [(⟨cell.row + 1, cell.col⟩ : Cell)] else []) ++
      (if 0 ≤ cell.row ∧ cell.row < g.num_rows ∧ 0 ≤ cell.col + 1 ∧
          cell.col + 1 < g.num_cols then [(⟨cell.row, cell.col + 1⟩ : Cell)] else []) := by
  unfold btCandidates Grid.get_neighbor
  simp only [get_cell_eq]
  by_cases hs : 0 ≤ cell.row + 1 ∧ cell.row + 1 < g.num_rows ∧ 0 ≤ cell.col ∧
      cell.col < g.num_cols <;>
    by_cases he : 0 ≤ cell.row ∧ cell.row < g.num_rows ∧ 0 ≤ cell.col + 1 ∧
        cell.col + 1 < g.num_cols <;>
      simp [hs, he]

theorem btCandidates_spec {g : Grid} {cell n : Cell} (hn : n ∈ btCandidates g cell) :
    (n = ⟨cell.row + 1, cell.col⟩ ∨ n = ⟨cell.row, cell.col + 1⟩) ∧
      n ∈ g.all_cells := by
  rw [btCandidates_eq] at hn
  rcases List.mem_append.1 hn with h | h
  · by_cases hb : 0 ≤ cell.row + 1 ∧ cell.row + 1 < g.num_rows ∧ 0 ≤ cell.col ∧
        cell.col < g.num_cols
    · rw [if_pos hb, List.mem_singleton] at h
      subst h
      exact ⟨Or.inl rfl, mem_all_cells.2 ⟨hb.1, hb.2.1, hb.2.2.1, hb.2.2.2⟩⟩
    · rw [if_neg hb] at h
      exact absurd h (List.not_mem_nil n)
  · by_cases hb : 0 ≤ cell.row ∧ cell.row < g.num_rows ∧ 0 ≤ cell.col + 1 ∧
        cell.col + 1 < g.num_cols
    · rw [if_pos hb, List.mem_singleton] at h
      subst h
      exact ⟨Or.inr rfl, mem_all_cells.2 ⟨hb.1, hb.2.1, hb.2.2.1, hb.2.2.2⟩⟩
    · rw [if_neg hb] at h
      exact absurd h (List.not_mem_nil n)

theorem btCandidates_rmLt {g : Grid} {cell n : Cell} (hn : n ∈ btCandidates g cell) :
    rmLt cell n := by
  rcases (btCandidates_spec hn).1 with rfl | rfl
  · exact Or.inl (show cell.row < cell.row + 1 by omega)
  · exact Or.inr ⟨rfl, show cell.col < cell.col + 1 by omega⟩

theorem btCandidates_geo {g : Grid} {cell n : Cell} (hn : n ∈ btCandidates g cell) :
    GeoNbr cell n := by
  rcases (btCandidates_spec hn).1 with rfl | rfl
  · show (cell.row - (cell.row + 1)).natAbs + (cell.col - cell.col).natAbs = 1
    omega
  · show (cell.row - cell.row).natAbs + (cell.col - (cell.col + 1)).natAbs = 1
    omega

theorem btCandidates_nil_iff {g : Grid} {cell : Cell} (hc : cell ∈ g.all_cells) :
    btCandidates g cell = [] ↔
      cell.row = g.num_rows - 1 ∧ cell.col = g.num_cols - 1 := by
  obtain ⟨h1, h2, h3, h4⟩ := mem_all_cells.1 hc
  rw [btCandidates_eq]
  by_cases hs : 0 ≤ cell.row + 1 ∧ cell.row + 1 < g.num_rows ∧ 0 ≤ cell.col ∧
      cell.col < g.num_cols <;>
    by_cases he : 0 ≤ cell.row ∧ cell.row < g.num_rows ∧ 0 ≤ cell.col + 1 ∧
        cell.col + 1 < g.num_cols
  · rw [if_pos hs, if_pos he]
    constructor
    · intro h
      simp at h
    · intro h
      omega
  · rw [if_pos hs, if_neg he]
    constructor
    · intro h
      simp at h
    · intro h
      omega
  · rw [if_neg hs, if_pos he]
    constructor
    · intro h
      simp at h
    · intro h
      omega
  · rw [if_neg hs, if_neg he]
    simp only [List.append_nil, true_iff]
    omega

theorem all_cells_congr {g1 g2 : Grid} (hr : g1.num_rows = g2.num_rows)
    (hc : g1.num_cols = g2.num_cols) : g1.all_cells = g2.all_cells := by
  unfold Grid.all_cells Grid.rowsList
  rw [hr, hc]

/-- The Binary-Tree fold preserves `BTInv`. -/
theorem btFold_inv (rng : Nat → Nat) (g0 : Grid) :
    ∀ (todo done : List Cell) (g : Grid) (k : Nat),
      g0.all_cells = done ++ todo →
      BTInv g0 g done →
      BTInv g0 (todo.foldl (btStep rng) (g, k)).1 (done ++ todo) := by
  intro todo
  induction todo with
  | nil =>
    intro done g k _ hinv
    simpa using hinv
  | cons c todo ih =>
    intro done g k hsplit hinv
    obtain ⟨hR, hC, hsym, hwf, hup, hgeo, hcount, hA5, hA7, hA6⟩ := hinv
    have hcongr : ∀ cell, btCandidates g cell = btCandidates g0 cell :=
      fun cell => btCandidates_congr hR hC cell
    have hcells : g.all_cells = g0.all_cells := all_cells_congr hR hC
    rw [List.foldl_cons]
    have hdone' : (done ++ [c]) ++ todo = done ++ c :: todo := by
      rw [List.append_assoc, List.singleton_append]
    cases hcand : btCandidates g c with
    | nil =>
      have h0cand : btCandidates g0 c = [] := by
        rw [← hcongr c]
        exact hcand
      have hstep : btStep rng (g, k) c = (g, k) := by
        unfold btStep
        dsimp only
        rw [hcand]
      rw [hstep]
      rw [← hdone']
      refine ih (done ++ [c]) g k (by rw [hdone', hsplit]) ?_
      refine ⟨hR, hC, hsym, hwf, hup, hgeo, ?_, ?_, ?_, hA6⟩
      · rw [List.filter_append, hcount]
        have hfc : List.filter (fun c => decide (btCandidates g0 c ≠ [])) [c] = [] := by
          simp [h0cand]
        rw [hfc, List.append_nil]
      · intro c' hc' hcand'
        rcases List.mem_append.1 hc' with h | h
        · exact hA5 c' h hcand'
        · rw [List.mem_singleton] at h
          subst h
          rw [h0cand] at hcand'
          exact absurd rfl hcand'
      · intro v w hl hr'
        exact List.mem_append_left _ (hA7 v w hl hr')
    | cons n ns =>
      have h0cand : btCandidates g0 c = n :: ns := by
        rw [← hcongr c]
        exact hcand
      have hstep : btStep rng (g, k) c = (g.link c (pyChoice (n :: ns) (rng k)), k + 1) := by
        unfold btStep
        dsimp only
        rw [hcand]
      rw [hstep]
      set chosen := pyChoice (n :: ns) (rng k) with hchosen
      have hmemc : chosen ∈ btCandidates g c := by
        rw [hcand]
        exact pyChoice_mem (List.cons_ne_nil _ _) (rng k)
      have hrm : rmLt c chosen := btCandidates_rmLt hmemc
      have hgeonew : GeoNbr c chosen := btCandidates_geo hmemc
      have hc_in : c ∈ g.all_cells := by
        rw [hcells, hsplit]
        exact List.mem_append_right _ (List.mem_cons_self _ _)
      have hch_in : chosen ∈ g.all_cells := (btCandidates_spec hmemc).2
      have hnd_c : c ∉ done := not_mem_done hsplit
      have hnd_ch : chosen ∉ done := fun h => rmLt_asymm hrm (mem_done_rmLt hsplit chosen h)
      have hnout_c : ¬∃ w, g.Linked c w ∧ rmLt c w := by
        rintro ⟨w, hl, hr'⟩
        exact hnd_c (hA7 c w hl hr')
      have hnout_ch : ¬∃ w, g.Linked chosen w ∧ rmLt chosen w := by
        rintro ⟨w, hl, hr'⟩
        exact hnd_ch (hA7 chosen w hl hr')
      have hne : c ≠ chosen := fun h => rmLt_irrefl chosen (h ▸ hrm)
      have hnr : ¬g.Reach c chosen := fun h => hne (hA6 c chosen h hnout_c hnout_ch)
      have hna : ¬g.Linked c chosen := fun h => hnr (reach_of_linkedU (Or.inl h))
      have hnb : ¬g.Linked chosen c := fun h => hnr (reach_of_linkedU (Or.inr h))
      rw [← hdone']
      refine ih (done ++ [c]) (g.link c chosen) (k + 1) (by rw [hdone', hsplit]) ?_
      have hshape := link_shape g c chosen
      refine ⟨hshape.1.trans hR, hshape.2.trans hC, symm_link hsym c chosen,
        wf_link hwf hc_in hch_in, up_link hup hnr, geo_link hgeo hgeonew, ?_, ?_, ?_, ?_⟩
      · rw [edgeCount_link hne hna hnb, hcount, List.filter_append]
        have hfc : List.filter (fun c => decide (btCandidates g0 c ≠ [])) [c] = [c] := by
          simp [h0cand]
        rw [hfc, List.length_append, List.length_singleton]
      · intro c' hc' hcand'
        rcases List.mem_append.1 hc' with h | h
        · obtain ⟨d, hd, hlU⟩ := hA5 c' h hcand'
          exact ⟨d, hd, linkedU_mono_link hlU⟩
        · rw [List.mem_singleton] at h
          subst h
          refine ⟨chosen, ?_, Or.inl (linked_link.2 (Or.inr (Or.inl ⟨rfl, rfl⟩)))⟩
          rw [← hcongr c']
          exact hmemc
      · intro v w hl hr'
        rcases linked_link.1 hl with h | ⟨rfl, rfl⟩ | ⟨rfl, rfl⟩
        · exact List.mem_append_left _ (hA7 v w h hr')
        · exact List.mem_append_right _ (List.mem_singleton.2 rfl)
        · exact absurd hr' (rmLt_asymm hrm)
      · intro x y hreach hnx hny
        have hx_old : ¬∃ w, g.Linked x w ∧ rmLt x w := by
          rintro ⟨w, hw, hrw⟩
          exact hnx ⟨w, linked_link.2 (Or.inl hw), hrw⟩
        have hy_old : ¬∃ w, g.Linked y w ∧ rmLt y w := by
          rintro ⟨w, hw, hrw⟩
          exact hny ⟨w, linked_link.2 (Or.inl hw), hrw⟩
        have hx_ne : x ≠ c := by
          rintro rfl
          exact hnx ⟨chosen, linked_link.2 (Or.inr (Or.inl ⟨rfl, rfl⟩)), hrm⟩
        have hy_ne : y ≠ c := by
          rintro rfl
          exact hny ⟨chosen, linked_link.2 (Or.inr (Or.inl ⟨rfl, rfl⟩)), hrm⟩
        rcases reach_link.1 hreach with h | ⟨h1, h2⟩ | ⟨h1, h2⟩
        · exact hA6 x y h hx_old hy_old
        · exact absurd (hA6 x c h1 hx_old hnout_c) hx_ne
        · exact absurd (hA6 c y h2 hnout_c hy_old).symm hy_ne

theorem edgeCount_construct (R C : Int) : (Grid.construct R C).edgeCount = 0 := rfl

theorem btInv_base (R C : Int) : BTInv (Grid.construct R C) (Grid.construct R C) [] := by
  refine ⟨rfl, rfl, ?_, ?_, up_nil rfl, ?_, rfl, ?_, ?_, ?_⟩
  · intro a b h
    exact absurd h (List.not_mem_nil _)
  · intro p hp
    exact absurd hp (List.not_mem_nil _)
  · intro v w h
    exact absurd h (List.not_mem_nil _)
  · intro c hc
    exact absurd hc (List.not_mem_nil _)
  · intro v w h
    exact absurd h (List.not_mem_nil _)
  · intro x y h _ _
    exact reach_nil rfl h

theorem length_filter_add_not {α : Type} (p : α → Bool) (l : List α) :
    (l.filter p).length + (l.filter (fun a => !(p a))).length = l.length := by
  induction l with
  | nil => rfl
  | cons a l ih =>
    by_cases hpa : p a = true
    · rw [List.filter_cons_of_pos hpa, List.filter_cons_of_neg (by simp [hpa])]
      simp only [List.length_cons]
      omega
    · rw [List.filter_cons_of_neg (by simp [hpa]), List.filter_cons_of_pos (by simp [hpa])]
      simp only [List.length_cons]
      omega

theorem eq_singleton_of_nodup {α : Type} {l : List α} (hn : l.Nodup) {b : α}
    (hb : b ∈ l) (hall : ∀ x ∈ l, x = b) : l = [b] := by
  cases l with
  | nil => exact absurd hb (List.not_mem_nil b)
  | cons x t =>
    have hx : x = b := hall x (List.mem_cons_self _ _)
    subst hx
    cases t with
    | nil => rfl
    | cons y t' =>
      exfalso
      have hy : y = x := hall y (List.mem_cons_of_mem _ (List.mem_cons_self _ _))
      rw [List.nodup_cons] at hn
      exact hn.1 (hy ▸ List.mem_cons_self y t')

/-- Among the cells of an `R × C` grid (`R, C ≥ 1`), exactly the south-east
corner has an empty Binary-Tree candidate list. -/
theorem filter_btCandidates_length (R C : Int) (hR : 1 ≤ R) (hC : 1 ≤ C) :
    ((Grid.construct R C).all_cells.filter
      (fun c => decide (btCandidates (Grid.construct R C) c ≠ []))).length
      = R.toNat * C.toNat - 1 := by
  set g0 := Grid.construct R C with hg0
  set b : Cell := ⟨R - 1, C - 1⟩ with hb
  have hbmem : b ∈ g0.all_cells := mem_all_cells.2
    ⟨show (0 : Int) ≤ R - 1 from by omega, show R - 1 < R from by omega,
      show (0 : Int) ≤ C - 1 from by omega, show C - 1 < C from by omega⟩
  have hiff : ∀ x ∈ g0.all_cells,
      ((fun c => decide (btCandidates g0 c ≠ [])) x = false ↔ x = b) := by
    intro x hx
    simp only [decide_eq_false_iff_not, not_not]
    rw [btCandidates_nil_iff hx]
    constructor
    · rintro ⟨h1, h2⟩
      exact cell_eq h1 h2
    · rintro rfl
      exact ⟨rfl, rfl⟩
  have hnotb : g0.all_cells.filter
      (fun c => !((fun c => decide (btCandidates g0 c ≠ [])) c)) = [b] := by
    refine eq_singleton_of_nodup (List.Nodup.filter _ (all_cells_nodup g0)) ?_ ?_
    · rw [List.mem_filter]
      refine ⟨hbmem, ?_⟩
      rw [Bool.not_eq_true']
      exact (hiff b hbmem).2 rfl
    · intro x hx
      rw [List.mem_filter, Bool.not_eq_true'] at hx
      exact (hiff x hx.1).1 hx.2
  have hpart := length_filter_add_not
    (fun c => decide (btCandidates g0 c ≠ [])) g0.all_cells
  rw [hnotb] at hpart
  have hlen := all_cells_length g0
  have hlen' : g0.all_cells.length = R.toNat * C.toNat := hlen
  simp only [List.length_singleton] at hpart
  omega

/-- Connectivity to the south-east corner, by induction on the remaining
row-major distance. -/
theorem bt_connected_aux {g0 gF : Grid} (R C : Int) (hg0 : g0 = Grid.construct R C)
    (_hR : 1 ≤ R) (_hC : 1 ≤ C)
    (hA5 : ∀ c ∈ g0.all_cells, btCandidates g0 c ≠ [] →
      ∃ d ∈ btCandidates g0 c, gF.LinkedU c d) :
    ∀ (n : Nat) (c : Cell), c ∈ g0.all_cells →
      ((R - 1 - c.row) + (C - 1 - c.col)).toNat ≤ n →
      gF.Reach c ⟨R - 1, C - 1⟩ := by
  intro n
  induction n with
  | zero =>
    intro c hc hm
    obtain ⟨h1, h2, h3, h4⟩ := mem_all_cells.1 hc
    rw [hg0] at h2 h4
    have h2' : c.row < R := h2
    have h4' : c.col < C := h4
    have hcb : c = ⟨R - 1, C - 1⟩ :=
      cell_eq (show c.row = R - 1 by omega) (show c.col = C - 1 by omega)
    rw [hcb]
    exact reach_refl gF _
  | succ n ih =>
    intro c hc hm
    obtain ⟨h1, h2, h3, h4⟩ := mem_all_cells.1 hc
    rw [hg0] at h2 h4
    have h2' : c.row < R := h2
    have h4' : c.col < C := h4
    by_cases hcand : btCandidates g0 c = []
    · have hbb := (btCandidates_nil_iff hc).1 hcand
      rw [hg0] at hbb
      have hb1 : c.row = R - 1 := hbb.1
      have hb2 : c.col = C - 1 := hbb.2
      have hcb : c = ⟨R - 1, C - 1⟩ := cell_eq hb1 hb2
      rw [hcb]
      exact reach_refl gF _
    · obtain ⟨d, hd, hlU⟩ := hA5 c hc hcand
      obtain ⟨hdloc, hdmem⟩ := btCandidates_spec hd
      have hstep : gF.Reach c d := reach_of_linkedU hlU
      refine reach_trans hstep (ih d hdmem ?_)
      rcases hdloc with rfl | rfl
      · show ((R - 1 - (c.row + 1)) + (C - 1 - c.col)).toNat ≤ n
        omega
      · show ((R - 1 - c.row) + (C - 1 - (c.col + 1))).toNat ≤ n
        omega

/-- The Binary-Tree generator produces a spanning tree (with symmetric,
geometric links) on any grid with positive dimensions, whatever the random
draws. -/
theorem bt_spanning (R C : Int) (hR : 1 ≤ R) (hC : 1 ≤ C) (rng : Nat → Nat) :
    IsSpanningTree (BinaryTreeMazeMaker.make_maze (Grid.construct R C) rng) ∧
    (BinaryTreeMazeMaker.make_maze (Grid.construct R C) rng).Symm ∧
    (∀ v w, (BinaryTreeMazeMaker.make_maze (Grid.construct R C) rng).Linked v w →
      GeoNbr v w) ∧
    (BinaryTreeMazeMaker.make_maze (Grid.construct R C) rng).num_rows = R ∧
    (BinaryTreeMazeMaker.make_maze (Grid.construct R C) rng).num_cols = C := by
  set g0 := Grid.construct R C with hg0
  have hinv := btFold_inv rng g0 g0.all_cells [] g0 0 (by simp) (btInv_base R C)
  rw [List.nil_append] at hinv
  obtain ⟨hRr, hCc, hsym, hwf, hup, hgeo, hcount, hA5, hA7, hA6⟩ := hinv
  set gF := (g0.all_cells.foldl (btStep rng) (g0, 0)).1 with hgF
  have hmm : BinaryTreeMazeMaker.make_maze (Grid.construct R C) rng = gF := rfl
  have hA5' : ∀ c ∈ g0.all_cells, btCandidates g0 c ≠ [] →
      ∃ d ∈ btCandidates g0 c, gF.LinkedU c d := fun c hc h => hA5 c hc h
  have hconn : ∀ c ∈ g0.all_cells, gF.Reach c ⟨R - 1, C - 1⟩ := by
    intro c hc
    exact bt_connected_aux R C hg0 hR hC hA5'
      (((R - 1 - c.row) + (C - 1 - c.col)).toNat) c hc le_rfl
  rw [hmm]
  refine ⟨⟨?_, ?_, noCycle_of_up hup⟩, hsym, hgeo, hRr, hCc⟩
  · rw [hcount, hRr, hCc]
    exact filter_btCandidates_length R C hR hC
  · intro a ha bq hb
    have hca : a ∈ g0.all_cells := by
      rw [← all_cells_congr hRr hCc]
      exact ha
    have hcb : bq ∈ g0.all_cells := by
      rw [← all_cells_congr hRr hCc]
      exact hb
    exact reach_trans (hconn a hca) (reach_symm (hconn bq hcb))

/-! ### Column/row segment lemmas -/

theorem colSeg_nil {r j0 t : Int} (h : t ≤ j0) : colSeg r j0 t = [] := by
  unfold colSeg pyRange
  have h1 : (t - j0).toNat = 0 := by omega
  rw [h1]
  rfl

theorem colSeg_cons {r j0 t : Int} (h : j0 < t) :
    colSeg r j0 t = ⟨r, j0⟩ :: colSeg r (j0 + 1) t := by
  unfold colSeg pyRange
  have h1 : (t - j0).toNat = (t - (j0 + 1)).toNat + 1 := by omega
  rw [h1, List.range_succ_eq_map]
  simp only [List.map_cons, List.map_map]
  rw [List.cons.injEq]
  refine ⟨?_, ?_⟩
  · exact cell_eq rfl (by simp)
  · refine List.map_congr_left ?_
    intro i _
    show (⟨r, j0 + Int.ofNat (Nat.succ i)⟩ : Cell) = ⟨r, j0 + 1 + Int.ofNat i⟩
    refine cell_eq rfl ?_
    show j0 + Int.ofNat (Nat.succ i) = j0 + 1 + Int.ofNat i
    simp only [Int.ofNat_eq_natCast]
    omega

theorem colSeg_snoc {r j0 t : Int} (h : j0 ≤ t) :
    colSeg r j0 (t + 1) = colSeg r j0 t ++ [⟨r, t⟩] := by
  unfold colSeg pyRange
  have h1 : (t + 1 - j0).toNat = (t - j0).toNat + 1 := by omega
  rw [h1, List.range_succ]
  simp only [List.map_append, List.map_cons, List.map_nil]
  congr 2
  refine cell_eq rfl ?_
  show j0 + Int.ofNat (t - j0).toNat = t
  simp only [Int.ofNat_eq_natCast]
  omega

theorem mem_colSeg {r j0 t : Int} {x : Cell} :
    x ∈ colSeg r j0 t ↔ x.row = r ∧ j0 ≤ x.col ∧ x.col < t := by
  unfold colSeg
  rw [List.mem_map]
  constructor
  · rintro ⟨i, hi, rfl⟩
    rw [mem_pyRange] at hi
    refine ⟨rfl, ?_, ?_⟩
    · show j0 ≤ j0 + i
      omega
    · show j0 + i < t
      omega
  · rintro ⟨h1, h2, h3⟩
    refine ⟨x.col - j0, mem_pyRange.2 ⟨by omega, by omega⟩, ?_⟩
    refine cell_eq ?_ ?_
    · exact h1.symm
    · show j0 + (x.col - j0) = x.col
      omega

theorem colSeg_length {r j0 t : Int} : (colSeg r j0 t).length = (t - j0).toNat := by
  unfold colSeg
  rw [List.length_map, pyRange_length]

theorem rowSeg_nil {R C r : Int} (h : R ≤ r) : rowSeg R C r = [] := by
  unfold rowSeg pyRange
  have h1 : (R - r).toNat = 0 := by omega
  rw [h1]
  rfl

theorem rowSeg_cons {R C r : Int} (h : r < R) :
    rowSeg R C r = colSeg r 0 C :: rowSeg R C (r + 1) := by
  unfold rowSeg pyRange
  have h1 : (R - r).toNat = (R - (r + 1)).toNat + 1 := by omega
  rw [h1, List.range_succ_eq_map]
  simp only [List.map_cons, List.map_map]
  rw [List.cons.injEq]
  refine ⟨?_, ?_⟩
  · show colSeg (r + Int.ofNat 0) 0 C = colSeg r 0 C
    congr 1
    simp
  · refine List.map_congr_left ?_
    intro i _
    show colSeg (r + Int.ofNat (Nat.succ i)) 0 C = colSeg (r + 1 + Int.ofNat i) 0 C
    congr 1
    simp only [Int.ofNat_eq_natCast]
    omega

theorem rowsList_eq_rowSeg (g0 : Grid) :
    g0.rowsList = rowSeg g0.num_rows g0.num_cols 0 := by
  unfold Grid.rowsList rowSeg colSeg
  simp only [sub_zero, zero_add]

/-! ### Sidewinder step evaluation lemmas -/

theorem swStep_cont_nocoin (rng : Nat → Nat) (g : Grid) (run : List Cell) (k : Nat)
    (cell e : Cell) (hE : g.get_neighbor cell .east = some e)
    (hN : g.get_neighbor cell .north = none) :
    swStep rng (g, run, k) cell = (g.link cell e, run ++ [cell], k) := by
  unfold swStep
  simp [hE, hN]

theorem swStep_end_nonorth (rng : Nat → Nat) (g : Grid) (run : List Cell) (k : Nat)
    (cell : Cell) (hE : g.get_neighbor cell .east = none)
    (hNm : g.get_neighbor (pyChoice (run ++ [cell]) (rng k)) .north = none) :
    swStep rng (g, run, k) cell = (g, [], k + 1) := by
  unfold swStep
  simp [hE, hNm]

theorem swStep_end_north (rng : Nat → Nat) (g : Grid) (run : List Cell) (k : Nat)
    (cell nm : Cell) (hE : g.get_neighbor cell .east = none)
    (hNm : g.get_neighbor (pyChoice (run ++ [cell]) (rng k)) .north = some nm) :
    swStep rng (g, run, k) cell
      = (g.link (pyChoice (run ++ [cell]) (rng k)) nm, [], k + 1) := by
  unfold swStep
  simp [hE, hNm]

theorem swStep_close_coin (rng : Nat → Nat) (g : Grid) (run : List Cell) (k : Nat)
    (cell e nc nm : Cell) (hE : g.get_neighbor cell .east = some e)
    (hN : g.get_neighbor cell .north = some nc) (hcoin : rng k % 2 = 0)
    (hNm : g.get_neighbor (pyChoice (run ++ [cell]) (rng (k + 1))) .north = some nm) :
    swStep rng (g, run, k) cell
      = (g.link (pyChoice (run ++ [cell]) (rng (k + 1))) nm, [], k + 2) := by
  unfold swStep
  simp [hE, hN, hcoin, hNm]

theorem swStep_cont_coin (rng : Nat → Nat) (g : Grid) (run : List Cell) (k : Nat)
    (cell e nc : Cell) (hE : g.get_neighbor cell .east = some e)
    (hN : g.get_neighbor cell .north = some nc) (hcoin : rng k % 2 ≠ 0) :
    swStep rng (g, run, k) cell = (g.link cell e, run ++ [cell], k + 1) := by
  unfold swStep
  simp [hE, hN, hcoin]

/-! ### Sidewinder invariant transitions -/

/-- Linking the current cell `⟨r,t⟩` east extends the run component by one
column. -/
theorem swInv_cont (g0 g : Grid) (r j0 t : Int) (hinv : SWInv g0 g r j0 t)
    (h0j : 0 ≤ j0) (hjt : j0 ≤ t) (h0r : 0 ≤ r) (hrR : r < g0.num_rows)
    (ht1C : t + 1 < g0.num_cols) :
    SWInv g0 (g.link ⟨r, t⟩ ⟨r, t + 1⟩) r j0 (t + 1) ∧
    (g.link ⟨r, t⟩ ⟨r, t + 1⟩).edgeCount = g.edgeCount + 1 := by
  obtain ⟨hR, hC, hsym, hwf, hup, hgeo, hchar⟩ := hinv
  have ht0 : (0 : Int) ≤ t := le_trans h0j hjt
  have hcm : (⟨r, t⟩ : Cell) ∈ g0.all_cells :=
    mem_all_cells.2 ⟨h0r, hrR, ht0, show (t : Int) < g0.num_cols from by omega⟩
  have hem : (⟨r, t + 1⟩ : Cell) ∈ g0.all_cells :=
    mem_all_cells.2 ⟨h0r, hrR, show (0 : Int) ≤ t + 1 from by omega, ht1C⟩
  have hrunc : swRun g0 r j0 t ⟨r, t⟩ :=
    ⟨hcm, rfl, show j0 ≤ t from hjt, show (t : Int) ≤ t from le_refl t⟩
  have hner : ¬g.Reach ⟨r, t⟩ ⟨r, t + 1⟩ := by
    intro hre
    rcases (hchar _ _).1 hre with heq | ⟨hm1, _⟩ | ⟨_, hr2⟩
    · have h2 : (t : Int) = t + 1 := congrArg Cell.col heq
      omega
    · rcases hm1.2 with hlt | ⟨_, hlt⟩
      · exact absurd (show r < r from hlt) (lt_irrefl r)
      · have : (t : Int) < j0 := hlt
        omega
    · have : (t : Int) + 1 ≤ t := hr2.2.2.2
      omega
  have hne : (⟨r, t⟩ : Cell) ≠ ⟨r, t + 1⟩ := by
    intro h
    have h2 : (t : Int) = t + 1 := congrArg Cell.col h
    omega
  have hna : ¬g.Linked ⟨r, t⟩ ⟨r, t + 1⟩ := fun h => hner (reach_of_linkedU (Or.inl h))
  have hnb : ¬g.Linked ⟨r, t + 1⟩ ⟨r, t⟩ := fun h => hner (reach_of_linkedU (Or.inr h))
  have hgeonew : GeoNbr ⟨r, t⟩ ⟨r, t + 1⟩ :=
    show ((r : Int) - r).natAbs + ((t : Int) - (t + 1)).natAbs = 1 from by omega
  have hshape := link_shape g ⟨r, t⟩ ⟨r, t + 1⟩
  have hcellsg : g.all_cells = g0.all_cells := all_cells_congr hR hC
  refine ⟨⟨hshape.1.trans hR, hshape.2.trans hC, symm_link hsym _ _,
    wf_link hwf (by rw [hcellsg]; exact hcm) (by rw [hcellsg]; exact hem),
    up_link hup hner, geo_link hgeo hgeonew, ?_⟩, edgeCount_link hne hna hnb⟩
  intro x y
  constructor
  · intro hre
    rcases reach_link.1 hre with hold | ⟨h1, h2⟩ | ⟨h1, h2⟩
    · rcases (hchar x y).1 hold with heq | hmm | ⟨hr1, hr2⟩
      · exact Or.inl heq
      · exact Or.inr (Or.inl hmm)
      · exact Or.inr (Or.inr ⟨⟨hr1.1, hr1.2.1, hr1.2.2.1, by
          have := hr1.2.2.2; omega⟩, ⟨hr2.1, hr2.2.1, hr2.2.2.1, by
          have := hr2.2.2.2; omega⟩⟩)
    · refine Or.inr (Or.inr ⟨?_, ?_⟩)
      · rcases (hchar _ _).1 h1 with heq | ⟨_, hm2⟩ | ⟨hr1, _⟩
        · subst heq
          exact ⟨hcm, rfl, show j0 ≤ t from hjt, show (t : Int) ≤ t + 1 from by omega⟩
        · exfalso
          rcases hm2.2 with hlt | ⟨_, hlt⟩
          · exact absurd (show r < r from hlt) (lt_irrefl r)
          · have : (t : Int) < j0 := hlt
            omega
        · exact ⟨hr1.1, hr1.2.1, hr1.2.2.1, by have := hr1.2.2.2; omega⟩
      · rcases (hchar _ _).1 h2 with heq | ⟨hm1, _⟩ | ⟨hr1, _⟩
        · rw [← heq]
          exact ⟨hem, rfl, show j0 ≤ t + 1 from by omega,
            show (t : Int) + 1 ≤ t + 1 from le_refl _⟩
        · exfalso
          rcases hm1.2 with hlt | ⟨_, hlt⟩
          · exact absurd (show r < r from hlt) (lt_irrefl r)
          · have : (t : Int) + 1 < j0 := hlt
            omega
        · exfalso
          have : (t : Int) + 1 ≤ t := hr1.2.2.2
          omega
    · refine Or.inr (Or.inr ⟨?_, ?_⟩)
      · rcases (hchar _ _).1 h1 with heq | ⟨_, hm2⟩ | ⟨_, hr1⟩
        · subst heq
          exact ⟨hem, rfl, show j0 ≤ t + 1 from by omega,
            show (t : Int) + 1 ≤ t + 1 from le_refl _⟩
        · exfalso
          rcases hm2.2 with hlt | ⟨_, hlt⟩
          · exact absurd (show r < r from hlt) (lt_irrefl r)
          · have : (t : Int) + 1 < j0 := hlt
            omega
        · exfalso
          have : (t : Int) + 1 ≤ t := hr1.2.2.2
          omega
      · rcases (hchar _ _).1 h2 with heq | ⟨hm1, _⟩ | ⟨_, hr2⟩
        · rw [← heq]
          exact ⟨hcm, rfl, show j0 ≤ t from hjt, show (t : Int) ≤ t + 1 from by omega⟩
        · exfalso
          rcases hm1.2 with hlt | ⟨_, hlt⟩
          · exact absurd (show r < r from hlt) (lt_irrefl r)
          · have : (t : Int) < j0 := hlt
            omega
        · exact ⟨hr2.1, hr2.2.1, hr2.2.2.1, by have := hr2.2.2.2; omega⟩
  · have key : ∀ z, swRun g0 r j0 (t + 1) z →
        (g.link ⟨r, t⟩ ⟨r, t + 1⟩).Reach ⟨r, t⟩ z := by
      intro z hz
      by_cases hcz : z.col ≤ t
      · exact reach_mono_link ((hchar _ _).2
          (Or.inr (Or.inr ⟨hrunc, ⟨hz.1, hz.2.1, hz.2.2.1, hcz⟩⟩)))
      · have hz1 : z = ⟨r, t + 1⟩ := by
          refine cell_eq hz.2.1 ?_
          have := hz.2.2.2
          show z.col = t + 1
          omega
        rw [hz1]
        exact reach_of_linkedU (Or.inl (linked_link.2 (Or.inr (Or.inl ⟨rfl, rfl⟩))))
    rintro (rfl | ⟨hm1, hm2⟩ | ⟨hr1, hr2⟩)
    · exact reach_refl _ _
    · exact reach_mono_link ((hchar x y).2 (Or.inr (Or.inl ⟨hm1, hm2⟩)))
    · exact reach_trans (reach_symm (key x hr1)) (key y hr2)

/-- Closing out the run: linking a member `⟨r,c⟩` of the run north merges the
run into the closed-out region; the next run starts at column `t+1`. -/
theorem swInv_close (g0 g : Grid) (r j0 t c : Int) (hinv : SWInv g0 g r j0 t)
    (h0j : 0 ≤ j0) (hjc : j0 ≤ c) (hct : c ≤ t) (h1r : 1 ≤ r)
    (hrR : r < g0.num_rows) (htC : t < g0.num_cols) :
    SWInv g0 (g.link ⟨r, c⟩ ⟨r - 1, c⟩) r (t + 1) (t + 1) ∧
    (g.link ⟨r, c⟩ ⟨r - 1, c⟩).edgeCount = g.edgeCount + 1 := by
  obtain ⟨hR, hC, hsym, hwf, hup, hgeo, hchar⟩ := hinv
  have hcm : (⟨r, c⟩ : Cell) ∈ g0.all_cells :=
    mem_all_cells.2 ⟨show (0 : Int) ≤ r from by omega, hrR,
      show (0 : Int) ≤ c from by omega, show (c : Int) < g0.num_cols from by omega⟩
  have hnm : (⟨r - 1, c⟩ : Cell) ∈ g0.all_cells :=
    mem_all_cells.2 ⟨show (0 : Int) ≤ r - 1 from by omega,
      show (r : Int) - 1 < g0.num_rows from by omega,
      show (0 : Int) ≤ c from by omega, show (c : Int) < g0.num_cols from by omega⟩
  have hrunc : swRun g0 r j0 t ⟨r, c⟩ :=
    ⟨hcm, rfl, show j0 ≤ c from hjc, show (c : Int) ≤ t from hct⟩
  have hmainn : swMain g0 r j0 ⟨r - 1, c⟩ :=
    ⟨hnm, Or.inl (show (r : Int) - 1 < r from by omega)⟩
  have hner : ¬g.Reach ⟨r, c⟩ ⟨r - 1, c⟩ := by
    intro hre
    rcases (hchar _ _).1 hre with heq | ⟨hm1, _⟩ | ⟨_, hr2⟩
    · have h2 : (r : Int) = r - 1 := congrArg Cell.row heq
      omega
    · rcases hm1.2 with hlt | ⟨_, hlt⟩
      · exact absurd (show r < r from hlt) (lt_irrefl r)
      · have : (c : Int) < j0 := hlt
        omega
    · have : (r : Int) - 1 = r := hr2.2.1
      omega
  have hne : (⟨r, c⟩ : Cell) ≠ ⟨r - 1, c⟩ := by
    intro h
    have h2 : (r : Int) = r - 1 := congrArg Cell.row h
    omega
  have hna : ¬g.Linked ⟨r, c⟩ ⟨r - 1, c⟩ := fun h => hner (reach_of_linkedU (Or.inl h))
  have hnb : ¬g.Linked ⟨r - 1, c⟩ ⟨r, c⟩ := fun h => hner (reach_of_linkedU (Or.inr h))
  have hgeonew : GeoNbr ⟨r, c⟩ ⟨r - 1, c⟩ :=
    show ((r : Int) - (r - 1)).natAbs + ((c : Int) - c).natAbs = 1 from by omega
  have hshape := link_shape g ⟨r, c⟩ ⟨r - 1, c⟩
  have hcellsg : g.all_cells = g0.all_cells := all_cells_congr hR hC
  have hmain' : ∀ z, swMain g0 r (t + 1) z →
      (g.link ⟨r, c⟩ ⟨r - 1, c⟩).Reach ⟨r, c⟩ z := by
    intro z hz
    rcases hz.2 with hlt | ⟨hre, hcol⟩
    · have h1 : g.Reach ⟨r - 1, c⟩ z :=
        (hchar _ _).2 (Or.inr (Or.inl ⟨hmainn, hz.1, Or.inl hlt⟩))
      exact reach_trans
        (reach_of_linkedU (Or.inl (linked_link.2 (Or.inr (Or.inl ⟨rfl, rfl⟩)))))
        (reach_mono_link h1)
    · by_cases hj : z.col < j0
      · have h1 : g.Reach ⟨r - 1, c⟩ z :=
          (hchar _ _).2 (Or.inr (Or.inl ⟨hmainn, hz.1, Or.inr ⟨hre, hj⟩⟩))
        exact reach_trans
          (reach_of_linkedU (Or.inl (linked_link.2 (Or.inr (Or.inl ⟨rfl, rfl⟩)))))
          (reach_mono_link h1)
      · exact reach_mono_link ((hchar _ _).2
          (Or.inr (Or.inr ⟨hrunc, hz.1, hre, by omega, by omega⟩)))
  have hsub : ∀ z, swMain g0 r j0 z ∨ swRun g0 r j0 t z → swMain g0 r (t + 1) z := by
    rintro z (hz | hz)
    · rcases hz.2 with hlt | ⟨hre, hcol⟩
      · exact ⟨hz.1, Or.inl hlt⟩
      · exact ⟨hz.1, Or.inr ⟨hre, by omega⟩⟩
    · exact ⟨hz.1, Or.inr ⟨hz.2.1, by have := hz.2.2.2; omega⟩⟩
  refine ⟨⟨hshape.1.trans hR, hshape.2.trans hC, symm_link hsym _ _,
    wf_link hwf (by rw [hcellsg]; exact hcm) (by rw [hcellsg]; exact hnm),
    up_link hup hner, geo_link hgeo hgeonew, ?_⟩, edgeCount_link hne hna hnb⟩
  intro x y
  constructor
  · intro hre
    rcases reach_link.1 hre with hold | ⟨h1, h2⟩ | ⟨h1, h2⟩
    · rcases (hchar x y).1 hold with heq | ⟨hm1, hm2⟩ | ⟨hr1, hr2⟩
      · exact Or.inl heq
      · exact Or.inr (Or.inl ⟨hsub x (Or.inl hm1), hsub y (Or.inl hm2)⟩)
      · exact Or.inr (Or.inl ⟨hsub x (Or.inr hr1), hsub y (Or.inr hr2)⟩)
    · refine Or.inr (Or.inl ⟨?_, ?_⟩)
      · rcases (hchar _ _).1 h1 with heq | ⟨hm1, hm2⟩ | ⟨hr1, _⟩
        · subst heq
          exact hsub _ (Or.inr hrunc)
        · exact hsub x (Or.inl hm1)
        · exact hsub x (Or.inr hr1)
      · rcases (hchar _ _).1 h2 with heq | ⟨_, hm2⟩ | ⟨hr1, _⟩
        · rw [← heq]
          exact hsub _ (Or.inl hmainn)
        · exact hsub y (Or.inl hm2)
        · exfalso
          have : (r : Int) - 1 = r := hr1.2.1
          omega
    · refine Or.inr (Or.inl ⟨?_, ?_⟩)
      · rcases (hchar _ _).1 h1 with heq | ⟨hm1, _⟩ | ⟨_, hr2⟩
        · subst heq
          exact hsub _ (Or.inl hmainn)
        · exact hsub x (Or.inl hm1)
        · exfalso
          have : (r : Int) - 1 = r := hr2.2.1
          omega
      · rcases (hchar _ _).1 h2 with heq | ⟨_, hm2⟩ | ⟨_, hr2⟩
        · rw [← heq]
          exact hsub _ (Or.inr hrunc)
        · exact hsub y (Or.inl hm2)
        · exact hsub y (Or.inr hr2)
  · rintro (rfl | ⟨hm1, hm2⟩ | ⟨hr1, hr2⟩)
    · exact reach_refl _ _
    · exact reach_trans (reach_symm (hmain' x hm1)) (hmain' y hm2)
    · have hx : x = ⟨r, t + 1⟩ := by
        refine cell_eq hr1.2.1 ?_
        have h1 := hr1.2.2.1
        have h2 := hr1.2.2.2
        show x.col = t + 1
        omega
      have hy : y = ⟨r, t + 1⟩ := by
        refine cell_eq hr2.2.1 ?_
        have h1 := hr2.2.2.1
        have h2 := hr2.2.2.2
        show y.col = t + 1
        omega
      rw [hx, hy]
      exact reach_refl _ _

/-- When a row ends (the run start pointer has passed the last column), the
invariant for the next row holds with no change to the grid. -/
theorem swInv_rowdone (g0 g : Grid) (r : Int)
    (hinv : SWInv g0 g r g0.num_cols g0.num_cols) : SWInv g0 g (r + 1) 0 0 := by
  obtain ⟨hR, hC, hsym, hwf, hup, hgeo, hchar⟩ := hinv
  refine ⟨hR, hC, hsym, hwf, hup, hgeo, ?_⟩
  intro x y
  rw [hchar x y]
  constructor
  · rintro (rfl | ⟨hm1, hm2⟩ | ⟨hr1, _⟩)
    · exact Or.inl rfl
    · refine Or.inr (Or.inl ⟨⟨hm1.1, Or.inl ?_⟩, ⟨hm2.1, Or.inl ?_⟩⟩)
      · rcases hm1.2 with h | ⟨h, _⟩ <;> omega
      · rcases hm2.2 with h | ⟨h, _⟩ <;> omega
    · exfalso
      have h1 := (mem_all_cells.1 hr1.1).2.2.2
      have h2 := hr1.2.2.1
      omega
  · rintro (rfl | ⟨hm1, hm2⟩ | ⟨hr1, hr2⟩)
    · exact Or.inl rfl
    · refine Or.inr (Or.inl ⟨⟨hm1.1, ?_⟩, ⟨hm2.1, ?_⟩⟩)
      · have hb := (mem_all_cells.1 hm1.1).2.2.2
        rcases hm1.2 with h | ⟨h, hc⟩
        · by_cases hx : x.row < r
          · exact Or.inl hx
          · exact Or.inr ⟨by omega, by omega⟩
        · exfalso
          have h0 := (mem_all_cells.1 hm1.1).2.2.1
          omega
      · have hb := (mem_all_cells.1 hm2.1).2.2.2
        rcases hm2.2 with h | ⟨h, hc⟩
        · by_cases hy : y.row < r
          · exact Or.inl hy
          · exact Or.inr ⟨by omega, by omega⟩
        · exfalso
          have h0 := (mem_all_cells.1 hm2.1).2.2.1
          omega
    · left
      refine (cell_eq (hr1.2.1.trans hr2.2.1.symm) ?_)
      have a1 := hr1.2.2.1
      have a2 := hr1.2.2.2
      have b1 := hr2.2.2.1
      have b2 := hr2.2.2.2
      omega

/-- Row 0 at the eastern boundary: the forced close-out adds no link (there is
no north neighbor), and the whole first row becomes the closed-out region. -/
theorem swInv_row0_boundary (g0 g : Grid)
    (hinv : SWInv g0 g 0 0 (g0.num_cols - 1)) :
    SWInv g0 g 0 g0.num_cols g0.num_cols := by
  obtain ⟨hR, hC, hsym, hwf, hup, hgeo, hchar⟩ := hinv
  refine ⟨hR, hC, hsym, hwf, hup, hgeo, ?_⟩
  intro x y
  rw [hchar x y]
  constructor
  · rintro (rfl | ⟨hm1, _⟩ | ⟨hr1, hr2⟩)
    · exact Or.inl rfl
    · exfalso
      have h0 := (mem_all_cells.1 hm1.1).1
      have h1 := (mem_all_cells.1 hm1.1).2.2.1
      rcases hm1.2 with h | ⟨_, h⟩ <;> omega
    · refine Or.inr (Or.inl ⟨⟨hr1.1, Or.inr ⟨hr1.2.1, ?_⟩⟩, ⟨hr2.1, Or.inr ⟨hr2.2.1, ?_⟩⟩⟩)
      · exact (mem_all_cells.1 hr1.1).2.2.2
      · exact (mem_all_cells.1 hr2.1).2.2.2
  · rintro (rfl | ⟨hm1, hm2⟩ | ⟨hr1, _⟩)
    · exact Or.inl rfl
    · refine Or.inr (Or.inr ⟨⟨hm1.1, ?_, ?_, ?_⟩, ⟨hm2.1, ?_, ?_, ?_⟩⟩)
      · have h0 := (mem_all_cells.1 hm1.1).1
        rcases hm1.2 with h | ⟨h, _⟩
        · omega
        · exact h
      · exact (mem_all_cells.1 hm1.1).2.2.1
      · have hb := (mem_all_cells.1 hm1.1).2.2.2
        omega
      · have h0 := (mem_all_cells.1 hm2.1).1
        rcases hm2.2 with h | ⟨h, _⟩
        · omega
        · exact h
      · exact (mem_all_cells.1 hm2.1).2.2.1
      · have hb := (mem_all_cells.1 hm2.1).2.2.2
        omega
    · exfalso
      have hb := (mem_all_cells.1 hr1.1).2.2.2
      have h1 := hr1.2.2.1
      omega

/-- The freshly constructed grid satisfies the Sidewinder invariant at the
start of row 0. -/
theorem swInv_base (R C : Int) : SWInv (Grid.construct R C) (Grid.construct R C) 0 0 0 := by
  refine ⟨rfl, rfl, ?_, ?_, up_nil rfl, ?_, ?_⟩
  · intro a b h
    exact absurd h (List.not_mem_nil _)
  · intro p hp
    exact absurd hp (List.not_mem_nil _)
  · intro v w h
    exact absurd h (List.not_mem_nil _)
  · intro x y
    constructor
    · intro h
      exact Or.inl (reach_nil rfl h)
    · rintro (rfl | ⟨hm1, _⟩ | ⟨hr1, hr2⟩)
      · exact reach_refl _ _
      · exfalso
        have h0 := (mem_all_cells.1 hm1.1).1
        have h1 := (mem_all_cells.1 hm1.1).2.2.1
        rcases hm1.2 with h | ⟨_, h⟩ <;> omega
      · have hx : x = ⟨0, 0⟩ := by
          refine cell_eq hr1.2.1 ?_
          have a1 := hr1.2.2.1
          have a2 := hr1.2.2.2
          show x.col = 0
          omega
        have hy : y = ⟨0, 0⟩ := by
          refine cell_eq hr2.2.1 ?_
          have a1 := hr2.2.2.1
          have a2 := hr2.2.2.2
          show y.col = 0
          omega
        rw [hx, hy]
        exact reach_refl _ _

set_option maxHeartbeats 1600000 in
/-- The inner Sidewinder fold over the remaining cells of a row `r ≥ 1`:
from the invariant before cell `⟨r,t⟩` (with `m` cells left), the fold closes
the row, adding exactly one link per remaining cell. -/
theorem swRowPos_fold (g0 : Grid) (rng : Nat → Nat) (r : Int) (h1r : 1 ≤ r)
    (hrR : r < g0.num_rows) :
    ∀ (m : Nat) (t j0 : Int) (g : Grid) (k : Nat),
      t + (m : Int) = g0.num_cols → 0 ≤ j0 → j0 ≤ t → t < g0.num_cols →
      SWInv g0 g r j0 t →
      ∃ g' k', (colSeg r t g0.num_cols).foldl (swStep rng) (g, colSeg r j0 t, k)
          = (g', [], k') ∧ SWInv g0 g' r g0.num_cols g0.num_cols ∧
        g'.edgeCount = g.edgeCount + m := by
  intro m
  induction m with
  | zero =>
    intro t j0 g k ht _ _ htC _
    exfalso
    omega
  | succ n ih =>
    intro t j0 g k ht h0j hjt htC hinv
    have hR := hinv.1
    have hC := hinv.2.1
    have hlist : colSeg r t g0.num_cols = ⟨r, t⟩ :: colSeg r (t + 1) g0.num_cols :=
      colSeg_cons htC
    have hN : g.get_neighbor ⟨r, t⟩ .north = some ⟨r - 1, t⟩ := by
      show g.get_cell (r - 1) t = some ⟨r - 1, t⟩
      rw [get_cell_eq,
        if_pos (show 0 ≤ r - 1 ∧ r - 1 < g.num_rows ∧ 0 ≤ t ∧ t < g.num_cols from
          ⟨by omega, by omega, by omega, by omega⟩)]
    rcases Nat.eq_zero_or_pos n with rfl | hpos
    · -- last cell of the row: forced close-out, link the chosen member north
      have ht1 : t + 1 = g0.num_cols := by omega
      have hE : g.get_neighbor ⟨r, t⟩ .east = none := by
        show g.get_cell r (t + 1) = none
        have hcond : ¬(0 ≤ r ∧ r < g.num_rows ∧ 0 ≤ t + 1 ∧ t + 1 < g.num_cols) := by
          intro hcon
          omega
        rw [get_cell_eq, if_neg hcond]
      have hnn : colSeg r j0 t ++ [(⟨r, t⟩ : Cell)] ≠ [] := by simp
      have hmem : pyChoice (colSeg r j0 t ++ [⟨r, t⟩]) (rng k) ∈ colSeg r j0 (t + 1) := by
        rw [colSeg_snoc hjt]
        exact pyChoice_mem hnn (rng k)
      have hb := mem_colSeg.1 hmem
      have hb1 := hb.2.1
      have hb2 := hb.2.2
      have hNm : g.get_neighbor (pyChoice (colSeg r j0 t ++ [⟨r, t⟩]) (rng k)) .north
          = some ⟨r - 1, (pyChoice (colSeg r j0 t ++ [⟨r, t⟩]) (rng k)).col⟩ := by
        show g.get_cell ((pyChoice (colSeg r j0 t ++ [⟨r, t⟩]) (rng k)).row - 1)
          (pyChoice (colSeg r j0 t ++ [⟨r, t⟩]) (rng k)).col = _
        rw [hb.1, get_cell_eq,
          if_pos (show 0 ≤ r - 1 ∧ r - 1 < g.num_rows ∧
              0 ≤ (pyChoice (colSeg r j0 t ++ [⟨r, t⟩]) (rng k)).col ∧
              (pyChoice (colSeg r j0 t ++ [⟨r, t⟩]) (rng k)).col < g.num_cols from
            ⟨by omega, by omega, by omega, by omega⟩)]
      rw [hlist, colSeg_nil (show g0.num_cols ≤ t + 1 from by omega), List.foldl_cons,
        List.foldl_nil,
        swStep_end_north rng g (colSeg r j0 t) k ⟨r, t⟩ _ hE hNm]
      obtain ⟨c, hc⟩ : ∃ c, pyChoice (colSeg r j0 t ++ [⟨r, t⟩]) (rng k) = ⟨r, c⟩ :=
        ⟨(pyChoice (colSeg r j0 t ++ [⟨r, t⟩]) (rng k)).col, cell_eq hb.1 rfl⟩
      rw [hc] at hb1 hb2 ⊢
      have hb1' : j0 ≤ c := hb1
      have hb2' : c < t + 1 := hb2
      have hclose := swInv_close g0 g r j0 t c hinv h0j hb1' (by omega) h1r hrR htC
      refine ⟨_, _, rfl, ?_, ?_⟩
      · rw [← ht1]
        exact hclose.1
      · rw [hclose.2]
    · -- a cell strictly before the eastern boundary
      have ht1C : t + 1 < g0.num_cols := by omega
      have hE : g.get_neighbor ⟨r, t⟩ .east = some ⟨r, t + 1⟩ := by
        show g.get_cell r (t + 1) = some ⟨r, t + 1⟩
        rw [get_cell_eq,
          if_pos (show 0 ≤ r ∧ r < g.num_rows ∧ 0 ≤ t + 1 ∧ t + 1 < g.num_cols from
            ⟨by omega, by omega, by omega, by omega⟩)]
      by_cases hcoin : rng k % 2 = 0
      · -- coin says close out: link a run member north, run resets
        have hnn : colSeg r j0 t ++ [(⟨r, t⟩ : Cell)] ≠ [] := by simp
        have hmem : pyChoice (colSeg r j0 t ++ [⟨r, t⟩]) (rng (k + 1)) ∈
            colSeg r j0 (t + 1) := by
          rw [colSeg_snoc hjt]
          exact pyChoice_mem hnn (rng (k + 1))
        have hb := mem_colSeg.1 hmem
        have hb1 := hb.2.1
        have hb2 := hb.2.2
        have hNm : g.get_neighbor
            (pyChoice (colSeg r j0 t ++ [⟨r, t⟩]) (rng (k + 1))) .north
            = some ⟨r - 1, (pyChoice (colSeg r j0 t ++ [⟨r, t⟩]) (rng (k + 1))).col⟩ := by
          show g.get_cell ((pyChoice (colSeg r j0 t ++ [⟨r, t⟩]) (rng (k + 1))).row - 1)
            (pyChoice (colSeg r j0 t ++ [⟨r, t⟩]) (rng (k + 1))).col = _
          rw [hb.1, get_cell_eq,
            if_pos (show 0 ≤ r - 1 ∧ r - 1 < g.num_rows ∧
                0 ≤ (pyChoice (colSeg r j0 t ++ [⟨r, t⟩]) (rng (k + 1))).col ∧
                (pyChoice (colSeg r j0 t ++ [⟨r, t⟩]) (rng (k + 1))).col < g.num_cols from
              ⟨by omega, by omega, by omega, by omega⟩)]
        rw [hlist, List.foldl_cons,
          swStep_close_coin rng g (colSeg r j0 t) k ⟨r, t⟩ ⟨r, t + 1⟩ ⟨r - 1, t⟩ _
            hE hN hcoin hNm]
        obtain ⟨c, hc⟩ : ∃ c, pyChoice (colSeg r j0 t ++ [⟨r, t⟩]) (rng (k + 1)) = ⟨r, c⟩ :=
          ⟨(pyChoice (colSeg r j0 t ++ [⟨r, t⟩]) (rng (k + 1))).col, cell_eq hb.1 rfl⟩
        rw [hc] at hb1 hb2 ⊢
        have hb1' : j0 ≤ c := hb1
        have hb2' : c < t + 1 := hb2
        have hclose := swInv_close g0 g r j0 t c hinv h0j hb1' (by omega) h1r hrR htC
        obtain ⟨g', k', hfold, hinv', hcount⟩ :=
          ih (t + 1) (t + 1) (g.link ⟨r, c⟩ ⟨r - 1, c⟩) (k + 2) (by omega) (by omega)
            (le_refl _) ht1C hclose.1
        rw [colSeg_nil (le_refl (t + 1))] at hfold
        refine ⟨g', k', hfold, hinv', ?_⟩
        rw [hcount, hclose.2]
        omega
      · -- coin says continue: link east, the run grows
        rw [hlist, List.foldl_cons,
          swStep_cont_coin rng g (colSeg r j0 t) k ⟨r, t⟩ ⟨r, t + 1⟩ ⟨r - 1, t⟩ hE hN hcoin]
        have hcont := swInv_cont g0 g r j0 t hinv h0j hjt (by omega) hrR ht1C
        obtain ⟨g', k', hfold, hinv', hcount⟩ :=
          ih (t + 1) j0 (g.link ⟨r, t⟩ ⟨r, t + 1⟩) (k + 1) (by omega) h0j (by omega)
            ht1C hcont.1
        rw [← colSeg_snoc hjt]
        refine ⟨g', k', hfold, hinv', ?_⟩
        rw [hcount, hcont.2]
        omega

/-- The inner Sidewinder fold over the remaining cells of row 0: the run only
closes at the eastern boundary (where no link is added), so the row adds
`m − 1` east links. -/
theorem swRow0_fold (g0 : Grid) (rng : Nat → Nat) (h0R : 0 < g0.num_rows) :
    ∀ (m : Nat) (t : Int) (g : Grid) (k : Nat),
      t + (m : Int) = g0.num_cols → 0 ≤ t → t < g0.num_cols →
      SWInv g0 g 0 0 t →
      ∃ g' k', (colSeg 0 t g0.num_cols).foldl (swStep rng) (g, colSeg 0 0 t, k)
          = (g', [], k') ∧ SWInv g0 g' 0 g0.num_cols g0.num_cols ∧
        g'.edgeCount = g.edgeCount + (m - 1) := by
  intro m
  induction m with
  | zero =>
    intro t g k ht _ htC _
    exfalso
    omega
  | succ n ih =>
    intro t g k ht h0t htC hinv
    have hR := hinv.1
    have hC := hinv.2.1
    have hlist : colSeg 0 t g0.num_cols = ⟨0, t⟩ :: colSeg 0 (t + 1) g0.num_cols :=
      colSeg_cons htC
    rcases Nat.eq_zero_or_pos n with rfl | hpos
    · -- eastern boundary of row 0: forced close-out, but the member has no
      -- north neighbor, so no link is added
      have ht1 : t + 1 = g0.num_cols := by omega
      have hE : g.get_neighbor ⟨0, t⟩ .east = none := by
        show g.get_cell 0 (t + 1) = none
        have hcond : ¬(0 ≤ (0 : Int) ∧ (0 : Int) < g.num_rows ∧ 0 ≤ t + 1 ∧
            t + 1 < g.num_cols) := by
          intro hcon
          omega
        rw [get_cell_eq, if_neg hcond]
      have hnn : colSeg 0 0 t ++ [(⟨0, t⟩ : Cell)] ≠ [] := by simp
      have hmem : pyChoice (colSeg 0 0 t ++ [⟨0, t⟩]) (rng k) ∈ colSeg 0 0 (t + 1) := by
        rw [colSeg_snoc h0t]
        exact pyChoice_mem hnn (rng k)
      have hb := mem_colSeg.1 hmem
      have hNm : g.get_neighbor (pyChoice (colSeg 0 0 t ++ [⟨0, t⟩]) (rng k)) .north
          = none := by
        show g.get_cell ((pyChoice (colSeg 0 0 t ++ [⟨0, t⟩]) (rng k)).row - 1)
          (pyChoice (colSeg 0 0 t ++ [⟨0, t⟩]) (rng k)).col = none
        have hcond : ¬(0 ≤ (0 : Int) - 1 ∧ (0 : Int) - 1 < g.num_rows ∧
            0 ≤ (pyChoice (colSeg 0 0 t ++ [⟨0, t⟩]) (rng k)).col ∧
            (pyChoice (colSeg 0 0 t ++ [⟨0, t⟩]) (rng k)).col < g.num_cols) := by
          intro hcon
          omega
        rw [hb.1, get_cell_eq, if_neg hcond]
      rw [hlist, colSeg_nil (show g0.num_cols ≤ t + 1 from by omega), List.foldl_cons,
        List.foldl_nil, swStep_end_nonorth rng g (colSeg 0 0 t) k ⟨0, t⟩ hE hNm]
      have ht' : t = g0.num_cols - 1 := by omega
      subst ht'
      exact ⟨g, k + 1, rfl, swInv_row0_boundary g0 g hinv, by omega⟩
    · -- before the boundary: row 0 has no north neighbor, so the `or`
      -- short-circuits and the cell links east without drawing the coin
      have ht1C : t + 1 < g0.num_cols := by omega
      have hE : g.get_neighbor ⟨0, t⟩ .east = some ⟨0, t + 1⟩ := by
        show g.get_cell 0 (t + 1) = some ⟨0, t + 1⟩
        rw [get_cell_eq,
          if_pos (show 0 ≤ (0 : Int) ∧ (0 : Int) < g.num_rows ∧ 0 ≤ t + 1 ∧
              t + 1 < g.num_cols from ⟨by omega, by omega, by omega, by omega⟩)]
      have hN : g.get_neighbor ⟨0, t⟩ .north = none := by
        show g.get_cell (0 - 1) t = none
        have hcond : ¬(0 ≤ (0 : Int) - 1 ∧ (0 : Int) - 1 < g.num_rows ∧ 0 ≤ t ∧
            t < g.num_cols) := by
          intro hcon
          omega
        rw [get_cell_eq, if_neg hcond]
      rw [hlist, List.foldl_cons,
        swStep_cont_nocoin rng g (colSeg 0 0 t) k ⟨0, t⟩ ⟨0, t + 1⟩ hE hN]
      have hcont := swInv_cont g0 g 0 0 t hinv (le_refl 0) h0t (le_refl 0) h0R ht1C
      obtain ⟨g', k', hfold, hinv', hcount⟩ :=
        ih (t + 1) (g.link ⟨0, t⟩ ⟨0, t + 1⟩) k (by omega) (by omega) ht1C hcont.1
      rw [← colSeg_snoc h0t]
      refine ⟨g', k', hfold, hinv', ?_⟩
      rw [hcount, hcont.2]
      omega

/-- The outer Sidewinder fold over the rows `r … R-1` (for `r ≥ 1`): each row
adds exactly `C` links. -/
theorem swRows_fold (g0 : Grid) (rng : Nat → Nat) (hC : 1 ≤ g0.num_cols) :
    ∀ (p : Nat) (r : Int) (g : Grid) (k : Nat),
      r + (p : Int) = g0.num_rows → 1 ≤ r →
      SWInv g0 g r 0 0 →
      ∃ g' k', (rowSeg g0.num_rows g0.num_cols r).foldl
          (fun st row =>
            let st2 := row.foldl (swStep rng) (st.1, [], st.2)
            (st2.1, st2.2.2)) (g, k)
        = (g', k') ∧ SWInv g0 g' g0.num_rows 0 0 ∧
        g'.edgeCount = g.edgeCount + p * g0.num_cols.toNat := by
  intro p
  induction p with
  | zero =>
    intro r g k hp h1r hinv
    have hr : r = g0.num_rows := by omega
    subst hr
    rw [rowSeg_nil (le_refl _), List.foldl_nil]
    exact ⟨g, k, rfl, hinv, by omega⟩
  | succ n ih =>
    intro r g k hp h1r hinv
    have hrR : r < g0.num_rows := by omega
    obtain ⟨g1, k1, hfold, hinv1, hcnt1⟩ :=
      swRowPos_fold g0 rng r h1r hrR g0.num_cols.toNat 0 0 g k (by omega) (le_refl 0)
        (le_refl 0) (by omega) hinv
    rw [colSeg_nil (le_refl (0 : Int))] at hfold
    obtain ⟨g2, k2, hfold2, hinv2, hcnt2⟩ :=
      ih (r + 1) g1 k1 (by omega) (by omega) (swInv_rowdone g0 g1 r hinv1)
    rw [rowSeg_cons hrR, List.foldl_cons]
    refine ⟨g2, k2, ?_, hinv2, ?_⟩
    · dsimp only
      rw [hfold]
      exact hfold2
    · rw [hcnt2, hcnt1, Nat.succ_mul]
      omega

/-- The Sidewinder generator produces a spanning tree on any `R × C` grid
(`R, C ≥ 1`), with symmetric, geometric links and unchanged dimensions. -/
theorem sw_spanning (R C : Int) (hR : 1 ≤ R) (hC : 1 ≤ C) (rng : Nat → Nat) :
    IsSpanningTree (SidewinderMazeMaker.make_maze (Grid.construct R C) rng) ∧
    (SidewinderMazeMaker.make_maze (Grid.construct R C) rng).Symm ∧
    (∀ v w, (SidewinderMazeMaker.make_maze (Grid.construct R C) rng).Linked v w →
      GeoNbr v w) ∧
    (SidewinderMazeMaker.make_maze (Grid.construct R C) rng).num_rows = R ∧
    (SidewinderMazeMaker.make_maze (Grid.construct R C) rng).num_cols = C := by
  set g0 := Grid.construct R C with hg0
  have hg0R : g0.num_rows = R := rfl
  have hg0C : g0.num_cols = C := rfl
  obtain ⟨g1, k1, hf0, hinv0, hcnt0⟩ :=
    swRow0_fold g0 rng (by omega) g0.num_cols.toNat 0 g0 0 (by omega) (le_refl 0)
      (by omega) (swInv_base R C)
  rw [colSeg_nil (le_refl (0 : Int))] at hf0
  obtain ⟨g2, k2, hf1, hinv1, hcnt1⟩ :=
    swRows_fold g0 rng (by omega) (R - 1).toNat 1 g1 k1 (by omega) (le_refl 1)
      (swInv_rowdone g0 g1 0 hinv0)
  have hmaze : SidewinderMazeMaker.make_maze (Grid.construct R C) rng = g2 := by
    unfold SidewinderMazeMaker.make_maze
    rw [rowsList_eq_rowSeg, rowSeg_cons (show (0 : Int) < g0.num_rows from by omega),
      List.foldl_cons]
    dsimp only
    rw [hf0]
    rw [show (0 : Int) + 1 = 1 from rfl, hf1]
  obtain ⟨hsR, hsC, hsym, hwf, hup, hgeo, hchar⟩ := hinv1
  rw [hmaze]
  refine ⟨⟨?_, ?_, noCycle_of_up hup⟩, hsym, hgeo, hsR, hsC⟩
  · rw [hsR, hsC, hg0R, hg0C, hcnt1, hcnt0]
    have hz : g0.edgeCount = 0 := rfl
    rw [hz, hg0C]
    obtain ⟨a, ha⟩ : ∃ a, R.toNat = a + 1 := ⟨R.toNat - 1, by omega⟩
    have ha2 : (R - 1).toNat = a := by omega
    rw [ha, ha2, Nat.succ_mul]
    omega
  · intro a ha b hb
    have hca : a ∈ g0.all_cells := by
      rw [← all_cells_congr hsR hsC]
      exact ha
    have hcb : b ∈ g0.all_cells := by
      rw [← all_cells_congr hsR hsC]
      exact hb
    refine (hchar a b).2 (Or.inr (Or.inl ⟨⟨hca, Or.inl ?_⟩, ⟨hcb, Or.inl ?_⟩⟩))
    · exact (mem_all_cells.1 hca).2.1
    · exact (mem_all_cells.1 hcb).2.1

/-! ### Eller: dictionary and segment structural lemmas -/

theorem dictGet?_eq_none {sets : List (Cell × Nat)} {c : Cell} :
    dictGet? sets c = none ↔ c ∉ sets.map Prod.fst := by
  induction sets with
  | nil => simp [dictGet?]
  | cons p rest ih =>
    rw [dictGet?]
    by_cases h : c = p.1
    · subst h
      simp
    · rw [if_neg h]
      simp [ih, h]

theorem dictGet?_dictSet (sets : List (Cell × Nat)) (c : Cell) (v : Nat) (d : Cell) :
    dictGet? (dictSet sets c v) d = if d = c then some v else dictGet? sets d := by
  induction sets with
  | nil =>
    by_cases h : d = c <;> simp [dictSet, dictGet?, h]
  | cons p rest ih =>
    rw [dictSet]
    by_cases h1 : c = p.1
    · rw [if_pos h1, dictGet?, dictGet?]
      by_cases h2 : d = c
      · rw [if_pos h2, if_pos h2]
      · rw [if_neg h2, if_neg h2, if_neg (fun h3 => h2 (h3.trans h1.symm))]
    · rw [if_neg h1, dictGet?, dictGet?]
      by_cases h2 : d = p.1
      · rw [if_pos h2, if_neg (fun h => h1 (h.symm.trans h2)), if_pos h2]
      · rw [if_neg h2, ih, if_neg h2]

theorem dictSet_unkeyed {sets : List (Cell × Nat)} {c : Cell} (v : Nat)
    (h : dictGet? sets c = none) : dictSet sets c v = sets ++ [(c, v)] := by
  induction sets with
  | nil => rfl
  | cons p rest ih =>
    rw [dictGet?] at h
    by_cases h1 : c = p.1
    · rw [if_pos h1] at h
      exact absurd h (by simp)
    · rw [if_neg h1] at h
      rw [dictSet, if_neg h1, List.cons_append, ih h]

theorem mem_of_dictGet? {sets : List (Cell × Nat)} {c : Cell} {v : Nat}
    (h : dictGet? sets c = some v) : (c, v) ∈ sets := by
  induction sets with
  | nil => exact absurd h (by simp [dictGet?])
  | cons p rest ih =>
    rw [dictGet?] at h
    by_cases h1 : c = p.1
    · rw [if_pos h1] at h
      rw [Option.some.injEq] at h
      subst h1
      subst h
      exact List.mem_cons_self _ _
    · rw [if_neg h1] at h
      exact List.mem_cons_of_mem _ (ih h)

theorem dictGet?_of_mem {sets : List (Cell × Nat)} {c : Cell} {v : Nat}
    (hnd : (sets.map Prod.fst).Nodup) (h : (c, v) ∈ sets) :
    dictGet? sets c = some v := by
  induction sets with
  | nil => exact absurd h (List.not_mem_nil _)
  | cons p rest ih =>
    rw [List.map_cons, List.nodup_cons] at hnd
    rcases List.mem_cons.1 h with rfl | hmem
    · rw [dictGet?, if_pos rfl]
    · rw [dictGet?]
      by_cases h1 : c = p.1
      · exfalso
        apply hnd.1
        rw [h1] at hmem
        exact List.mem_map.2 ⟨(p.1, v), hmem, rfl⟩
      · rw [if_neg h1]
        exact ih hnd.2 hmem

theorem mergeSets_map_fst (sets : List (Cell × Nat)) (s t : Nat) :
    (mergeSets sets s t).map Prod.fst = sets.map Prod.fst := by
  unfold mergeSets
  rw [List.map_map]
  refine List.map_congr_left ?_
  intro p _
  by_cases h : p.2 = s <;> simp [h]

theorem mergeSets_map_snd (sets : List (Cell × Nat)) (s t : Nat) :
    (mergeSets sets s t).map Prod.snd =
      (sets.map Prod.snd).map (fun v => if v = s then t else v) := by
  unfold mergeSets
  rw [List.map_map, List.map_map]
  refine List.map_congr_left ?_
  intro p _
  by_cases h : p.2 = s <;> simp [h]

theorem mergeSets_length (sets : List (Cell × Nat)) (s t : Nat) :
    (mergeSets sets s t).length = sets.length := by
  unfold mergeSets
  rw [List.length_map]

theorem dictGet?_mergeSets (sets : List (Cell × Nat)) (s t : Nat) (c : Cell) :
    dictGet? (mergeSets sets s t) c =
      (dictGet? sets c).map (fun v => if v = s then t else v) := by
  induction sets with
  | nil => rfl
  | cons p rest ih =>
    unfold mergeSets at ih ⊢
    rw [List.map_cons]
    by_cases h2 : p.2 = s
    · rw [if_pos h2, dictGet?, dictGet?]
      by_cases h1 : c = p.1
      · rw [if_pos h1, if_pos h1, Option.map_some', if_pos h2]
      · rw [if_neg h1, if_neg h1, ih]
    · rw [if_neg h2, dictGet?, dictGet?]
      by_cases h1 : c = p.1
      · rw [if_pos h1, if_pos h1, Option.map_some', if_neg h2]
      · rw [if_neg h1, if_neg h1, ih]

theorem keyed_mergeSets {sets : List (Cell × Nat)} {s t : Nat} {c : Cell} :
    keyed (mergeSets sets s t) c ↔ keyed sets c := by
  unfold keyed
  rw [dictGet?_mergeSets]
  cases dictGet? sets c <;> simp

theorem dictGet_mergeSets (sets : List (Cell × Nat)) (s t : Nat) (c : Cell)
    (h : keyed sets c) :
    dictGet (mergeSets sets s t) c =
      if dictGet sets c = s then t else dictGet sets c := by
  unfold keyed at h
  obtain ⟨v, hv⟩ := Option.ne_none_iff_exists'.1 h
  unfold dictGet
  rw [dictGet?_mergeSets, hv, Option.map_some']
  rfl

theorem nids_append_fresh {sets : List (Cell × Nat)} {c : Cell} {v : Nat}
    (h : v ∉ sets.map Prod.snd) : nids (sets ++ [(c, v)]) = nids sets + 1 := by
  unfold nids
  rw [List.map_append, List.map_cons, List.map_nil, List.toFinset_append]
  have h1 : ([v] : List Nat).toFinset = {v} := rfl
  rw [h1]
  have h2 : (sets.map Prod.snd).toFinset ∪ {v} = insert v (sets.map Prod.snd).toFinset := by
    rw [Finset.union_comm]
    rfl
  rw [h2, Finset.card_insert_of_not_mem (by rwa [List.mem_toFinset])]

theorem nids_append_old {sets : List (Cell × Nat)} {c : Cell} {v : Nat}
    (h : v ∈ sets.map Prod.snd) : nids (sets ++ [(c, v)]) = nids sets := by
  unfold nids
  rw [List.map_append, List.map_cons, List.map_nil, List.toFinset_append]
  have h1 : ([v] : List Nat).toFinset = {v} := rfl
  rw [h1]
  have h2 : (sets.map Prod.snd).toFinset ∪ {v} = insert v (sets.map Prod.snd).toFinset := by
    rw [Finset.union_comm]
    rfl
  rw [h2, Finset.insert_eq_self.2 (by rwa [List.mem_toFinset])]

theorem list_toFinset_map {α β : Type} [DecidableEq α] [DecidableEq β] (f : α → β)
    (l : List α) : (l.map f).toFinset = l.toFinset.image f := by
  ext x
  simp

theorem nids_mergeSets {sets : List (Cell × Nat)} {s t : Nat}
    (hs : s ∈ sets.map Prod.snd) (ht : t ∈ sets.map Prod.snd) (hst : s ≠ t) :
    nids (mergeSets sets s t) + 1 = nids sets := by
  unfold nids
  rw [mergeSets_map_snd, list_toFinset_map]
  have himg : (sets.map Prod.snd).toFinset.image (fun v => if v = s then t else v)
      = (sets.map Prod.snd).toFinset.erase s := by
    ext x
    rw [Finset.mem_image, Finset.mem_erase]
    constructor
    · rintro ⟨v, hv, rfl⟩
      by_cases h : v = s
      · rw [if_pos h]
        exact ⟨fun hts => hst hts.symm, by rwa [List.mem_toFinset]⟩
      · rw [if_neg h]
        exact ⟨h, hv⟩
    · rintro ⟨hx, hmem⟩
      exact ⟨x, hmem, by rw [if_neg hx]⟩
  rw [himg, Finset.card_erase_of_mem (by rwa [List.mem_toFinset])]
  have : s ∈ (sets.map Prod.snd).toFinset := by rwa [List.mem_toFinset]
  have hpos : 0 < (sets.map Prod.snd).toFinset.card := Finset.card_pos.2 ⟨s, this⟩
  omega

/-- A cell with no incident links reaches only itself. -/
theorem reach_isolated {g : Grid} {x : Cell} (hiso : ∀ w, ¬g.LinkedU x w) {y : Cell}
    (h : g.Reach x y) : x = y := by
  induction h with
  | refl => rfl
  | tail _ h2 ih =>
    rw [← ih] at h2
    exact absurd h2 (hiso _)

theorem zipSeg_nil {r j t : Int} (h : t ≤ j) : zipSeg r j t = [] := by
  unfold zipSeg pyRange
  have h1 : (t - j).toNat = 0 := by omega
  rw [h1]
  rfl

theorem zipSeg_cons {r j t : Int} (h : j < t) :
    zipSeg r j t = (⟨r, j⟩, ⟨r, j + 1⟩) :: zipSeg r (j + 1) t := by
  unfold zipSeg pyRange
  have h1 : (t - j).toNat = (t - (j + 1)).toNat + 1 := by omega
  rw [h1, List.range_succ_eq_map]
  simp only [List.map_cons, List.map_map]
  rw [List.cons.injEq]
  refine ⟨?_, ?_⟩
  · rw [Prod.mk.injEq]
    refine ⟨cell_eq rfl (by simp), cell_eq rfl ?_⟩
    show j + Int.ofNat 0 + 1 = j + 1
    simp
  · refine List.map_congr_left ?_
    intro i _
    show ((⟨r, j + Int.ofNat (Nat.succ i)⟩ : Cell), (⟨r, j + Int.ofNat (Nat.succ i) + 1⟩ : Cell))
      = ((⟨r, j + 1 + Int.ofNat i⟩ : Cell), (⟨r, j + 1 + Int.ofNat i + 1⟩ : Cell))
    rw [Prod.mk.injEq]
    refine ⟨cell_eq rfl ?_, cell_eq rfl ?_⟩
    · show j + Int.ofNat (Nat.succ i) = j + 1 + Int.ofNat i
      simp only [Int.ofNat_eq_natCast]
      omega
    · show j + Int.ofNat (Nat.succ i) + 1 = j + 1 + Int.ofNat i + 1
      simp only [Int.ofNat_eq_natCast]
      omega

theorem colSeg_zip_tail (r : Int) :
    ∀ (n : Nat) (j t : Int), (t - j).toNat = n →
      (colSeg r j t).zip (colSeg r j t).tail = zipSeg r j (t - 1) := by
  intro n
  induction n with
  | zero =>
    intro j t hn
    rw [colSeg_nil (by omega), zipSeg_nil (by omega)]
    rfl
  | succ m ih =>
    intro j t hn
    have hjt : j < t := by omega
    rw [colSeg_cons hjt]
    by_cases h1 : j + 1 < t
    · rw [List.tail_cons, colSeg_cons h1, List.zip_cons_cons,
        zipSeg_cons (show j < t - 1 from by omega)]
      rw [List.cons.injEq]
      refine ⟨rfl, ?_⟩
      have := ih (j + 1) t (by omega)
      rw [colSeg_cons h1, List.tail_cons] at this
      exact this
    · have ht : t = j + 1 := by omega
      subst ht
      rw [List.tail_cons, colSeg_nil (le_refl _), zipSeg_nil (by omega)]
      rfl

/-! ### Eller: group structure lemmas -/

theorem addToGroup_sound : ∀ (G : List (Nat × List Cell)) (idv : Nat) (c : Cell),
    ∀ p ∈ addToGroup G idv c, ∀ x ∈ p.2,
      (∃ q ∈ G, q.1 = p.1 ∧ x ∈ q.2) ∨ (x = c ∧ p.1 = idv) := by
  intro G idv c
  induction G with
  | nil =>
    intro p hp x hx
    rw [addToGroup, List.mem_singleton] at hp
    subst hp
    rw [List.mem_singleton] at hx
    exact Or.inr ⟨hx, rfl⟩
  | cons q0 rest ih =>
    intro p hp x hx
    rw [addToGroup] at hp
    by_cases h : idv = q0.1
    · rw [if_pos h] at hp
      rcases List.mem_cons.1 hp with rfl | hmem
      · rcases List.mem_append.1 hx with hxl | hxr
        · exact Or.inl ⟨q0, List.mem_cons_self _ _, rfl, hxl⟩
        · rw [List.mem_singleton] at hxr
          exact Or.inr ⟨hxr, h.symm⟩
      · exact Or.inl ⟨p, List.mem_cons_of_mem _ hmem, rfl, hx⟩
    · rw [if_neg h] at hp
      rcases List.mem_cons.1 hp with rfl | hmem
      · exact Or.inl ⟨q0, List.mem_cons_self _ _, rfl, hx⟩
      · rcases ih p hmem x hx with ⟨q, hq, hq1, hq2⟩ | hnew
        · exact Or.inl ⟨q, List.mem_cons_of_mem _ hq, hq1, hq2⟩
        · exact Or.inr hnew

theorem addToGroup_nonempty : ∀ (G : List (Nat × List Cell)) (idv : Nat) (c : Cell),
    (∀ q ∈ G, q.2 ≠ []) → ∀ p ∈ addToGroup G idv c, p.2 ≠ [] := by
  intro G idv c
  induction G with
  | nil =>
    intro _ p hp
    rw [addToGroup, List.mem_singleton] at hp
    subst hp
    simp
  | cons q0 rest ih =>
    intro hne p hp
    rw [addToGroup] at hp
    by_cases h : idv = q0.1
    · rw [if_pos h] at hp
      rcases List.mem_cons.1 hp with rfl | hmem
      · simp
      · exact hne p (List.mem_cons_of_mem _ hmem)
    · rw [if_neg h] at hp
      rcases List.mem_cons.1 hp with rfl | hmem
      · exact hne q0 (List.mem_cons_self _ _)
      · exact ih (fun q hq => hne q (List.mem_cons_of_mem _ hq)) p hmem

theorem addToGroup_fst : ∀ (G : List (Nat × List Cell)) (idv : Nat) (c : Cell),
    (addToGroup G idv c).map Prod.fst =
      if idv ∈ G.map Prod.fst then G.map Prod.fst else G.map Prod.fst ++ [idv] := by
  intro G idv c
  induction G with
  | nil => simp [addToGroup]
  | cons q0 rest ih =>
    rw [addToGroup]
    by_cases h : idv = q0.1
    · rw [if_pos h, List.map_cons, List.map_cons,
        if_pos (by rw [h]; exact List.mem_cons_self _ _)]
    · rw [if_neg h, List.map_cons, List.map_cons, ih]
      by_cases h2 : idv ∈ rest.map Prod.fst
      · rw [if_pos h2, if_pos (List.mem_cons_of_mem _ h2)]
      · rw [if_neg h2,
          if_neg (fun h3 => (List.mem_cons.1 h3).elim h h2),
          List.cons_append]

theorem addToGroup_nodup {G : List (Nat × List Cell)} {idv : Nat} {c : Cell}
    (h : (G.map Prod.fst).Nodup) : ((addToGroup G idv c).map Prod.fst).Nodup := by
  rw [addToGroup_fst]
  by_cases h2 : idv ∈ G.map Prod.fst
  · rw [if_pos h2]
    exact h
  · rw [if_neg h2]
    rw [List.nodup_append]
    exact ⟨h, List.nodup_singleton _, by simpa using h2⟩

theorem addToGroup_mem_new : ∀ (G : List (Nat × List Cell)) (idv : Nat) (c : Cell),
    ∃ p ∈ addToGroup G idv c, p.1 = idv ∧ c ∈ p.2 := by
  intro G idv c
  induction G with
  | nil => exact ⟨(idv, [c]), List.mem_singleton.2 rfl, rfl, List.mem_singleton.2 rfl⟩
  | cons q0 rest ih =>
    rw [addToGroup]
    by_cases h : idv = q0.1
    · exact ⟨(q0.1, q0.2 ++ [c]), by rw [if_pos h]; exact List.mem_cons_self _ _,
        h.symm, List.mem_append.2 (Or.inr (List.mem_singleton.2 rfl))⟩
    · obtain ⟨p, hp, h1, h2⟩ := ih
      exact ⟨p, by rw [if_neg h]; exact List.mem_cons_of_mem _ hp, h1, h2⟩

theorem addToGroup_mem_old : ∀ (G : List (Nat × List Cell)) (idv : Nat) (c : Cell),
    ∀ q ∈ G, ∀ x ∈ q.2, ∃ p ∈ addToGroup G idv c, p.1 = q.1 ∧ x ∈ p.2 := by
  intro G idv c
  induction G with
  | nil =>
    intro q hq
    exact absurd hq (List.not_mem_nil _)
  | cons q0 rest ih =>
    intro q hq x hx
    rw [addToGroup]
    by_cases h : idv = q0.1
    · rw [if_pos h]
      rcases List.mem_cons.1 hq with rfl | hmem
      · exact ⟨(q.1, q.2 ++ [c]), List.mem_cons_self _ _, rfl,
          List.mem_append.2 (Or.inl hx)⟩
      · exact ⟨q, List.mem_cons_of_mem _ hmem, rfl, hx⟩
    · rw [if_neg h]
      rcases List.mem_cons.1 hq with rfl | hmem
      · exact ⟨q, List.mem_cons_self _ _, rfl, hx⟩
      · obtain ⟨p, hp, h1, h2⟩ := ih q hmem x hx
        exact ⟨p, List.mem_cons_of_mem _ hp, h1, h2⟩

/-- Soundness and coverage of `group_sets_by_id` (stated over the fold with an
arbitrary accumulator). -/
theorem groupFold_spec (sets : List (Cell × Nat)) :
    ∀ (row : List Cell) (G : List (Nat × List Cell)),
      (∀ q ∈ G, q.2 ≠ []) → (∀ q ∈ G, ∀ x ∈ q.2, dictGet sets x = q.1) →
      (G.map Prod.fst).Nodup →
      (∀ p ∈ row.foldl (fun groups cell => addToGroup groups (dictGet sets cell) cell) G,
        p.2 ≠ [] ∧ ∀ x ∈ p.2, dictGet sets x = p.1 ∧ (x ∈ row ∨ ∃ q ∈ G, x ∈ q.2)) ∧
      ((row.foldl (fun groups cell =>
        addToGroup groups (dictGet sets cell) cell) G).map Prod.fst).Nodup ∧
      (∀ x, ((x ∈ row ∨ ∃ q ∈ G, x ∈ q.2) →
        ∃ p ∈ row.foldl (fun groups cell => addToGroup groups (dictGet sets cell) cell) G,
          p.1 = dictGet sets x ∧ x ∈ p.2)) := by
  intro row
  induction row with
  | nil =>
    intro G h1 h2 h3
    refine ⟨fun p hp => ⟨h1 p hp, fun x hx => ⟨h2 p hp x hx, Or.inr ⟨p, hp, hx⟩⟩⟩, h3, ?_⟩
    rintro x (hx | ⟨q, hq, hx⟩)
    · exact absurd hx (List.not_mem_nil _)
    · exact ⟨q, hq, (h2 q hq x hx).symm, hx⟩
  | cons c rest ih =>
    intro G h1 h2 h3
    rw [List.foldl_cons]
    have h1' := addToGroup_nonempty G (dictGet sets c) c h1
    have h2' : ∀ q ∈ addToGroup G (dictGet sets c) c, ∀ x ∈ q.2, dictGet sets x = q.1 := by
      intro q hq x hx
      rcases addToGroup_sound G (dictGet sets c) c q hq x hx with ⟨q', hq', he, hx'⟩ | ⟨rfl, he⟩
      · exact he ▸ h2 q' hq' x hx'
      · rw [he]
    have h3' := @addToGroup_nodup G (dictGet sets c) c h3
    obtain ⟨ih1, ih2, ih3⟩ := ih (addToGroup G (dictGet sets c) c) h1' h2' h3'
    refine ⟨?_, ih2, ?_⟩
    · intro p hp
      refine ⟨(ih1 p hp).1, fun x hx => ⟨((ih1 p hp).2 x hx).1, ?_⟩⟩
      rcases ((ih1 p hp).2 x hx).2 with hxr | ⟨q, hq, hxq⟩
      · exact Or.inl (List.mem_cons_of_mem _ hxr)
      · rcases addToGroup_sound G (dictGet sets c) c q hq x hxq with ⟨q', hq', _, hx'⟩ | ⟨rfl, _⟩
        · exact Or.inr ⟨q', hq', hx'⟩
        · exact Or.inl (List.mem_cons_self _ _)
    · rintro x (hx | ⟨q, hq, hxq⟩)
      · rcases List.mem_cons.1 hx with rfl | hmem
        · obtain ⟨p, hp, hp1, hp2⟩ := addToGroup_mem_new G (dictGet sets x) x
          exact ih3 x (Or.inr ⟨p, hp, hp2⟩)
        · exact ih3 x (Or.inl hmem)
      · obtain ⟨p, hp, hp1, hp2⟩ := addToGroup_mem_old G (dictGet sets c) c q hq x hxq
        exact ih3 x (Or.inr ⟨p, hp, hp2⟩)

/-! ### Eller: the assignment phase -/

theorem keyed_dictSet {sets : List (Cell × Nat)} {c : Cell} {v : Nat} {d : Cell} :
    keyed (dictSet sets c v) d ↔ d = c ∨ keyed sets d := by
  unfold keyed
  rw [dictGet?_dictSet]
  by_cases h : d = c
  · simp [h]
  · simp [h]

theorem dictGet_dictSet_self (sets : List (Cell × Nat)) (c : Cell) (v : Nat) :
    dictGet (dictSet sets c v) c = v := by
  unfold dictGet
  rw [dictGet?_dictSet, if_pos rfl]
  rfl

theorem dictGet_dictSet_other (sets : List (Cell × Nat)) (c : Cell) (v : Nat) {d : Cell}
    (h : d ≠ c) : dictGet (dictSet sets c v) d = dictGet sets d := by
  unfold dictGet
  rw [dictGet?_dictSet, if_neg h]

theorem dictGet_le_counter {g0 : Grid} {st : EllerState} (hc : ECore g0 st) {a : Cell}
    (ha : keyed st.sets a) : dictGet st.sets a ≤ st.set_counter := by
  obtain ⟨v, hv⟩ := Option.ne_none_iff_exists'.1 ha
  have := hc.bound (a, v) (mem_of_dictGet? hv)
  unfold dictGet
  rw [hv]
  exact this

theorem dictGet_mem_snd {sets : List (Cell × Nat)} {a : Cell} (ha : keyed sets a) :
    dictGet sets a ∈ sets.map Prod.snd := by
  obtain ⟨v, hv⟩ := Option.ne_none_iff_exists'.1 ha
  unfold dictGet
  rw [hv]
  exact List.mem_map.2 ⟨(a, v), mem_of_dictGet? hv, rfl⟩

theorem unkeyed_isolated {g0 : Grid} {st : EllerState} (hc : ECore g0 st) {c : Cell}
    (hk : ¬keyed st.sets c) : ∀ w, ¬st.g.LinkedU c w := by
  rintro w (h | h)
  · exact hk (hc.linkkey _ _ h).1
  · exact hk (hc.linkkey _ _ h).2

theorem ellerAssign_cons (rest : List Cell) (st : EllerState) (c : Cell) :
    ellerAssign (c :: rest) st = ellerAssign rest
      (match dictGet? st.sets c with
       | some _ => st
       | none =>
         { st with
           set_counter := st.set_counter + 1,
           sets := dictSet st.sets c (st.set_counter + 1) }) := rfl

/-- The assignment phase: every row cell ends up keyed; the invariant is
maintained (fresh cells become isolated singleton classes). -/
theorem ellerAssign_fold (g0 : Grid) (y : Int) :
    ∀ (row : List Cell) (st : EllerState),
      (∀ c ∈ row, c ∈ g0.all_cells ∧ c.row = y) →
      EInv g0 st y →
      (ellerAssign row st).g = st.g ∧
      EInv g0 (ellerAssign row st) y ∧
      (∀ c, keyed st.sets c → keyed (ellerAssign row st).sets c) ∧
      (∀ c ∈ row, keyed (ellerAssign row st).sets c) := by
  intro row
  induction row with
  | nil =>
    intro st _ hinv
    exact ⟨rfl, hinv, fun c h => h, fun c hc => absurd hc (List.not_mem_nil _)⟩
  | cons c rest ih =>
    intro st hrow hinv
    rw [ellerAssign_cons]
    rcases hopt : dictGet? st.sets c with _ | v
    · -- fresh cell: add a singleton class with a fresh id
      have hk : ¬keyed st.sets c := fun h => h hopt
      obtain ⟨hcore, hdone, hrep, hinj⟩ := hinv
      have happ : dictSet st.sets c (st.set_counter + 1) =
          st.sets ++ [(c, st.set_counter + 1)] := dictSet_unkeyed _ hopt
      set st' : EllerState :=
        { st with
          set_counter := st.set_counter + 1,
          sets := dictSet st.sets c (st.set_counter + 1) } with hst'
      have hsets' : st'.sets = dictSet st.sets c (st.set_counter + 1) := rfl
      have hg' : st'.g = st.g := rfl
      have hkey' : ∀ d, keyed st'.sets d ↔ d = c ∨ keyed st.sets d := by
        intro d
        rw [hsets']
        exact keyed_dictSet
      have hval_old : ∀ d, keyed st.sets d → dictGet st'.sets d = dictGet st.sets d := by
        intro d hd
        rw [hsets']
        exact dictGet_dictSet_other _ _ _ (fun h => hk (h ▸ hd))
      have hval_new : dictGet st'.sets c = st.set_counter + 1 := by
        rw [hsets']
        exact dictGet_dictSet_self _ _ _
      have hle : ∀ d, keyed st.sets d → dictGet st.sets d ≤ st.set_counter :=
        fun d hd => dictGet_le_counter hcore hd
      have hcin : c ∈ g0.all_cells := (hrow c (List.mem_cons_self _ _)).1
      have hcrow : c.row = y := (hrow c (List.mem_cons_self _ _)).2
      have hiso := unkeyed_isolated hcore hk
      have hcore' : ECore g0 st' := by
        refine ⟨hcore.shapeR, hcore.shapeC, hcore.symm, hcore.wf, hcore.up, hcore.geo,
          ?_, ?_, ?_, ?_, ?_, ?_⟩
        · intro d hd
          rcases (hkey' d).1 hd with rfl | hd2
          · exact hcin
          · exact hcore.keyin d hd2
        · intro a b hab
          have := hcore.linkkey a b hab
          exact ⟨(hkey' a).2 (Or.inr this.1), (hkey' b).2 (Or.inr this.2)⟩
        · intro a b ha hb
          rcases (hkey' a).1 ha with rfl | ha2
          · rcases (hkey' b).1 hb with rfl | hb2
            · simp [reach_refl]
            · constructor
              · intro hr
                exact absurd (reach_isolated hiso hr).symm (fun h => hk (h ▸ hb2))
              · intro hid
                rw [hval_new, hval_old b hb2] at hid
                have := hle b hb2
                omega
          · rcases (hkey' b).1 hb with rfl | hb2
            · constructor
              · intro hr
                exact absurd (reach_isolated hiso (reach_symm hr)) (fun h => hk (h ▸ ha2))
              · intro hid
                rw [hval_new, hval_old a ha2] at hid
                have := hle a ha2
                omega
            · rw [hval_old a ha2, hval_old b hb2]
              exact hcore.classes a b ha2 hb2
        · rw [hsets', happ, List.map_append]
          rw [List.nodup_append]
          refine ⟨hcore.nodupkeys, List.nodup_singleton _, ?_⟩
          intro x hx
          rw [List.map_cons, List.map_nil, List.mem_singleton]
          intro hxc
          subst hxc
          exact hk (fun hnone => (dictGet?_eq_none.1 hnone) hx)
        · intro p hp
          rw [hsets', happ] at hp
          rcases List.mem_append.1 hp with hp1 | hp2
          · have := hcore.bound p hp1
            show p.2 ≤ st.set_counter + 1
            omega
          · rw [List.mem_singleton] at hp2
            subst hp2
            exact le_refl _
        · rw [hsets', happ, hg']
          have hfresh : st.set_counter + 1 ∉ st.sets.map Prod.snd := by
            intro hmem
            obtain ⟨p, hp, hp2⟩ := List.mem_map.1 hmem
            have := hcore.bound p hp
            omega
          rw [nids_append_fresh hfresh, List.length_append]
          have := hcore.count
          simp only [List.length_cons, List.length_nil]
          omega
      have hinv' : EInv g0 st' y := by
        refine ⟨hcore', ⟨?_, ?_⟩, ?_, ?_⟩
        · intro d hd
          rcases (hkey' d).1 hd with rfl | hd2
          · omega
          · exact hdone.1 d hd2
        · intro d hd hlt
          exact (hkey' d).2 (Or.inr (hdone.2 d hd hlt))
        · intro a ha
          rcases (hkey' a).1 ha with rfl | ha2
          · exact ⟨a, ha, hcrow, rfl⟩
          · obtain ⟨d, hd, hdrow, hdid⟩ := hrep a ha2
            refine ⟨d, (hkey' d).2 (Or.inr hd), hdrow, ?_⟩
            rw [hval_old d hd, hval_old a ha2, hdid]
        · intro a b ha hb hay hby hid
          rcases (hkey' a).1 ha with rfl | ha2
          · rcases (hkey' b).1 hb with rfl | hb2
            · rfl
            · exfalso
              rw [hval_new, hval_old b hb2] at hid
              have := hle b hb2
              omega
          · rcases (hkey' b).1 hb with rfl | hb2
            · exfalso
              rw [hval_new, hval_old a ha2] at hid
              have := hle a ha2
              omega
            · rw [hval_old a ha2, hval_old b hb2] at hid
              exact hinj a b ha2 hb2 hay hby hid
      obtain ⟨ihg, ihinv, ihmono, ihrow⟩ :=
        ih st' (fun d hd => hrow d (List.mem_cons_of_mem _ hd)) hinv'
      refine ⟨ihg.trans hg', ihinv, ?_, ?_⟩
      · intro d hd
        exact ihmono d ((hkey' d).2 (Or.inr hd))
      · intro d hd
        rcases List.mem_cons.1 hd with rfl | hd2
        · exact ihmono d ((hkey' d).2 (Or.inl rfl))
        · exact ihrow d hd2
    · -- already keyed: nothing happens
      obtain ⟨ihg, ihinv, ihmono, ihrow⟩ :=
        ih st (fun d hd => hrow d (List.mem_cons_of_mem _ hd)) hinv
      refine ⟨ihg, ihinv, ihmono, ?_⟩
      intro d hd
      rcases List.mem_cons.1 hd with rfl | hd2
      · exact ihmono d (fun h => by rw [hopt] at h; exact Option.noConfusion h)
      · exact ihrow d hd2

/-! ### Eller: the horizontal phase -/

/-- When nothing is merged at boundary `j`, contiguity extends to `j + 1`
because column `j + 1` still carries a globally fresh id. -/
theorem rowConvex_succ {sets : List (Cell × Nat)} {y j C : Int}
    (hconv : rowConvex sets y j) (hfresh : rowFresh sets y j C) (hjC : j + 1 < C) :
    rowConvex sets y (j + 1) := by
  intro a b cc h0a hab hbc hcj hid
  by_cases hc : cc ≤ j
  · exact hconv a b cc h0a hab hbc hc hid
  · have hcc : cc = j + 1 := by omega
    by_cases hac : a = cc
    · have hba : b = a := by omega
      rw [hba]
    · exfalso
      subst hcc
      exact hfresh a (j + 1) h0a (by omega) (by omega) (by omega) hid

/-- The merge step of the horizontal pass: linking `⟨y,j⟩ – ⟨y,j+1⟩` and
relabelling the left id onto the right id preserves the invariant and moves
the contiguity frontier to `j + 1`. -/
theorem ellerMerge_step (g0 : Grid) (st : EllerState) (y j : Int) (hcore : ECore g0 st)
    (hdone : rowsDoneF st.sets g0 y) (hrep : rowRep st.sets y)
    (hconv : rowConvex st.sets y j) (hfresh : rowFresh st.sets y j g0.num_cols)
    (hy0 : 0 ≤ y) (hyR : y < g0.num_rows) (hj0 : 0 ≤ j) (hjC : j + 1 < g0.num_cols) :
    ECore g0 { st with
      g := st.g.link ⟨y, j⟩ ⟨y, j + 1⟩,
      sets := mergeSets st.sets (dictGet st.sets ⟨y, j⟩) (dictGet st.sets ⟨y, j + 1⟩),
      k := st.k + 1 } ∧
    rowsDoneF (mergeSets st.sets (dictGet st.sets ⟨y, j⟩)
      (dictGet st.sets ⟨y, j + 1⟩)) g0 y ∧
    rowRep (mergeSets st.sets (dictGet st.sets ⟨y, j⟩)
      (dictGet st.sets ⟨y, j + 1⟩)) y ∧
    rowConvex (mergeSets st.sets (dictGet st.sets ⟨y, j⟩)
      (dictGet st.sets ⟨y, j + 1⟩)) y (j + 1) ∧
    rowFresh (mergeSets st.sets (dictGet st.sets ⟨y, j⟩)
      (dictGet st.sets ⟨y, j + 1⟩)) y (j + 1) g0.num_cols := by
  have hpin : (⟨y, j⟩ : Cell) ∈ g0.all_cells :=
    mem_all_cells.2 ⟨hy0, hyR, hj0, show (j : Int) < g0.num_cols from by omega⟩
  have hqin : (⟨y, j + 1⟩ : Cell) ∈ g0.all_cells :=
    mem_all_cells.2 ⟨hy0, hyR, show (0 : Int) ≤ j + 1 from by omega, hjC⟩
  have hkp : keyed st.sets ⟨y, j⟩ := hdone.2 _ hpin (le_refl _)
  have hkq : keyed st.sets ⟨y, j + 1⟩ := hdone.2 _ hqin (le_refl _)
  have hst : dictGet st.sets ⟨y, j⟩ ≠ dictGet st.sets ⟨y, j + 1⟩ :=
    hfresh j (j + 1) hj0 (by omega) hjC (by omega)
  set s := dictGet st.sets ⟨y, j⟩ with hs
  set t := dictGet st.sets ⟨y, j + 1⟩ with ht
  -- columns carrying `s` lie at `≤ j`; `t` occurs only at column `j + 1`
  have hF1 : ∀ col : Int, 0 ≤ col → col < g0.num_cols →
      dictGet st.sets ⟨y, col⟩ = s → col ≤ j := by
    intro col h0 hC hcol
    by_contra hgt
    exact hfresh j col hj0 (by omega) hC (by omega) (by rw [hcol, hs])
  have hF2 : ∀ col : Int, 0 ≤ col → col < g0.num_cols →
      dictGet st.sets ⟨y, col⟩ = t → col = j + 1 := by
    intro col h0 hC hcol
    by_contra hne
    by_cases hlt : col < j + 1
    · exact hfresh col (j + 1) h0 (by omega) hjC (by omega) (by rw [hcol, ht])
    · exact hfresh (j + 1) col (by omega) (by omega) hC (by omega) (by rw [hcol, ht])
  have hner : ¬st.g.Reach ⟨y, j⟩ ⟨y, j + 1⟩ := by
    intro hre
    exact hst ((hcore.classes _ _ hkp hkq).1 hre)
  have hne : (⟨y, j⟩ : Cell) ≠ ⟨y, j + 1⟩ := by
    intro h
    have h2 : j = j + 1 := congrArg Cell.col h
    omega
  have hna : ¬st.g.Linked ⟨y, j⟩ ⟨y, j + 1⟩ := fun h => hner (reach_of_linkedU (Or.inl h))
  have hnb : ¬st.g.Linked ⟨y, j + 1⟩ ⟨y, j⟩ := fun h => hner (reach_of_linkedU (Or.inr h))
  have hkey' : ∀ d, keyed (mergeSets st.sets s t) d ↔ keyed st.sets d :=
    fun d => keyed_mergeSets
  have hval' : ∀ d, keyed st.sets d → dictGet (mergeSets st.sets s t) d =
      if dictGet st.sets d = s then t else dictGet st.sets d :=
    fun d hd => dictGet_mergeSets st.sets s t d hd
  have hshape := link_shape st.g ⟨y, j⟩ ⟨y, j + 1⟩
  have hcells : st.g.all_cells = g0.all_cells := all_cells_congr hcore.shapeR hcore.shapeC
  refine ⟨⟨hshape.1.trans hcore.shapeR, hshape.2.trans hcore.shapeC,
    symm_link hcore.symm _ _,
    wf_link hcore.wf (by rw [hcells]; exact hpin) (by rw [hcells]; exact hqin),
    up_link hcore.up hner,
    geo_link hcore.geo (show ((y : Int) - y).natAbs + ((j : Int) - (j + 1)).natAbs = 1
      from by omega),
    ?_, ?_, ?_, ?_, ?_, ?_⟩, ?_, ?_, ?_, ?_⟩
  · intro d hd
    exact hcore.keyin d ((hkey' d).1 hd)
  · intro a b hab
    rcases linked_link.1 hab with hl | ⟨rfl, rfl⟩ | ⟨rfl, rfl⟩
    · have := hcore.linkkey a b hl
      exact ⟨(hkey' a).2 this.1, (hkey' b).2 this.2⟩
    · exact ⟨(hkey' _).2 hkp, (hkey' _).2 hkq⟩
    · exact ⟨(hkey' _).2 hkq, (hkey' _).2 hkp⟩
  · intro a b ha hb
    have ha2 := (hkey' a).1 ha
    have hb2 := (hkey' b).1 hb
    show (st.g.link _ _).Reach a b ↔ _
    rw [reach_link, hcore.classes a b ha2 hb2, hcore.classes a _ ha2 hkp,
      hcore.classes _ b hkq hb2, hcore.classes a _ ha2 hkq, hcore.classes _ b hkp hb2,
      hval' a ha2, hval' b hb2, ← hs, ← ht]
    split_ifs <;> omega
  · show ((mergeSets st.sets s t).map Prod.fst).Nodup
    rw [mergeSets_map_fst]
    exact hcore.nodupkeys
  · intro p hp
    show p.2 ≤ st.set_counter
    unfold mergeSets at hp
    obtain ⟨p0, hp0, hp0e⟩ := List.mem_map.1 hp
    have hb0 := hcore.bound p0 hp0
    have hbt : t ≤ st.set_counter := dictGet_le_counter hcore hkq
    by_cases h : p0.2 = s
    · rw [if_pos h] at hp0e
      rw [← hp0e]
      exact hbt
    · rw [if_neg h] at hp0e
      rw [← hp0e]
      exact hb0
  · show (st.g.link _ _).edgeCount + nids (mergeSets st.sets s t) =
      (mergeSets st.sets s t).length
    rw [edgeCount_link hne hna hnb, mergeSets_length]
    have hn := @nids_mergeSets st.sets s t (by rw [hs]; exact dictGet_mem_snd hkp)
      (by rw [ht]; exact dictGet_mem_snd hkq) hst
    have hcnt := hcore.count
    omega
  · exact ⟨fun c hc => hdone.1 c ((hkey' c).1 hc),
      fun c hc hr => (hkey' c).2 (hdone.2 c hc hr)⟩
  · intro a ha
    have ha2 := (hkey' a).1 ha
    obtain ⟨d, hd, hdrow, hdid⟩ := hrep a ha2
    refine ⟨d, (hkey' d).2 hd, hdrow, ?_⟩
    rw [hval' d hd, hval' a ha2, hdid]
  · -- contiguity up to j + 1
    intro a b cc h0a hab hbc hcj hid
    have hpa : (⟨y, a⟩ : Cell) ∈ g0.all_cells :=
      mem_all_cells.2 ⟨hy0, hyR, h0a, show (a : Int) < g0.num_cols from by omega⟩
    have hpb : (⟨y, b⟩ : Cell) ∈ g0.all_cells :=
      mem_all_cells.2 ⟨hy0, hyR, show (0 : Int) ≤ b from by omega,
        show (b : Int) < g0.num_cols from by omega⟩
    have hpc : (⟨y, cc⟩ : Cell) ∈ g0.all_cells :=
      mem_all_cells.2 ⟨hy0, hyR, show (0 : Int) ≤ cc from by omega,
        show (cc : Int) < g0.num_cols from by omega⟩
    have hka : keyed st.sets ⟨y, a⟩ := hdone.2 _ hpa (le_refl _)
    have hkb : keyed st.sets ⟨y, b⟩ := hdone.2 _ hpb (le_refl _)
    have hkc : keyed st.sets ⟨y, cc⟩ := hdone.2 _ hpc (le_refl _)
    rw [hval' _ hka, hval' _ hkc] at hid
    rw [hval' _ hkb, hval' _ hka]
    by_cases hcle : cc ≤ j
    · by_cases has : dictGet st.sets ⟨y, a⟩ = s
      · by_cases hcs : dictGet st.sets ⟨y, cc⟩ = s
        · have hbs : dictGet st.sets ⟨y, b⟩ = dictGet st.sets ⟨y, a⟩ :=
            hconv a b cc h0a hab hbc hcle (has.trans hcs.symm)
          rw [if_pos (hbs.trans has), if_pos has]
        · exfalso
          rw [if_pos has, if_neg hcs] at hid
          have := hF2 cc (by omega) (by omega) hid.symm
          omega
      · by_cases hcs : dictGet st.sets ⟨y, cc⟩ = s
        · exfalso
          rw [if_neg has, if_pos hcs] at hid
          have := hF2 a h0a (by omega) hid
          omega
        · rw [if_neg has, if_neg hcs] at hid
          have hbs : dictGet st.sets ⟨y, b⟩ = dictGet st.sets ⟨y, a⟩ :=
            hconv a b cc h0a hab hbc hcle hid
          rw [if_neg has]
          by_cases hbss : dictGet st.sets ⟨y, b⟩ = s
          · exact absurd (hbs.symm.trans hbss) has
          · rw [if_neg hbss]
            exact hbs
    · have hcc : cc = j + 1 := by omega
      subst hcc
      have hct : dictGet st.sets ⟨y, j + 1⟩ = t := rfl
      by_cases has : dictGet st.sets ⟨y, a⟩ = s
      · -- the merged block: `a … j` carried `s`, column `j+1` carries `t`
        have haj : a ≤ j := hF1 a h0a (by omega) has
        by_cases hbj : b ≤ j
        · have hbs : dictGet st.sets ⟨y, b⟩ = dictGet st.sets ⟨y, a⟩ := by
            refine hconv a b j h0a hab hbj (le_refl _) ?_
            rw [has, hs]
          rw [if_pos (hbs.trans has), if_pos has]
        · have hb1 : b = j + 1 := by omega
          subst hb1
          rw [if_neg (fun h => hst (hct ▸ h).symm), hct, if_pos has]
      · rw [if_neg has, if_neg (fun h => hst (hct ▸ h).symm), hct] at hid
        have ha1 : a = j + 1 := hF2 a h0a (by omega) hid
        have hba : b = a := by omega
        rw [hba]
  · -- columns beyond j + 1 keep globally fresh ids
    intro a b h0a hab hbC hjb
    have hpa : (⟨y, a⟩ : Cell) ∈ g0.all_cells :=
      mem_all_cells.2 ⟨hy0, hyR, h0a, show (a : Int) < g0.num_cols from by omega⟩
    have hpb : (⟨y, b⟩ : Cell) ∈ g0.all_cells :=
      mem_all_cells.2 ⟨hy0, hyR, show (0 : Int) ≤ b from by omega, hbC⟩
    have hka : keyed st.sets ⟨y, a⟩ := hdone.2 _ hpa (le_refl _)
    have hkb : keyed st.sets ⟨y, b⟩ := hdone.2 _ hpb (le_refl _)
    rw [hval' _ hka, hval' _ hkb]
    have hbs : dictGet st.sets ⟨y, b⟩ ≠ s := by
      intro h
      have := hF1 b (by omega) hbC h
      omega
    have hbt : dictGet st.sets ⟨y, b⟩ ≠ t := by
      intro h
      have := hF2 b (by omega) hbC h
      omega
    rw [if_neg hbs]
    by_cases has : dictGet st.sets ⟨y, a⟩ = s
    · rw [if_pos has]
      exact fun h => hbt h.symm
    · rw [if_neg has]
      exact hfresh a b h0a hab hbC (by omega)

/-- The horizontal pass over the boundaries `j … C-2` of row `y`: ids become
contiguous along the whole row, and the invariant is maintained. -/
theorem ellerHorizontal_zip (g0 : Grid) (rng : Nat → Nat) (y : Int) (hy0 : 0 ≤ y)
    (hyR : y < g0.num_rows) :
    ∀ (m : Nat) (j : Int) (st : EllerState),
      0 ≤ j → j + (m : Int) = g0.num_cols - 1 →
      ECore g0 st → rowsDoneF st.sets g0 y → rowRep st.sets y →
      rowConvex st.sets y j → rowFresh st.sets y j g0.num_cols →
      ∃ st', (zipSeg y j (g0.num_cols - 1)).foldl
          (fun st pq =>
            if dictGet st.sets pq.1 ≠ dictGet st.sets pq.2 then
              if rng st.k % 2 = 0 then
                { st with
                  g := st.g.link pq.1 pq.2,
                  sets := mergeSets st.sets (dictGet st.sets pq.1) (dictGet st.sets pq.2),
                  k := st.k + 1 }
              else { st with k := st.k + 1 }
            else st)
          st = st' ∧
        ECore g0 st' ∧ rowsDoneF st'.sets g0 y ∧ rowRep st'.sets y ∧
        rowConvex st'.sets y (g0.num_cols - 1) := by
  intro m
  induction m with
  | zero =>
    intro j st hj0 hm hcore hdone hrep hconv hfresh
    rw [zipSeg_nil (show g0.num_cols - 1 ≤ j from by omega), List.foldl_nil]
    refine ⟨st, rfl, hcore, hdone, hrep, ?_⟩
    have hj : j = g0.num_cols - 1 := by omega
    rw [← hj]
    exact hconv
  | succ n ih =>
    intro j st hj0 hm hcore hdone hrep hconv hfresh
    have hjC : j + 1 < g0.num_cols := by omega
    rw [zipSeg_cons (show j < g0.num_cols - 1 from by omega), List.foldl_cons]
    dsimp only
    have hne : dictGet st.sets ⟨y, j⟩ ≠ dictGet st.sets ⟨y, j + 1⟩ :=
      hfresh j (j + 1) hj0 (by omega) hjC (by omega)
    rw [if_pos hne]
    by_cases hcoin : rng st.k % 2 = 0
    · rw [if_pos hcoin]
      obtain ⟨hcore', hdone', hrep', hconv', hfresh'⟩ :=
        ellerMerge_step g0 st y j hcore hdone hrep hconv hfresh hy0 hyR hj0 hjC
      exact ih (j + 1) _ (by omega) (by omega) hcore' hdone' hrep' hconv' hfresh'
    · rw [if_neg hcoin]
      have hcore' : ECore g0 { st with k := st.k + 1 } :=
        ⟨hcore.shapeR, hcore.shapeC, hcore.symm, hcore.wf, hcore.up, hcore.geo,
          hcore.keyin, hcore.linkkey, hcore.classes, hcore.nodupkeys, hcore.bound,
          hcore.count⟩
      exact ih (j + 1) _ (by omega) (by omega) hcore' hdone hrep
        (rowConvex_succ hconv hfresh hjC)
        (fun a b h1 h2 h3 h4 => hfresh a b h1 h2 h3 (by omega))

/-! ### Eller: the vertical phase -/

/-- Carving from a keyed cell `m` to an unkeyed cell `south` and propagating
the id of `m` preserves the core invariant: the new cell simply joins the
class of `m`. -/
theorem ellerCarve_step (g0 : Grid) (st : EllerState) (m south : Cell)
    (hcore : ECore g0 st) (hkm : keyed st.sets m) (hks : ¬keyed st.sets south)
    (hmin : m ∈ g0.all_cells) (hsin : south ∈ g0.all_cells) (hgeo : GeoNbr m south) :
    ECore g0 { st with
      g := st.g.link m south,
      sets := dictSet st.sets south (dictGet st.sets m) } := by
  have hne : m ≠ south := fun h => hks (h ▸ hkm)
  have hiso := unkeyed_isolated hcore hks
  have hner : ¬st.g.Reach m south := by
    intro h
    exact hne (reach_isolated hiso (reach_symm h)).symm
  have hna : ¬st.g.Linked m south := fun h => hner (reach_of_linkedU (Or.inl h))
  have hnb : ¬st.g.Linked south m := fun h => hner (reach_of_linkedU (Or.inr h))
  have hcells : st.g.all_cells = g0.all_cells := all_cells_congr hcore.shapeR hcore.shapeC
  have hkey' : ∀ d, keyed (dictSet st.sets south (dictGet st.sets m)) d ↔
      d = south ∨ keyed st.sets d := fun d => keyed_dictSet
  have happ : dictSet st.sets south (dictGet st.sets m) =
      st.sets ++ [(south, dictGet st.sets m)] :=
    dictSet_unkeyed _ (not_not.mp hks)
  have hval_old : ∀ d, d ≠ south →
      dictGet (dictSet st.sets south (dictGet st.sets m)) d = dictGet st.sets d :=
    fun d hd => dictGet_dictSet_other _ _ _ hd
  have hval_new : dictGet (dictSet st.sets south (dictGet st.sets m)) south =
      dictGet st.sets m := dictGet_dictSet_self _ _ _
  have hshape := link_shape st.g m south
  refine ⟨hshape.1.trans hcore.shapeR, hshape.2.trans hcore.shapeC,
    symm_link hcore.symm _ _,
    wf_link hcore.wf (by rw [hcells]; exact hmin) (by rw [hcells]; exact hsin),
    up_link hcore.up hner, geo_link hcore.geo hgeo, ?_, ?_, ?_, ?_, ?_, ?_⟩
  · intro d hd
    rcases (hkey' d).1 hd with rfl | hd2
    · exact hsin
    · exact hcore.keyin d hd2
  · intro a b hab
    rcases linked_link.1 hab with hl | ⟨rfl, rfl⟩ | ⟨rfl, rfl⟩
    · have := hcore.linkkey a b hl
      exact ⟨(hkey' a).2 (Or.inr this.1), (hkey' b).2 (Or.inr this.2)⟩
    · exact ⟨(hkey' a).2 (Or.inr hkm), (hkey' b).2 (Or.inl rfl)⟩
    · exact ⟨(hkey' a).2 (Or.inl rfl), (hkey' b).2 (Or.inr hkm)⟩
  · intro a b ha hb
    show (st.g.link m south).Reach a b ↔
      dictGet (dictSet st.sets south (dictGet st.sets m)) a =
      dictGet (dictSet st.sets south (dictGet st.sets m)) b
    rw [reach_link]
    rcases (hkey' a).1 ha with rfl | ha2
    · rcases (hkey' b).1 hb with rfl | hb2
      · constructor
        · intro _
          rfl
        · intro _
          exact Or.inl (reach_refl _ _)
      · have h1 : ¬st.g.Reach a b := by
          intro h
          exact hks ((reach_isolated hiso h) ▸ hb2)
        have h2 : ¬st.g.Reach a m := by
          intro h
          exact hne (reach_isolated hiso h).symm
        have h3 : st.g.Reach a a := reach_refl _ _
        rw [hval_new, hval_old b (fun h => hks (h ▸ hb2))]
        constructor
        · rintro (h | ⟨hh, _⟩ | ⟨_, hh⟩)
          · exact absurd h h1
          · exact absurd hh h2
          · exact (hcore.classes m b hkm hb2).1 hh
        · intro hid
          exact Or.inr (Or.inr ⟨h3, (hcore.classes m b hkm hb2).2 hid⟩)
    · rcases (hkey' b).1 hb with rfl | hb2
      · have h1 : ¬st.g.Reach a b := by
          intro h
          exact hks ((reach_isolated hiso (reach_symm h)) ▸ ha2)
        rw [hval_new, hval_old a (fun h => hks (h ▸ ha2))]
        constructor
        · rintro (h | ⟨hh, _⟩ | ⟨hh, _⟩)
          · exact absurd h h1
          · exact (hcore.classes a m ha2 hkm).1 hh
          · exact absurd hh h1
        · intro hid
          exact Or.inr (Or.inl ⟨(hcore.classes a m ha2 hkm).2 hid, reach_refl _ _⟩)
      · have h2 : ¬st.g.Reach a south := by
          intro h
          exact hks ((reach_isolated hiso (reach_symm h)) ▸ ha2)
        have h3 : ¬st.g.Reach south b := by
          intro h
          exact hks ((reach_isolated hiso h) ▸ hb2)
        rw [hval_old a (fun h => hks (h ▸ ha2)), hval_old b (fun h => hks (h ▸ hb2))]
        constructor
        · rintro (h | ⟨_, hh⟩ | ⟨hh, _⟩)
          · exact (hcore.classes a b ha2 hb2).1 h
          · exact absurd hh h3
          · exact absurd hh h2
        · intro hid
          exact Or.inl ((hcore.classes a b ha2 hb2).2 hid)
  · show ((dictSet st.sets south (dictGet st.sets m)).map Prod.fst).Nodup
    rw [happ, List.map_append, List.nodup_append]
    refine ⟨hcore.nodupkeys, List.nodup_singleton _, ?_⟩
    intro x hx
    rw [List.map_cons, List.map_nil, List.mem_singleton]
    intro hxc
    subst hxc
    exact hks (fun hnone => (dictGet?_eq_none.1 hnone) hx)
  · intro p hp
    show p.2 ≤ st.set_counter
    rw [happ] at hp
    rcases List.mem_append.1 hp with hp1 | hp2
    · exact hcore.bound p hp1
    · rw [List.mem_singleton] at hp2
      subst hp2
      exact dictGet_le_counter hcore hkm
  · show (st.g.link m south).edgeCount + nids (dictSet st.sets south (dictGet st.sets m))
      = (dictSet st.sets south (dictGet st.sets m)).length
    rw [edgeCount_link hne hna hnb, happ, nids_append_old (dictGet_mem_snd hkm),
      List.length_append]
    have := hcore.count
    simp only [List.length_cons, List.length_nil]
    omega

theorem ECore_kbump {g0 : Grid} {st : EllerState} (h : ECore g0 st) (k' : Nat) :
    ECore g0 { st with k := k' } :=
  ⟨h.shapeR, h.shapeC, h.symm, h.wf, h.up, h.geo, h.keyin, h.linkkey, h.classes,
    h.nodupkeys, h.bound, h.count⟩

set_option maxHeartbeats 1600000 in
/-- The vertical pass of a non-last row `y`: one south carve per group; each
carved id acquires a row-`y+1` representative, and distinct groups carve
distinct cells, keeping row-`y+1` ids injective. -/
theorem ellerVertical_fold (g0 : Grid) (rng : Nat → Nat) (y : Nat)
    (sets2 : List (Cell × Nat)) (hyR : (y : Int) < g0.num_rows - 1) :
    ∀ (S : List (Nat × List Cell)) (st : EllerState) (D : List Nat),
      ECore g0 st →
      (∀ c, keyed st.sets c → c.row ≤ (y : Int) + 1) →
      (∀ c : Cell, c.row ≤ (y : Int) →
        (keyed st.sets c ↔ keyed sets2 c) ∧
        (keyed sets2 c → dictGet st.sets c = dictGet sets2 c)) →
      carvedBelow sets2 st.sets (y : Int) D →
      carveWitness st.sets (y : Int) D →
      rowInj st.sets ((y : Int) + 1) →
      (∀ c, keyed st.sets c → c.row = (y : Int) + 1 → dictGet st.sets c ∈ D) →
      goodGroups sets2 (y : Int) g0.num_cols S →
      (∀ p ∈ S, p.1 ∉ D) →
      ∃ st', S.foldl
          (fun st grp =>
            if (y : Int) < st.g.num_rows - 1 then
              let cell_to_link := pyChoice grp.2 (rng st.k)
              let st' := { st with k := st.k + 1 }
              match st'.g.get_cell (cell_to_link.row + 1) cell_to_link.col with
              | some south_cell =>
                { st' with
                  g := st'.g.link cell_to_link south_cell,
                  sets := dictSet st'.sets south_cell (dictGet st'.sets cell_to_link) }
              | none => st'
            else st)
          st = st' ∧
        ECore g0 st' ∧
        (∀ c, keyed st'.sets c → c.row ≤ (y : Int) + 1) ∧
        (∀ c : Cell, c.row ≤ (y : Int) →
          (keyed st'.sets c ↔ keyed sets2 c) ∧
          (keyed sets2 c → dictGet st'.sets c = dictGet sets2 c)) ∧
        carveWitness st'.sets (y : Int) (D ++ S.map Prod.fst) ∧
        rowInj st'.sets ((y : Int) + 1) ∧
        (∀ c, keyed st'.sets c → c.row = (y : Int) + 1 →
          dictGet st'.sets c ∈ D ++ S.map Prod.fst) := by
  intro S
  induction S with
  | nil =>
    intro st D hcore h2 h3 _ h5 h6 h10 _ _
    rw [List.foldl_nil]
    refine ⟨st, rfl, hcore, h2, h3, ?_, h6, ?_⟩
    · rw [List.map_nil, List.append_nil]
      exact h5
    · rw [List.map_nil, List.append_nil]
      exact h10
  | cons grp rest ih =>
    intro st D hcore h2 h3 h4 h5 h6 h10 hgg hD
    obtain ⟨hgne, hgmem⟩ := hgg.1 grp (List.mem_cons_self _ _)
    have hgnd := hgg.2
    rw [List.map_cons, List.nodup_cons] at hgnd
    have hguard : (y : Int) < st.g.num_rows - 1 := by
      rw [hcore.shapeR]
      exact hyR
    rw [List.foldl_cons]
    dsimp only
    rw [if_pos hguard]
    have hmem0 : pyChoice grp.2 (rng st.k) ∈ grp.2 := pyChoice_mem hgne (rng st.k)
    obtain ⟨hrow, hc0, hcC, hkey2, hid2⟩ := hgmem _ hmem0
    have hsc : st.g.get_cell ((pyChoice grp.2 (rng st.k)).row + 1)
        (pyChoice grp.2 (rng st.k)).col =
        some ⟨(pyChoice grp.2 (rng st.k)).row + 1, (pyChoice grp.2 (rng st.k)).col⟩ := by
      rw [get_cell_eq,
        if_pos (show 0 ≤ (pyChoice grp.2 (rng st.k)).row + 1 ∧
            (pyChoice grp.2 (rng st.k)).row + 1 < st.g.num_rows ∧
            0 ≤ (pyChoice grp.2 (rng st.k)).col ∧
            (pyChoice grp.2 (rng st.k)).col < st.g.num_cols from by
          have hsr := hcore.shapeR
          have hsc2 := hcore.shapeC
          refine ⟨by omega, by omega, by omega, by omega⟩)]
    rw [hsc]
    dsimp only
    set member := pyChoice grp.2 (rng st.k) with hmemdef
    set south : Cell := ⟨member.row + 1, member.col⟩ with hsouthdef
    have hsrow : south.row = (y : Int) + 1 := by
      show member.row + 1 = (y : Int) + 1
      omega
    have hscol : south.col = member.col := rfl
    have hkm : keyed st.sets member := ((h3 member (by omega)).1).2 hkey2
    have hvm : dictGet st.sets member = grp.1 := by
      rw [(h3 member (by omega)).2 hkey2, hid2]
    have hmeq : (⟨(y : Int), member.col⟩ : Cell) = member :=
      cell_eq hrow.symm rfl
    have hks : ¬keyed st.sets south := by
      intro hkS
      obtain ⟨_, hmemD⟩ := h4 south hkS hsrow
      rw [hscol, hmeq, hid2] at hmemD
      exact hD grp (List.mem_cons_self _ _) hmemD
    have hmin : member ∈ g0.all_cells := hcore.keyin member hkm
    have hsin : south ∈ g0.all_cells := by
      refine mem_all_cells.2 ⟨?_, ?_, ?_, ?_⟩
      · show (0 : Int) ≤ member.row + 1
        omega
      · show member.row + 1 < g0.num_rows
        omega
      · show (0 : Int) ≤ member.col
        omega
      · show member.col < g0.num_cols
        omega
    have hgeo : GeoNbr member south :=
      show (member.row - (member.row + 1)).natAbs +
        (member.col - member.col).natAbs = 1 from by omega
    have hcore1 : ECore g0 { st with k := st.k + 1 } := ECore_kbump hcore _
    have hcarve := ellerCarve_step g0 { st with k := st.k + 1 } member south hcore1
      hkm hks hmin hsin hgeo
    set st2 : EllerState :=
      { g := st.g.link member south,
        sets := dictSet st.sets south (dictGet st.sets member),
        set_counter := st.set_counter, k := st.k + 1 } with hst2
    have hkey' : ∀ d, keyed st2.sets d ↔ d = south ∨ keyed st.sets d :=
      fun d => keyed_dictSet
    have hval_old : ∀ d, d ≠ south → dictGet st2.sets d = dictGet st.sets d :=
      fun d hd => dictGet_dictSet_other _ _ _ hd
    have hval_new : dictGet st2.sets south = grp.1 := by
      show dictGet (dictSet st.sets south (dictGet st.sets member)) south = grp.1
      rw [dictGet_dictSet_self, hvm]
    have hsornot : ∀ d, keyed st.sets d → d ≠ south := fun d hd he => hks (he ▸ hd)
    have h2' : ∀ c, keyed st2.sets c → c.row ≤ (y : Int) + 1 := by
      intro c hc
      rcases (hkey' c).1 hc with rfl | hc2
      · omega
      · exact h2 c hc2
    have h3' : ∀ c : Cell, c.row ≤ (y : Int) →
        (keyed st2.sets c ↔ keyed sets2 c) ∧
        (keyed sets2 c → dictGet st2.sets c = dictGet sets2 c) := by
      intro c hcr
      have hcs : c ≠ south := by
        intro he
        rw [he, hsrow] at hcr
        omega
      constructor
      · rw [hkey' c]
        constructor
        · rintro (rfl | hc2)
          · exact absurd rfl hcs
          · exact (h3 c hcr).1.1 hc2
        · intro hc2
          exact Or.inr ((h3 c hcr).1.2 hc2)
      · intro hc2
        rw [hval_old c hcs]
        exact (h3 c hcr).2 hc2
    have h4' : carvedBelow sets2 st2.sets (y : Int) (D ++ [grp.1]) := by
      intro c hc hcr
      rcases (hkey' c).1 hc with rfl | hc2
      · rw [hscol, hmeq]
        exact ⟨hkey2, by rw [hid2]; exact List.mem_append.2 (Or.inr (List.mem_singleton.2 rfl))⟩
      · obtain ⟨hb1, hb2⟩ := h4 c hc2 hcr
        exact ⟨hb1, List.mem_append.2 (Or.inl hb2)⟩
    have h5' : carveWitness st2.sets (y : Int) (D ++ [grp.1]) := by
      intro gid hgid
      rcases List.mem_append.1 hgid with hgid1 | hgid2
      · obtain ⟨d, hd, hdr, hdv⟩ := h5 gid hgid1
        exact ⟨d, (hkey' d).2 (Or.inr hd), hdr, by rw [hval_old d (hsornot d hd)]; exact hdv⟩
      · rw [List.mem_singleton] at hgid2
        subst hgid2
        exact ⟨south, (hkey' south).2 (Or.inl rfl), hsrow, hval_new⟩
    have h6' : rowInj st2.sets ((y : Int) + 1) := by
      intro c d hc hd hcr hdr hcd
      rcases (hkey' c).1 hc with rfl | hc2
      · rcases (hkey' d).1 hd with rfl | hd2
        · rfl
        · exfalso
          rw [hval_new, hval_old d (hsornot d hd2)] at hcd
          have := h10 d hd2 hdr
          rw [← hcd] at this
          exact hD grp (List.mem_cons_self _ _) this
      · rcases (hkey' d).1 hd with rfl | hd2
        · exfalso
          rw [hval_new, hval_old c (hsornot c hc2)] at hcd
          have := h10 c hc2 hcr
          rw [hcd] at this
          exact hD grp (List.mem_cons_self _ _) this
        · rw [hval_old c (hsornot c hc2), hval_old d (hsornot d hd2)] at hcd
          exact h6 c d hc2 hd2 hcr hdr hcd
    have h10' : ∀ c, keyed st2.sets c → c.row = (y : Int) + 1 →
        dictGet st2.sets c ∈ D ++ [grp.1] := by
      intro c hc hcr
      rcases (hkey' c).1 hc with rfl | hc2
      · rw [hval_new]
        exact List.mem_append.2 (Or.inr (List.mem_singleton.2 rfl))
      · rw [hval_old c (hsornot c hc2)]
        exact List.mem_append.2 (Or.inl (h10 c hc2 hcr))
    have hgg' : goodGroups sets2 (y : Int) g0.num_cols rest :=
      ⟨fun p hp => hgg.1 p (List.mem_cons_of_mem _ hp), hgnd.2⟩
    have hD' : ∀ p ∈ rest, p.1 ∉ D ++ [grp.1] := by
      intro p hp hmem
      rcases List.mem_append.1 hmem with h | h
      · exact hD p (List.mem_cons_of_mem _ hp) h
      · rw [List.mem_singleton] at h
        exact hgnd.1 (h ▸ List.mem_map.2 ⟨p, hp, rfl⟩)
    obtain ⟨st', hfold, hc1, hc2, hc3, hc4, hc5, hc6⟩ :=
      ih st2 (D ++ [grp.1]) hcarve h2' h3' h4' h5' h6' h10' hgg' hD'
    refine ⟨st', hfold, hc1, hc2, hc3, ?_, hc5, ?_⟩
    · rw [List.map_cons, List.append_cons]
      exact hc4
    · rw [List.map_cons, List.append_cons]
      exact hc6

/-! ### Eller: the last-row pass -/

theorem rowTouch_succ {sets : List (Cell × Nat)} {y j : Int} {x : Cell}
    (hj : 0 ≤ j + 1) :
    rowTouch sets y (j + 1) x ↔
      rowTouch sets y j x ∨ dictGet sets ⟨y, j + 1⟩ = dictGet sets x := by
  unfold rowTouch
  constructor
  · rintro ⟨c, h0, hle, he⟩
    by_cases hc : c ≤ j
    · exact Or.inl ⟨c, h0, hc, he⟩
    · have : c = j + 1 := by omega
      subst this
      exact Or.inr he
  · rintro (⟨c, h0, hle, he⟩ | he)
    · exact ⟨c, h0, by omega, he⟩
    · exact ⟨j + 1, hj, le_refl _, he⟩

theorem mem_colSeg_ids {sets : List (Cell × Nat)} {y j : Int} {x : Nat} (_hj : 0 ≤ j) :
    x ∈ ((colSeg y 0 (j + 1)).map (dictGet sets)).toFinset ↔
      ∃ c : Int, 0 ≤ c ∧ c ≤ j ∧ dictGet sets ⟨y, c⟩ = x := by
  rw [List.mem_toFinset, List.mem_map]
  constructor
  · rintro ⟨d, hd, rfl⟩
    obtain ⟨hdr, hd0, hdj⟩ := mem_colSeg.1 hd
    refine ⟨d.col, hd0, by omega, ?_⟩
    exact congrArg (dictGet sets) (cell_eq hdr.symm rfl)
  · rintro ⟨c, h0, hle, he⟩
    exact ⟨⟨y, c⟩, mem_colSeg.2 ⟨rfl, h0, show (c : Int) < j + 1 from by omega⟩, he⟩

set_option maxHeartbeats 1600000 in
/-- The last-row pass over boundaries `j … C-2`: every boundary between
distinct ids is linked, chaining all classes together; the link count grows by
(number of distinct ids in the prefix) − 1. -/
theorem ellerLastRow_zip (g0 : Grid) (y : Int) (sets0 : List (Cell × Nat)) (E0 : Nat)
    (hconv : rowConvex sets0 y (g0.num_cols - 1)) (hy0 : 0 ≤ y) (hyR : y < g0.num_rows)
    (hkeys : ∀ col : Int, 0 ≤ col → col < g0.num_cols → keyed sets0 ⟨y, col⟩) :
    ∀ (m : Nat) (j : Int) (st : EllerState),
      0 ≤ j → j + (m : Int) = g0.num_cols - 1 →
      st.sets = sets0 →
      st.g.num_rows = g0.num_rows → st.g.num_cols = g0.num_cols →
      st.g.Symm → st.g.WF → UP st.g → (∀ v w, st.g.Linked v w → GeoNbr v w) →
      (∀ a b, keyed sets0 a → keyed sets0 b →
        (st.g.Reach a b ↔ dictGet sets0 a = dictGet sets0 b ∨
          (rowTouch sets0 y j a ∧ rowTouch sets0 y j b))) →
      st.g.edgeCount + 1 = E0 + ((colSeg y 0 (j + 1)).map (dictGet sets0)).toFinset.card →
      ∃ st', (zipSeg y j (g0.num_cols - 1)).foldl
          (fun st pq =>
            if dictGet st.sets pq.1 ≠ dictGet st.sets pq.2 then
              { st with g := st.g.link pq.1 pq.2 }
            else st) st = st' ∧
        st'.sets = sets0 ∧
        st'.g.num_rows = g0.num_rows ∧ st'.g.num_cols = g0.num_cols ∧
        st'.g.Symm ∧ st'.g.WF ∧ UP st'.g ∧ (∀ v w, st'.g.Linked v w → GeoNbr v w) ∧
        (∀ a b, keyed sets0 a → keyed sets0 b →
          (st'.g.Reach a b ↔ dictGet sets0 a = dictGet sets0 b ∨
            (rowTouch sets0 y (g0.num_cols - 1) a ∧
              rowTouch sets0 y (g0.num_cols - 1) b))) ∧
        st'.g.edgeCount + 1 = E0 +
          ((colSeg y 0 (g0.num_cols - 1 + 1)).map (dictGet sets0)).toFinset.card := by
  intro m
  induction m with
  | zero =>
    intro j st hj0 hm hsets hsR hsC hsym hwf hup hgeo hchar hcnt
    rw [zipSeg_nil (show g0.num_cols - 1 ≤ j from by omega), List.foldl_nil]
    have hj : j = g0.num_cols - 1 := by omega
    subst hj
    exact ⟨st, rfl, hsets, hsR, hsC, hsym, hwf, hup, hgeo, hchar, hcnt⟩
  | succ n ih =>
    intro j st hj0 hm hsets hsR hsC hsym hwf hup hgeo hchar hcnt
    have hjC : j + 1 < g0.num_cols := by omega
    rw [zipSeg_cons (show j < g0.num_cols - 1 from by omega), List.foldl_cons]
    dsimp only
    rw [hsets]
    have hkp : keyed sets0 ⟨y, j⟩ := hkeys j hj0 (by omega)
    have hkq : keyed sets0 ⟨y, j + 1⟩ := hkeys (j + 1) (by omega) hjC
    have htp : rowTouch sets0 y j ⟨y, j⟩ := ⟨j, hj0, le_refl _, rfl⟩
    -- if some earlier column already carries the id of column j+1, then by
    -- contiguity column j does as well
    have hnotq : ∀ hne : dictGet sets0 ⟨y, j⟩ ≠ dictGet sets0 ⟨y, j + 1⟩,
        ¬rowTouch sets0 y j ⟨y, j + 1⟩ := by
      rintro hne ⟨c, h0, hle, he⟩
      exact hne ((hconv c j (j + 1) h0 hle (by omega) (by omega) he).trans he)
    by_cases hne : dictGet sets0 ⟨y, j⟩ ≠ dictGet sets0 ⟨y, j + 1⟩
    · rw [if_pos hne]
      have hner : ¬st.g.Reach ⟨y, j⟩ ⟨y, j + 1⟩ := by
        intro hre
        rcases (hchar _ _ hkp hkq).1 hre with h | ⟨_, h2⟩
        · exact hne h
        · exact hnotq hne h2
      have hneq : (⟨y, j⟩ : Cell) ≠ ⟨y, j + 1⟩ := by
        intro h
        have h2 : j = j + 1 := congrArg Cell.col h
        omega
      have hna : ¬st.g.Linked ⟨y, j⟩ ⟨y, j + 1⟩ :=
        fun h => hner (reach_of_linkedU (Or.inl h))
      have hnb : ¬st.g.Linked ⟨y, j + 1⟩ ⟨y, j⟩ :=
        fun h => hner (reach_of_linkedU (Or.inr h))
      have hshape := link_shape st.g ⟨y, j⟩ ⟨y, j + 1⟩
      have hchar' : ∀ a b, keyed sets0 a → keyed sets0 b →
          ((st.g.link ⟨y, j⟩ ⟨y, j + 1⟩).Reach a b ↔
            dictGet sets0 a = dictGet sets0 b ∨
            (rowTouch sets0 y (j + 1) a ∧ rowTouch sets0 y (j + 1) b)) := by
        intro a b ha hb
        rw [reach_link, hchar a b ha hb, hchar a _ ha hkp, hchar _ b hkq hb,
          hchar a _ ha hkq, hchar _ b hkp hb, rowTouch_succ (by omega),
          rowTouch_succ (by omega)]
        constructor
        · rintro ((h | ⟨h1, h2⟩) | ⟨(h1 | ⟨h1, h1'⟩), (h2 | ⟨h2', h2⟩)⟩ |
            ⟨(h1 | ⟨h1', h1⟩), (h2 | ⟨h2, h2'⟩)⟩)
          · exact Or.inl h
          · exact Or.inr ⟨Or.inl h1, Or.inl h2⟩
          · exact Or.inr ⟨Or.inl ⟨j, hj0, le_refl _, h1.symm⟩, Or.inr h2⟩
          · exact absurd h2' (hnotq hne)
          · exact Or.inr ⟨Or.inl h1, Or.inr h2⟩
          · exact absurd h2' (hnotq hne)
          · exact Or.inr ⟨Or.inr h1.symm, Or.inl ⟨j, hj0, le_refl _, h2⟩⟩
          · exact Or.inr ⟨Or.inr h1.symm, Or.inl h2'⟩
          · exact absurd h1 (hnotq hne)
          · exact absurd h1 (hnotq hne)
        · rintro (h | ⟨(h1 | h1), (h2 | h2)⟩)
          · exact Or.inl (Or.inl h)
          · exact Or.inl (Or.inr ⟨h1, h2⟩)
          · exact Or.inr (Or.inl ⟨Or.inr ⟨h1, ⟨j, hj0, le_refl _, rfl⟩⟩, Or.inl h2⟩)
          · exact Or.inr (Or.inr ⟨Or.inl h1.symm, Or.inr ⟨⟨j, hj0, le_refl _, rfl⟩, h2⟩⟩)
          · exact Or.inl (Or.inl (h1.symm.trans h2))
      have hfresh : dictGet sets0 ⟨y, j + 1⟩ ∉
          ((colSeg y 0 (j + 1)).map (dictGet sets0)).toFinset := by
        intro hmem
        obtain ⟨c, h0, hle, he⟩ := (mem_colSeg_ids hj0).1 hmem
        exact hnotq hne ⟨c, h0, hle, he⟩
      have hcnt' : (st.g.link ⟨y, j⟩ ⟨y, j + 1⟩).edgeCount + 1 =
          E0 + ((colSeg y 0 (j + 1 + 1)).map (dictGet sets0)).toFinset.card := by
        rw [edgeCount_link hneq hna hnb,
          colSeg_snoc (show (0 : Int) ≤ j + 1 from by omega), List.map_append,
          List.toFinset_append]
        have h1 : (([(⟨y, j + 1⟩ : Cell)]).map (dictGet sets0)).toFinset
            = {dictGet sets0 ⟨y, j + 1⟩} := rfl
        rw [h1]
        have h2 : ((colSeg y 0 (j + 1)).map (dictGet sets0)).toFinset ∪
            {dictGet sets0 ⟨y, j + 1⟩}
            = insert (dictGet sets0 ⟨y, j + 1⟩)
              ((colSeg y 0 (j + 1)).map (dictGet sets0)).toFinset := by
          rw [Finset.union_comm]
          rfl
        rw [h2, Finset.card_insert_of_not_mem hfresh]
        omega
      exact ih (j + 1) ⟨st.g.link ⟨y, j⟩ ⟨y, j + 1⟩, sets0, st.set_counter, st.k⟩
        (by omega) (by omega)
        rfl (hshape.1.trans hsR) (hshape.2.trans hsC) (symm_link hsym _ _)
        (wf_link hwf
          (by rw [all_cells_congr hsR hsC]
              exact mem_all_cells.2 ⟨hy0, hyR, hj0, show (j : Int) < g0.num_cols from by omega⟩)
          (by rw [all_cells_congr hsR hsC]
              exact mem_all_cells.2 ⟨hy0, hyR, show (0 : Int) ≤ j + 1 from by omega, hjC⟩))
        (up_link hup hner)
        (geo_link hgeo (show ((y : Int) - y).natAbs + ((j : Int) - (j + 1)).natAbs = 1
          from by omega))
        hchar' hcnt'
    · rw [if_neg hne]
      have heq : dictGet sets0 ⟨y, j⟩ = dictGet sets0 ⟨y, j + 1⟩ := not_not.mp hne
      have htouch_eq : ∀ x, rowTouch sets0 y (j + 1) x ↔ rowTouch sets0 y j x := by
        intro x
        rw [rowTouch_succ (by omega)]
        constructor
        · rintro (h | h)
          · exact h
          · exact ⟨j, hj0, le_refl _, heq.trans h⟩
        · exact Or.inl
      have hchar' : ∀ a b, keyed sets0 a → keyed sets0 b →
          (st.g.Reach a b ↔ dictGet sets0 a = dictGet sets0 b ∨
            (rowTouch sets0 y (j + 1) a ∧ rowTouch sets0 y (j + 1) b)) := by
        intro a b ha hb
        rw [htouch_eq a, htouch_eq b]
        exact hchar a b ha hb
      have hold : dictGet sets0 ⟨y, j + 1⟩ ∈
          ((colSeg y 0 (j + 1)).map (dictGet sets0)).toFinset :=
        (mem_colSeg_ids hj0).2 ⟨j, hj0, le_refl _, heq⟩
      have hcnt' : st.g.edgeCount + 1 =
          E0 + ((colSeg y 0 (j + 1 + 1)).map (dictGet sets0)).toFinset.card := by
        rw [colSeg_snoc (show (0 : Int) ≤ j + 1 from by omega), List.map_append,
          List.toFinset_append]
        have h1 : (([(⟨y, j + 1⟩ : Cell)]).map (dictGet sets0)).toFinset
            = {dictGet sets0 ⟨y, j + 1⟩} := rfl
        rw [h1]
        have h2 : ((colSeg y 0 (j + 1)).map (dictGet sets0)).toFinset ∪
            {dictGet sets0 ⟨y, j + 1⟩}
            = insert (dictGet sets0 ⟨y, j + 1⟩)
              ((colSeg y 0 (j + 1)).map (dictGet sets0)).toFinset := by
          rw [Finset.union_comm]
          rfl
        rw [h2, Finset.insert_eq_self.2 hold]
        exact hcnt
      exact ih (j + 1) st (by omega) (by omega) hsets hsR hsC hsym hwf hup hgeo
        hchar' hcnt'

/-! ### Eller: per-row processing -/

/-- On the last row the vertical pass does nothing (the guard inside the
group loop fails for every group). -/
theorem ellerVertical_noop (rng : Nat → Nat) (y : Nat) (row : List Cell)
    (st : EllerState) (h : ¬((y : Int) < st.g.num_rows - 1)) :
    ellerVertical rng y row st = st := by
  unfold ellerVertical
  generalize groupSetsById st.sets row = S
  induction S with
  | nil => rfl
  | cons grp rest ih =>
    rw [List.foldl_cons]
    dsimp only
    rw [if_neg h]
    exact ih

set_option maxHeartbeats 1600000 in
/-- The assignment and horizontal passes of one Eller row, combined. -/
theorem ellerAH (g0 : Grid) (rng : Nat → Nat) (y : Nat) (st : EllerState)
    (hyRR : (y : Int) < g0.num_rows) (hC : 1 ≤ g0.num_cols)
    (hinv : EInv g0 st (y : Int)) :
    ∃ st2, ellerHorizontal rng (colSeg (y : Int) 0 g0.num_cols)
        (ellerAssign (colSeg (y : Int) 0 g0.num_cols) st) = st2 ∧
      ECore g0 st2 ∧ rowsDoneF st2.sets g0 (y : Int) ∧ rowRep st2.sets (y : Int) ∧
      rowConvex st2.sets (y : Int) (g0.num_cols - 1) := by
  have hy0 : (0 : Int) ≤ (y : Int) := by omega
  set row := colSeg (y : Int) 0 g0.num_cols with hrowdef
  have hrowcells : ∀ c ∈ row, c ∈ g0.all_cells ∧ c.row = (y : Int) := by
    intro c hc
    obtain ⟨hcr, hc0, hcC⟩ := mem_colSeg.1 hc
    exact ⟨mem_all_cells.2 ⟨by omega, by omega, hc0, hcC⟩, hcr⟩
  obtain ⟨hg1, hinv1, hmono1, hrow1⟩ := ellerAssign_fold g0 (y : Int) row st hrowcells hinv
  set st1 := ellerAssign row st with hst1
  obtain ⟨hcore1, hdone1, hrep1, hinj1⟩ := hinv1
  have hcellkey : ∀ c ∈ g0.all_cells, c.row ≤ (y : Int) → keyed st1.sets c := by
    intro c hc hr
    rcases lt_or_eq_of_le hr with hlt | heq
    · exact hdone1.2 c hc hlt
    · refine hrow1 c (mem_colSeg.2 ⟨heq, ?_, ?_⟩)
      · exact (mem_all_cells.1 hc).2.2.1
      · exact (mem_all_cells.1 hc).2.2.2
  have hdoneF1 : rowsDoneF st1.sets g0 (y : Int) := ⟨hdone1.1, hcellkey⟩
  have hconv0 : rowConvex st1.sets (y : Int) 0 := by
    intro a b c h0a hab hbc hc0 _
    have hba : b = a := by omega
    rw [hba]
  have hfresh0 : rowFresh st1.sets (y : Int) 0 g0.num_cols := by
    intro a b h0a hab hbC _ heq
    have hka : keyed st1.sets ⟨(y : Int), a⟩ := hdoneF1.2 _
      (mem_all_cells.2 ⟨hy0, hyRR, h0a, show (a : Int) < g0.num_cols from by omega⟩)
      (le_refl _)
    have hkb : keyed st1.sets ⟨(y : Int), b⟩ := hdoneF1.2 _
      (mem_all_cells.2 ⟨hy0, hyRR, show (0 : Int) ≤ b from by omega, hbC⟩) (le_refl _)
    have := hinj1 _ _ hka hkb rfl rfl heq
    have hab2 : a = b := congrArg Cell.col this
    omega
  have hzip : row.zip row.tail = zipSeg (y : Int) 0 (g0.num_cols - 1) := by
    rw [hrowdef]
    have := colSeg_zip_tail (y : Int) g0.num_cols.toNat 0 g0.num_cols (by omega)
    exact this
  obtain ⟨st2, hfold2, hcore2, hdone2, hrep2, hconv2⟩ :=
    ellerHorizontal_zip g0 rng (y : Int) hy0 hyRR (g0.num_cols - 1).toNat 0 st1
      (le_refl 0) (by omega) hcore1 hdoneF1 hrep1 hconv0 hfresh0
  have hst2 : ellerHorizontal rng row st1 = st2 := by
    unfold ellerHorizontal
    rw [hzip]
    exact hfold2
  exact ⟨st2, hst2, hcore2, hdone2, hrep2, hconv2⟩

set_option maxHeartbeats 1600000 in
/-- One full non-last Eller row: assignment, horizontal pass, vertical pass;
the invariant advances one row. -/
theorem ellerRow_step (g0 : Grid) (rng : Nat → Nat) (y : Nat) (st : EllerState)
    (hyR : (y : Int) < g0.num_rows - 1) (hC : 1 ≤ g0.num_cols)
    (hinv : EInv g0 st (y : Int)) :
    EInv g0 (ellerVertical rng y (colSeg (y : Int) 0 g0.num_cols)
      (ellerHorizontal rng (colSeg (y : Int) 0 g0.num_cols)
        (ellerAssign (colSeg (y : Int) 0 g0.num_cols) st))) ((y : Int) + 1) := by
  have hy0 : (0 : Int) ≤ (y : Int) := by omega
  have hyRR : (y : Int) < g0.num_rows := by omega
  set row := colSeg (y : Int) 0 g0.num_cols with hrowdef
  have hrowcells : ∀ c ∈ row, c ∈ g0.all_cells ∧ c.row = (y : Int) := by
    intro c hc
    obtain ⟨hcr, hc0, hcC⟩ := mem_colSeg.1 hc
    exact ⟨mem_all_cells.2 ⟨by omega, by omega, hc0, hcC⟩, hcr⟩
  obtain ⟨st2, hst2, hcore2, hdone2, hrep2, hconv2⟩ := ellerAH g0 rng y st hyRR hC hinv
  rw [hst2]
  -- the vertical pass
  have hgf := groupFold_spec st2.sets row []
    (fun q hq => absurd hq (List.not_mem_nil _))
    (fun q hq => absurd hq (List.not_mem_nil _)) List.nodup_nil
  obtain ⟨gf1, gf2, gf3⟩ := hgf
  have hgroups : groupSetsById st2.sets row =
      row.foldl (fun groups cell => addToGroup groups (dictGet st2.sets cell) cell) [] := rfl
  have hgg : goodGroups st2.sets (y : Int) g0.num_cols (groupSetsById st2.sets row) := by
    rw [hgroups]
    refine ⟨?_, gf2⟩
    intro p hp
    refine ⟨(gf1 p hp).1, ?_⟩
    intro c hc
    obtain ⟨hid, hmem⟩ := (gf1 p hp).2 c hc
    have hcrow : c ∈ row := by
      rcases hmem with h | ⟨q, hq, _⟩
      · exact h
      · exact absurd hq (List.not_mem_nil _)
    obtain ⟨hcr, hc0, hcC⟩ := mem_colSeg.1 hcrow
    exact ⟨hcr, hc0, hcC, hdone2.2 c (hrowcells c hcrow).1 (le_of_eq hcr), hid⟩
  obtain ⟨st3, hfold3, hcore3, hkeys3, hstatic3, hwit3, hinj3, _⟩ :=
    ellerVertical_fold g0 rng y st2.sets hyR (groupSetsById st2.sets row) st2 []
      hcore2
      (fun c hc => le_trans (hdone2.1 c hc) (by omega))
      (fun c _ => ⟨Iff.rfl, fun _ => rfl⟩)
      (fun c hc hcr => by
        have := hdone2.1 c hc
        omega)
      (fun gid hgid => absurd hgid (List.not_mem_nil _))
      (fun c d hc _ hcr _ _ => by
        have := hdone2.1 c hc
        omega)
      (fun c hc hcr => by
        have := hdone2.1 c hc
        omega)
      hgg
      (fun p _ h => absurd h (List.not_mem_nil _))
  have hst3 : ellerVertical rng y row st2 = st3 := by
    unfold ellerVertical
    exact hfold3
  rw [hst3]
  rw [List.nil_append] at hwit3
  refine ⟨hcore3, ⟨hkeys3, ?_⟩, ?_, hinj3⟩
  · -- rows < y + 1 fully keyed
    intro c hc hr
    have hcy : c.row ≤ (y : Int) := by omega
    exact ((hstatic3 c hcy).1).2 (hdone2.2 c hc hcy)
  · -- every class has a representative in row y + 1
    intro a ha
    have har : a.row ≤ (y : Int) + 1 := hkeys3 a ha
    by_cases hay : a.row = (y : Int) + 1
    · exact ⟨a, ha, hay, rfl⟩
    · have hay' : a.row ≤ (y : Int) := by omega
      have ha2 : keyed st2.sets a := ((hstatic3 a hay').1).1 ha
      have hva : dictGet st3.sets a = dictGet st2.sets a := (hstatic3 a hay').2 ha2
      obtain ⟨d, hd, hdrow, hdid⟩ := hrep2 a ha2
      have hdin : d ∈ g0.all_cells := hcore2.keyin d hd
      have hdmem : d ∈ row := mem_colSeg.2 ⟨hdrow, (mem_all_cells.1 hdin).2.2.1,
        (mem_all_cells.1 hdin).2.2.2⟩
      obtain ⟨p, hp, hp1, hp2⟩ := gf3 d (Or.inl hdmem)
      have hpfst : p.1 ∈ (groupSetsById st2.sets row).map Prod.fst := by
        rw [hgroups]
        exact List.mem_map.2 ⟨p, hp, rfl⟩
      obtain ⟨e, he, herow, heid⟩ := hwit3 p.1 hpfst
      refine ⟨e, he, herow, ?_⟩
      rw [heid, hp1, hdid, hva]

set_option maxHeartbeats 1600000 in
/-- The last Eller row: assignment, horizontal pass, a skipped vertical pass,
and the unconditional linking of adjacent distinct-id pairs.  The resulting
grid is a spanning tree. -/
theorem ellerRow_last (g0 : Grid) (rng : Nat → Nat) (y : Nat) (st : EllerState)
    (hyR : (y : Int) = g0.num_rows - 1) (hC : 1 ≤ g0.num_cols)
    (hinv : EInv g0 st (y : Int)) :
    ∃ stF, ellerLastRow (colSeg (y : Int) 0 g0.num_cols)
        (ellerVertical rng y (colSeg (y : Int) 0 g0.num_cols)
          (ellerHorizontal rng (colSeg (y : Int) 0 g0.num_cols)
            (ellerAssign (colSeg (y : Int) 0 g0.num_cols) st))) = stF ∧
      stF.g.num_rows = g0.num_rows ∧ stF.g.num_cols = g0.num_cols ∧ stF.g.Symm ∧
      (∀ v w, stF.g.Linked v w → GeoNbr v w) ∧ UP stF.g ∧
      (∀ a b, a ∈ g0.all_cells → b ∈ g0.all_cells → stF.g.Reach a b) ∧
      stF.g.edgeCount = g0.num_rows.toNat * g0.num_cols.toNat - 1 := by
  have hy0 : (0 : Int) ≤ (y : Int) := by omega
  have hyRR : (y : Int) < g0.num_rows := by omega
  set row := colSeg (y : Int) 0 g0.num_cols with hrowdef
  obtain ⟨st2, hst2, hcore2, hdone2, hrep2, hconv2⟩ := ellerAH g0 rng y st hyRR hC hinv
  rw [hst2]
  rw [ellerVertical_noop rng y row st2 (by rw [hcore2.shapeR]; omega)]
  have hkeyscol : ∀ col : Int, 0 ≤ col → col < g0.num_cols →
      keyed st2.sets ⟨(y : Int), col⟩ := by
    intro col h0 hCc
    exact hdone2.2 _ (mem_all_cells.2 ⟨hy0, hyRR, h0, hCc⟩) (le_refl _)
  have htouch : ∀ x, keyed st2.sets x →
      rowTouch st2.sets (y : Int) (g0.num_cols - 1) x := by
    intro x hx
    obtain ⟨d, hd, hdrow, hdid⟩ := hrep2 x hx
    have hdin := hcore2.keyin d hd
    refine ⟨d.col, (mem_all_cells.1 hdin).2.2.1, by
      have := (mem_all_cells.1 hdin).2.2.2
      omega, ?_⟩
    rw [congrArg (dictGet st2.sets)
      (cell_eq (show (⟨(y : Int), d.col⟩ : Cell).row = d.row from hdrow.symm) rfl), hdid]
  have hchar0 : ∀ a b, keyed st2.sets a → keyed st2.sets b →
      (st2.g.Reach a b ↔ dictGet st2.sets a = dictGet st2.sets b ∨
        (rowTouch st2.sets (y : Int) 0 a ∧ rowTouch st2.sets (y : Int) 0 b)) := by
    intro a b ha hb
    constructor
    · intro h
      exact Or.inl ((hcore2.classes a b ha hb).1 h)
    · rintro (h | ⟨⟨c1, hc10, hc1le, hc1e⟩, ⟨c2, hc20, hc2le, hc2e⟩⟩)
      · exact (hcore2.classes a b ha hb).2 h
      · have h1 : c1 = 0 := by omega
        have h2 : c2 = 0 := by omega
        subst h1
        subst h2
        exact (hcore2.classes a b ha hb).2 (hc1e.symm.trans hc2e)
  have hseg1 : colSeg (y : Int) 0 (0 + 1) = [⟨(y : Int), 0⟩] := by
    rw [colSeg_cons (by omega), colSeg_nil (le_refl _)]
  have hcnt0 : st2.g.edgeCount + 1 = st2.g.edgeCount +
      ((colSeg (y : Int) 0 (0 + 1)).map (dictGet st2.sets)).toFinset.card := by
    rw [hseg1]
    rfl
  have hzip : row.zip row.tail = zipSeg (y : Int) 0 (g0.num_cols - 1) := by
    rw [hrowdef]
    exact colSeg_zip_tail (y : Int) g0.num_cols.toNat 0 g0.num_cols (by omega)
  obtain ⟨stF, hfoldF, hsetsF, hsRF, hsCF, hsymF, hwfF, hupF, hgeoF, hcharF, hcntF⟩ :=
    ellerLastRow_zip g0 (y : Int) st2.sets st2.g.edgeCount hconv2 hy0 hyRR hkeyscol
      (g0.num_cols - 1).toNat 0 st2 (le_refl 0) (by omega) rfl hcore2.shapeR
      hcore2.shapeC hcore2.symm hcore2.wf hcore2.up hcore2.geo hchar0 hcnt0
  have hstF : ellerLastRow row st2 = stF := by
    unfold ellerLastRow
    rw [hzip]
    exact hfoldF
  rw [hstF]
  have hallkeys : ∀ c ∈ g0.all_cells, keyed st2.sets c := by
    intro c hc
    refine hdone2.2 c hc ?_
    have := (mem_all_cells.1 hc).2.1
    omega
  refine ⟨stF, rfl, hsRF, hsCF, hsymF, hgeoF, hupF, ?_, ?_⟩
  · intro a b ha hb
    refine (hcharF a b (hallkeys a ha) (hallkeys b hb)).2 (Or.inr ⟨?_, ?_⟩)
    · exact htouch a (hallkeys a ha)
    · exact htouch b (hallkeys b hb)
  · -- the id set of the last row is the full id set: count it
    have hfin : ((colSeg (y : Int) 0 (g0.num_cols - 1 + 1)).map
        (dictGet st2.sets)).toFinset = (st2.sets.map Prod.snd).toFinset := by
      ext x
      rw [mem_colSeg_ids (by omega)]
      constructor
      · rintro ⟨c, h0, hle, he⟩
        rw [List.mem_toFinset, ← he]
        exact dictGet_mem_snd (hkeyscol c h0 (by omega))
      · intro hx
        rw [List.mem_toFinset] at hx
        obtain ⟨p, hp, hpe⟩ := List.mem_map.1 hx
        have hpk : keyed st2.sets p.1 := by
          intro hnone
          exact (dictGet?_eq_none.1 hnone) (List.mem_map.2 ⟨p, hp, rfl⟩)
        have hpv : dictGet st2.sets p.1 = x := by
          unfold dictGet
          rw [dictGet?_of_mem hcore2.nodupkeys (show (p.1, p.2) ∈ st2.sets from hp)]
          exact hpe
        obtain ⟨c, h0, hle, he⟩ := htouch p.1 hpk
        exact ⟨c, h0, by omega, he.trans hpv⟩
    have hlen : st2.sets.length = g0.num_rows.toNat * g0.num_cols.toNat := by
      have hsub1 : st2.sets.map Prod.fst ⊆ g0.all_cells := by
        intro x hx
        refine hcore2.keyin x ?_
        intro hnone
        exact (dictGet?_eq_none.1 hnone) hx
      have hsub2 : g0.all_cells ⊆ st2.sets.map Prod.fst := by
        intro c hc
        have hck := hallkeys c hc
        obtain ⟨v, hv⟩ := Option.ne_none_iff_exists'.1 hck
        exact List.mem_map.2 ⟨(c, v), mem_of_dictGet? hv, rfl⟩
      have h1 := nodup_subset_length hcore2.nodupkeys hsub1
      have h2 := nodup_subset_length (all_cells_nodup g0) hsub2
      have h3 := all_cells_length g0
      have h4 : (st2.sets.map Prod.fst).length = st2.sets.length := List.length_map _ _
      omega
    rw [hfin] at hcntF
    have hcore2c := hcore2.count
    unfold nids at hcore2c
    omega

set_option maxHeartbeats 1600000 in
/-- The outer Eller fold over the rows `y … R-1` (enumerated): ends in a
spanning tree. -/
theorem ellerRows_fold (g0 : Grid) (rng : Nat → Nat) (hC : 1 ≤ g0.num_cols) :
    ∀ (p : Nat) (y : Nat) (st : EllerState),
      1 ≤ p → (y : Int) + (p : Int) = g0.num_rows →
      EInv g0 st (y : Int) →
      ∃ stF, (List.enumFrom y (rowSeg g0.num_rows g0.num_cols (y : Int))).foldl
          (fun st yrow =>
            let st1 := ellerAssign yrow.2 st
            let st2 := ellerHorizontal rng yrow.2 st1
            let st3 := ellerVertical rng yrow.1 yrow.2 st2
            if (yrow.1 : Int) = st3.g.num_rows - 1 then ellerLastRow yrow.2 st3 else st3)
          st = stF ∧
        stF.g.num_rows = g0.num_rows ∧ stF.g.num_cols = g0.num_cols ∧ stF.g.Symm ∧
        (∀ v w, stF.g.Linked v w → GeoNbr v w) ∧ UP stF.g ∧
        (∀ a b, a ∈ g0.all_cells → b ∈ g0.all_cells → stF.g.Reach a b) ∧
        stF.g.edgeCount = g0.num_rows.toNat * g0.num_cols.toNat - 1 := by
  intro p
  induction p with
  | zero =>
    intro y st h1 _ _
    exact absurd h1 (by omega)
  | succ n ih =>
    intro y st _ hp hinv
    have hyR : (y : Int) < g0.num_rows := by omega
    rw [rowSeg_cons hyR, List.enumFrom_cons, List.foldl_cons]
    dsimp only
    rcases Nat.eq_zero_or_pos n with rfl | hn
    · -- last row
      have hlastr : (y : Int) = g0.num_rows - 1 := by omega
      obtain ⟨st2, hst2, hcore2, _, _, _⟩ := ellerAH g0 rng y st hyR hC hinv
      obtain ⟨stF, hlast, hprops⟩ := ellerRow_last g0 rng y st hlastr hC hinv
      rw [hst2, ellerVertical_noop rng y _ st2 (by rw [hcore2.shapeR]; omega),
        if_pos (show (y : Int) = st2.g.num_rows - 1 from by rw [hcore2.shapeR]; omega)]
      rw [hst2, ellerVertical_noop rng y _ st2 (by rw [hcore2.shapeR]; omega)] at hlast
      rw [hlast]
      rw [rowSeg_nil (by omega)]
      exact ⟨stF, rfl, hprops⟩
    · -- a middle row
      have hyR1 : (y : Int) < g0.num_rows - 1 := by omega
      have hinv3 := ellerRow_step g0 rng y st hyR1 hC hinv
      have hsh3 := hinv3.1.shapeR
      rw [if_neg (show ¬((y : Int) = (ellerVertical rng y (colSeg (y : Int) 0 g0.num_cols)
          (ellerHorizontal rng (colSeg (y : Int) 0 g0.num_cols)
            (ellerAssign (colSeg (y : Int) 0 g0.num_cols) st))).g.num_rows - 1) from by
        rw [hsh3]
        omega)]
      have hcast : ((y + 1 : Nat) : Int) = (y : Int) + 1 := by omega
      rw [← hcast] at hinv3
      obtain ⟨stF, hfold, hprops⟩ := ih (y + 1) _ (by omega) (by omega) hinv3
      rw [hcast] at hfold
      exact ⟨stF, hfold, hprops⟩

/-- The Eller generator produces a spanning tree on any `R × C` grid
(`R, C ≥ 1`), with symmetric, geometric links and unchanged dimensions. -/
theorem eller_spanning (R C : Int) (hR : 1 ≤ R) (hC : 1 ≤ C) (rng : Nat → Nat) :
    IsSpanningTree (EllerMazeMaker.make_maze (Grid.construct R C) rng) ∧
    (EllerMazeMaker.make_maze (Grid.construct R C) rng).Symm ∧
    (∀ v w, (EllerMazeMaker.make_maze (Grid.construct R C) rng).Linked v w →
      GeoNbr v w) ∧
    (EllerMazeMaker.make_maze (Grid.construct R C) rng).num_rows = R ∧
    (EllerMazeMaker.make_maze (Grid.construct R C) rng).num_cols = C := by
  set g0 := Grid.construct R C with hg0
  have hg0R : g0.num_rows = R := rfl
  have hg0C : g0.num_cols = C := rfl
  have hinv0 : EInv g0 ⟨g0, [], 0, 0⟩ ((0 : Nat) : Int) := by
    refine ⟨⟨rfl, rfl, ?_, ?_, up_nil rfl, ?_, ?_, ?_, ?_, List.nodup_nil, ?_, rfl⟩,
      ⟨?_, ?_⟩, ?_, ?_⟩
    · intro a b h
      exact absurd h (List.not_mem_nil _)
    · intro q hq
      exact absurd hq (List.not_mem_nil _)
    · intro v w h
      exact absurd h (List.not_mem_nil _)
    · intro c hc
      exact absurd rfl hc
    · intro a b h
      exact absurd h (List.not_mem_nil _)
    · intro a b ha
      exact absurd rfl ha
    · intro q hq
      exact absurd hq (List.not_mem_nil _)
    · intro c hc
      exact absurd rfl hc
    · intro c hc hlt
      have h0 := (mem_all_cells.1 hc).1
      omega
    · intro a ha
      exact absurd rfl ha
    · intro a b ha
      exact absurd rfl ha
  obtain ⟨stF, hfold, hpR, hpC, hsym, hgeo, hup, hconn, hcount⟩ :=
    ellerRows_fold g0 rng (by omega) g0.num_rows.toNat 0 ⟨g0, [], 0, 0⟩ (by omega)
      (by omega) hinv0
  have hmaze : EllerMazeMaker.make_maze (Grid.construct R C) rng = stF.g := by
    unfold EllerMazeMaker.make_maze
    rw [← hg0]
    have henum : g0.rowsList.enum = List.enumFrom 0 g0.rowsList := rfl
    rw [henum, rowsList_eq_rowSeg]
    rw [Nat.cast_zero] at hfold
    rw [hfold]
  rw [hmaze]
  refine ⟨⟨?_, ?_, noCycle_of_up hup⟩, hsym, hgeo, hpR.trans hg0R, hpC.trans hg0C⟩
  · rw [hpR, hpC, hcount]
  · intro a ha b hb
    refine hconn a b ?_ ?_
    · rw [← all_cells_congr hpR hpC]
      exact ha
    · rw [← all_cells_congr hpR hpC]
      exact hb

/-! ### C1 and C4 -/

/-- C1: for every grid with R ≥ 1 rows and C ≥ 1 columns, each of the three
generators (Binary-Tree, Sidewinder, Eller), run once on a freshly
constructed grid, produces a link relation that is a spanning tree over all
R×C nodes: exactly R·C − 1 undirected links, full connectivity between all
cells, and no cycle. -/
theorem C1_spanning_trees (R C : Int) (hR : 1 ≤ R) (hC : 1 ≤ C) (rng : Nat → Nat) :
    (IsSpanningTree (BinaryTreeMazeMaker.make_maze (Grid.construct R C) rng) ∧
      (BinaryTreeMazeMaker.make_maze (Grid.construct R C) rng).edgeCount =
        R.toNat * C.toNat - 1) ∧
    (IsSpanningTree (SidewinderMazeMaker.make_maze (Grid.construct R C) rng) ∧
      (SidewinderMazeMaker.make_maze (Grid.construct R C) rng).edgeCount =
        R.toNat * C.toNat - 1) ∧
    (IsSpanningTree (EllerMazeMaker.make_maze (Grid.construct R C) rng) ∧
      (EllerMazeMaker.make_maze (Grid.construct R C) rng).edgeCount =
        R.toNat * C.toNat - 1) := by
  obtain ⟨hbt, _, _, hbtR, hbtC⟩ := bt_spanning R C hR hC rng
  obtain ⟨hsw, _, _, hswR, hswC⟩ := sw_spanning R C hR hC rng
  obtain ⟨hel, _, _, helR, helC⟩ := eller_spanning R C hR hC rng
  refine ⟨⟨hbt, ?_⟩, ⟨hsw, ?_⟩, ⟨hel, ?_⟩⟩
  · rw [hbt.1, hbtR, hbtC]
  · rw [hsw.1, hswR, hswC]
  · rw [hel.1, helR, helC]

theorem C1_spanning_trees_witness :
    (IsSpanningTree (BinaryTreeMazeMaker.make_maze (Grid.construct 2 2) (fun _ => 0)) ∧
      (BinaryTreeMazeMaker.make_maze (Grid.construct 2 2) (fun _ => 0)).edgeCount =
        (2 : Int).toNat * (2 : Int).toNat - 1) ∧
    (IsSpanningTree (SidewinderMazeMaker.make_maze (Grid.construct 2 2) (fun _ => 0)) ∧
      (SidewinderMazeMaker.make_maze (Grid.construct 2 2) (fun _ => 0)).edgeCount =
        (2 : Int).toNat * (2 : Int).toNat - 1) ∧
    (IsSpanningTree (EllerMazeMaker.make_maze (Grid.construct 2 2) (fun _ => 0)) ∧
      (EllerMazeMaker.make_maze (Grid.construct 2 2) (fun _ => 0)).edgeCount =
        (2 : Int).toNat * (2 : Int).toNat - 1) :=
  C1_spanning_trees 2 2 (by decide) (by decide) (fun _ => 0)

/-- C4: after any of the three generators has run on a freshly constructed
grid, every linked pair consists of geometric neighbors (coordinates differ
by exactly 1 in exactly one coordinate), and the link relation is symmetric
(A is in B's link set iff B is in A's). -/
theorem C4_links_geometric_symmetric (R C : Int) (hR : 1 ≤ R) (hC : 1 ≤ C)
    (rng : Nat → Nat) :
    ((∀ v w, (BinaryTreeMazeMaker.make_maze (Grid.construct R C) rng).Linked v w →
        GeoNbr v w) ∧
      (∀ v w, (BinaryTreeMazeMaker.make_maze (Grid.construct R C) rng).Linked v w ↔
        (BinaryTreeMazeMaker.make_maze (Grid.construct R C) rng).Linked w v)) ∧
    ((∀ v w, (SidewinderMazeMaker.make_maze (Grid.construct R C) rng).Linked v w →
        GeoNbr v w) ∧
      (∀ v w, (SidewinderMazeMaker.make_maze (Grid.construct R C) rng).Linked v w ↔
        (SidewinderMazeMaker.make_maze (Grid.construct R C) rng).Linked w v)) ∧
    ((∀ v w, (EllerMazeMaker.make_maze (Grid.construct R C) rng).Linked v w →
        GeoNbr v w) ∧
      (∀ v w, (EllerMazeMaker.make_maze (Grid.construct R C) rng).Linked v w ↔
        (EllerMazeMaker.make_maze (Grid.construct R C) rng).Linked w v)) := by
  obtain ⟨_, hbts, hbtg, _, _⟩ := bt_spanning R C hR hC rng
  obtain ⟨_, hsws, hswg, _, _⟩ := sw_spanning R C hR hC rng
  obtain ⟨_, hels, helg, _, _⟩ := eller_spanning R C hR hC rng
  exact ⟨⟨hbtg, fun v w => ⟨hbts v w, hbts w v⟩⟩,
    ⟨hswg, fun v w => ⟨hsws v w, hsws w v⟩⟩,
    ⟨helg, fun v w => ⟨hels v w, hels w v⟩⟩⟩

theorem C4_links_geometric_symmetric_witness :
    ((∀ v w, (BinaryTreeMazeMaker.make_maze (Grid.construct 2 2) (fun _ => 0)).Linked v w →
        GeoNbr v w) ∧
      (∀ v w, (BinaryTreeMazeMaker.make_maze (Grid.construct 2 2) (fun _ => 0)).Linked v w ↔
        (BinaryTreeMazeMaker.make_maze (Grid.construct 2 2) (fun _ => 0)).Linked w v)) ∧
    ((∀ v w, (SidewinderMazeMaker.make_maze (Grid.construct 2 2) (fun _ => 0)).Linked v w →
        GeoNbr v w) ∧
      (∀ v w, (SidewinderMazeMaker.make_maze (Grid.construct 2 2) (fun _ => 0)).Linked v w ↔
        (SidewinderMazeMaker.make_maze (Grid.construct 2 2) (fun _ => 0)).Linked w v)) ∧
    ((∀ v w, (EllerMazeMaker.make_maze (Grid.construct 2 2) (fun _ => 0)).Linked v w →
        GeoNbr v w) ∧
      (∀ v w, (EllerMazeMaker.make_maze (Grid.construct 2 2) (fun _ => 0)).Linked v w ↔
        (EllerMazeMaker.make_maze (Grid.construct 2 2) (fun _ => 0)).Linked w v)) :=
  C4_links_geometric_symmetric 2 2 (by decide) (by decide) (fun _ => 0)

/-! ### C2: walks, simple paths and path segments -/

theorem walk_to_path {g : Grid} :
    ∀ (l : List Cell) (x y : Cell), List.Chain g.LinkedU x l →
      (x :: l).getLast? = some y →
      ∃ p, IsPath g p x y ∧ p.length ≤ l.length + 1 := by
  intro l
  induction l with
  | nil =>
    intro x y _ hl
    rw [List.getLast?_singleton, Option.some.injEq] at hl
    subst hl
    exact ⟨[x], ⟨rfl, rfl, List.chain'_singleton x, List.nodup_singleton x⟩, by simp⟩
  | cons a l ih =>
    intro x y hc hl
    rw [List.chain_cons] at hc
    rw [List.getLast?_cons_cons] at hl
    obtain ⟨p, ⟨hph, hpl, hpc, hpn⟩, hplen⟩ := ih a y hc.2 hl
    by_cases hx : x ∈ p
    · obtain ⟨q, r, rfl⟩ := List.append_of_mem hx
      refine ⟨x :: r, ⟨rfl, ?_, ?_, ?_⟩, ?_⟩
      · rwa [List.getLast?_append_of_ne_nil _ (List.cons_ne_nil x r)] at hpl
      · exact List.Chain'.suffix hpc ⟨q, rfl⟩
      · exact hpn.sublist (List.sublist_append_right q (x :: r))
      · simp only [List.length_cons, List.length_append] at hplen ⊢
        omega
    · cases p with
      | nil => simp at hph
      | cons a0 t =>
        rw [List.head?_cons, Option.some.injEq] at hph
        subst hph
        refine ⟨x :: a0 :: t, ⟨rfl, ?_, ?_, ?_⟩, ?_⟩
        · rwa [List.getLast?_cons_cons]
        · exact List.chain'_cons.2 ⟨hc.1, hpc⟩
        · exact List.nodup_cons.2 ⟨hx, hpn⟩
        · simp only [List.length_cons] at hplen ⊢
          omega

theorem reach_chain {g : Grid} {x y : Cell} (h : g.Reach x y) :
    ∃ l, List.Chain g.LinkedU x l ∧ (x :: l).getLast? = some y := by
  unfold Grid.Reach at h
  induction h using Relation.ReflTransGen.head_induction_on with
  | refl => exact ⟨[], List.Chain.nil, rfl⟩
  | head hstep _ ih =>
    obtain ⟨l, hc, hl⟩ := ih
    refine ⟨_ :: l, List.Chain.cons hstep hc, ?_⟩
    rwa [List.getLast?_cons_cons]

theorem reach_to_path {g : Grid} {x y : Cell} (h : g.Reach x y) :
    ∃ p, IsPath g p x y := by
  obtain ⟨l, hc, hl⟩ := reach_chain h
  obtain ⟨p, hp, _⟩ := walk_to_path l x y hc hl
  exact ⟨p, hp⟩

/-- An initial segment of a simple path, cut just after a chosen node, is
itself a simple path to that node. -/
theorem path_initial {g : Grid} {p q r : List Cell} {x y w : Cell}
    (hp : IsPath g p x y) (he : p = q ++ w :: r) :
    IsPath g (q ++ [w]) x w := by
  obtain ⟨hph, hpl, hpc, hpn⟩ := hp
  subst he
  have hpre : (q ++ [w]) <+: q ++ w :: r := ⟨r, by simp⟩
  refine ⟨?_, ?_, List.Chain'.prefix hpc hpre, hpn.sublist hpre.sublist⟩
  · cases q with
    | nil => simpa using hph
    | cons u t => simpa using hph
  · rw [List.getLast?_append_of_ne_nil _ (List.cons_ne_nil w ([] : List Cell))]
    rfl

/-- Appending a fresh linked node to the end of a simple path. -/
theorem isPath_snoc {g : Grid} {p : List Cell} {x c n : Cell}
    (hp : IsPath g p x c) (hlink : g.LinkedU c n) (hn : n ∉ p) :
    IsPath g (p ++ [n]) x n := by
  obtain ⟨hh, hl, hc, hnd⟩ := hp
  refine ⟨?_, ?_, ?_, ?_⟩
  · cases p with
    | nil => simp at hh
    | cons a t => simpa using hh
  · rw [List.getLast?_append_of_ne_nil _ (List.cons_ne_nil n ([] : List Cell))]
    rfl
  · rw [List.chain'_append]
    refine ⟨hc, List.chain'_singleton n, ?_⟩
    intro a ha b hb
    rw [hl, Option.mem_def, Option.some.injEq] at ha
    rw [List.head?_cons, Option.mem_def, Option.some.injEq] at hb
    rw [← ha, ← hb]
    exact hlink
  · rw [List.nodup_append]
    refine ⟨hnd, List.nodup_singleton n, ?_⟩
    intro a ha hb
    rw [List.mem_singleton] at hb
    subst hb
    exact hn ha

/-! ### C2: the solver queue -/

theorem mem_insSorted (p q : Nat × Cell) (l : List (Nat × Cell)) :
    q ∈ insSorted p l ↔ q = p ∨ q ∈ l := by
  induction l with
  | nil => simp [insSorted]
  | cons a l ih =>
    rw [insSorted]
    by_cases h : p.1 ≤ a.1
    · rw [if_pos h, List.mem_cons, List.mem_cons]
    · rw [if_neg h, List.mem_cons, ih, List.mem_cons]
      tauto

theorem length_insSorted (p : Nat × Cell) (l : List (Nat × Cell)) :
    (insSorted p l).length = l.length + 1 := by
  induction l with
  | nil => rfl
  | cons a l ih =>
    rw [insSorted]
    by_cases h : p.1 ≤ a.1
    · rw [if_pos h]
      simp
    · rw [if_neg h]
      simp only [List.length_cons, ih]


theorem mem_pySortByKey (q : Nat × Cell) (l : List (Nat × Cell)) :
    q ∈ pySortByKey l ↔ q ∈ l := by
  induction l with
  | nil => exact Iff.rfl
  | cons a l ih => rw [pySortByKey, mem_insSorted, List.mem_cons, ih]

theorem length_pySortByKey (l : List (Nat × Cell)) :
    (pySortByKey l).length = l.length := by
  induction l with
  | nil => rfl
  | cons a l ih => rw [pySortByKey, length_insSorted, ih, List.length_cons]

theorem mem_addToQueue (queue : List (Nat × Cell)) (c : Cell) (d : Nat)
    (q : Nat × Cell) :
    q ∈ addToQueue queue c d ↔ q ∈ queue ∨ q = (d, c) := by
  unfold addToQueue
  rw [mem_pySortByKey, List.mem_append, List.mem_singleton]

theorem length_addToQueue (queue : List (Nat × Cell)) (c : Cell) (d : Nat) :
    (addToQueue queue c d).length = queue.length + 1 := by
  unfold addToQueue
  rw [length_pySortByKey, List.length_append, List.length_singleton]

/-! ### C2: distance-sum bookkeeping -/

theorem sum_map_update (l : List Cell) (f : Cell → Nat) (c : Cell) (v : Nat)
    (hn : l.Nodup) (hc : c ∈ l) :
    (l.map (Function.update f c v)).sum + f c = (l.map f).sum + v := by
  induction l with
  | nil => cases hc
  | cons a l ih =>
    rw [List.nodup_cons] at hn
    simp only [List.map_cons, List.sum_cons]
    rcases List.mem_cons.1 hc with rfl | hc2
    · rw [Function.update_apply, if_pos rfl]
      have hmap : l.map (Function.update f c v) = l.map f := by
        refine List.map_congr_left (fun x hx => ?_)
        rw [Function.update_apply, if_neg]
        intro he
        subst he
        exact hn.1 hx
      rw [hmap]
      omega
    · have hac : a ≠ c := fun he => hn.1 (he ▸ hc2)
      rw [Function.update_apply, if_neg hac]
      have hih := ih hn.2 hc2
      omega

theorem sum_map_le (l : List Cell) (f : Cell → Nat) (k : Nat)
    (h : ∀ x ∈ l, f x ≤ k) : (l.map f).sum ≤ k * l.length := by
  induction l with
  | nil => simp
  | cons a l ih =>
    simp only [List.map_cons, List.sum_cons, List.length_cons]
    have h1 := h a (List.mem_cons_self a l)
    have h2 := ih (fun x hx => h x (List.mem_cons_of_mem a hx))
    rw [Nat.mul_succ]
    omega

/-! ### C2: one relaxation pass preserves the invariant -/

theorem relax_eq_foldl (g : Grid) (t : DState) (cell : Cell) :
    DjikstraSolver.relax g t cell = (g.cellLinks cell).foldl (relaxStep g cell) t := rfl

theorem relaxStep_eq (g : Grid) (cell : Cell) (s : DState) (nbr : Cell)
    (hlink : g.Linked cell nbr) :
    relaxStep g cell s nbr =
      if s.dist cell + 1 < s.dist nbr then
        { dist := Function.update s.dist nbr (s.dist cell + 1),
          prev := Function.update s.prev nbr (some cell),
          queue := addToQueue s.queue nbr (s.dist cell + 1) }
      else s := by
  have hw : DjikstraSolver.weight g cell nbr = 1 := if_pos hlink
  show (if s.dist cell + DjikstraSolver.weight g cell nbr < s.dist nbr then
      { dist := Function.update s.dist nbr (s.dist cell + DjikstraSolver.weight g cell nbr),
        prev := Function.update s.prev nbr (some cell),
        queue := addToQueue s.queue nbr (s.dist cell + DjikstraSolver.weight g cell nbr) }
    else s) = _
  rw [hw]

theorem dinv_of_relaxFinal {g : Grid} {cell : Cell} {s : DState}
    (h : DRelaxInv g cell [] s) : DInv g s := by
  obtain ⟨h0, h1, h2, h3, h4⟩ := h
  refine ⟨h0, h1, h2, h3, ?_⟩
  intro u v hu huv
  rcases h4 u v hu huv with h | h | ⟨_, hv⟩
  · exact Or.inl h
  · exact Or.inr h
  · exact absurd hv (List.not_mem_nil v)

theorem relaxFold (g : Grid) (hwf : g.WF) (cell : Cell) (hcell : cell ∈ g.all_cells) :
    ∀ (l : List Cell) (t : DState),
      (∀ nbr ∈ l, g.Linked cell nbr) →
      DRelaxInv g cell l t →
      ∃ t', l.foldl (relaxStep g cell) t = t' ∧ DInv g t' ∧
        sumDist g t' + t'.queue.length ≤ sumDist g t + t.queue.length := by
  intro l
  induction l with
  | nil =>
    intro t _ hinv
    exact ⟨t, rfl, dinv_of_relaxFinal hinv, le_refl _⟩
  | cons nbr l ih =>
    intro t hl hinv
    obtain ⟨h0, h1, h2, h3, h4⟩ := hinv
    have hlink : g.Linked cell nbr := hl nbr (List.mem_cons_self nbr l)
    have hnbr_cells : nbr ∈ g.all_cells := (hwf (cell, nbr) hlink).2
    have hl' : ∀ x ∈ l, g.Linked cell x := fun x hx => hl x (List.mem_cons_of_mem nbr hx)
    rw [List.foldl_cons, relaxStep_eq g cell t nbr hlink]
    by_cases hcond : t.dist cell + 1 < t.dist nbr
    · rw [if_pos hcond]
      have hnbr_le : t.dist nbr ≤ 10000 := h2 nbr hnbr_cells
      have hcell_ne : cell ≠ nbr := by
        intro he
        rw [he] at hcond
        omega
      have hpath_nbr : ∃ p, IsPath g p ⟨0, 0⟩ nbr ∧ p.length ≤ (t.dist cell + 1) + 1 := by
        obtain ⟨p, hp, hplen⟩ := h3 cell hcell (by omega)
        by_cases hnb : nbr ∈ p
        · obtain ⟨q, r, rfl⟩ := List.append_of_mem hnb
          refine ⟨q ++ [nbr], path_initial hp rfl, ?_⟩
          simp only [List.length_append, List.length_cons, List.length_nil,
            List.length_singleton] at hplen ⊢
          omega
        · refine ⟨p ++ [nbr], isPath_snoc hp (Or.inl hlink) hnb, ?_⟩
          simp only [List.length_append, List.length_singleton]
          omega
      have hinv1 : DRelaxInv g cell l
          { dist := Function.update t.dist nbr (t.dist cell + 1),
            prev := Function.update t.prev nbr (some cell),
            queue := addToQueue t.queue nbr (t.dist cell + 1) } := by
        refine ⟨?_, ?_, ?_, ?_, ?_⟩
        · intro q hq
          rcases (mem_addToQueue _ _ _ q).1 hq with hmem | heq
          · exact h0 q hmem
          · rw [heq]
            exact hnbr_cells
        · show Function.update t.dist nbr (t.dist cell + 1) ⟨0, 0⟩ = 0
          rw [Function.update_apply]
          by_cases h00 : (⟨0, 0⟩ : Cell) = nbr
          · rw [← h00] at hcond
            rw [h1] at hcond
            omega
          · rw [if_neg h00]
            exact h1
        · intro x hx
          show Function.update t.dist nbr (t.dist cell + 1) x ≤ 10000
          rw [Function.update_apply]
          by_cases hxn : x = nbr
          · rw [if_pos hxn]
            omega
          · rw [if_neg hxn]
            exact h2 x hx
        · intro x hx hlt
          have hlt2 : Function.update t.dist nbr (t.dist cell + 1) x < 10000 := hlt
          show ∃ p, IsPath g p ⟨0, 0⟩ x ∧
            p.length ≤ Function.update t.dist nbr (t.dist cell + 1) x + 1
          rw [Function.update_apply] at hlt2 ⊢
          by_cases hxn : x = nbr
          · rw [if_pos hxn] at hlt2 ⊢
            rw [hxn]
            exact hpath_nbr
          · rw [if_neg hxn] at hlt2 ⊢
            exact h3 x hx hlt2
        · intro u v hu huv
          rcases h4 u v hu huv with hle | ⟨d, hd⟩ | ⟨hueq, hv⟩
          · by_cases hun : u = nbr
            · refine Or.inr (Or.inl ⟨t.dist cell + 1, ?_⟩)
              rw [hun]
              exact (mem_addToQueue _ _ _ _).2 (Or.inr rfl)
            · refine Or.inl ?_
              show Function.update t.dist nbr (t.dist cell + 1) v ≤
                Function.update t.dist nbr (t.dist cell + 1) u + 1
              rw [Function.update_apply, Function.update_apply, if_neg hun]
              by_cases hvn : v = nbr
              · rw [if_pos hvn]
                rw [hvn] at hle
                omega
              · rw [if_neg hvn]
                exact hle
          · exact Or.inr (Or.inl ⟨d, (mem_addToQueue _ _ _ _).2 (Or.inl hd)⟩)
          · rcases List.mem_cons.1 hv with hveq | hv2
            · refine Or.inl ?_
              show Function.update t.dist nbr (t.dist cell + 1) v ≤
                Function.update t.dist nbr (t.dist cell + 1) u + 1
              rw [hueq, hveq, Function.update_apply, Function.update_apply,
                if_pos rfl, if_neg hcell_ne]
            · exact Or.inr (Or.inr ⟨hueq, hv2⟩)
      obtain ⟨t', hfold, hinvt, hmeas⟩ := ih _ hl' hinv1
      refine ⟨t', hfold, hinvt, le_trans hmeas ?_⟩
      have hsum := sum_map_update g.all_cells t.dist nbr (t.dist cell + 1)
        (all_cells_nodup g) hnbr_cells
      have hql : (addToQueue t.queue nbr (t.dist cell + 1)).length = t.queue.length + 1 :=
        length_addToQueue _ _ _
      show (g.all_cells.map (Function.update t.dist nbr (t.dist cell + 1))).sum +
          (addToQueue t.queue nbr (t.dist cell + 1)).length ≤
        (g.all_cells.map t.dist).sum + t.queue.length
      omega
    · rw [if_neg hcond]
      refine ih t hl' ⟨h0, h1, h2, h3, ?_⟩
      intro u v hu huv
      rcases h4 u v hu huv with hle | ⟨d, hd⟩ | ⟨hueq, hv⟩
      · exact Or.inl hle
      · exact Or.inr (Or.inl ⟨d, hd⟩)
      · rcases List.mem_cons.1 hv with hveq | hv2
        · refine Or.inl ?_
          rw [hueq, hveq]
          omega
        · exact Or.inr (Or.inr ⟨hueq, hv2⟩)

theorem relax_spec (g : Grid) (hwf : g.WF) (cell : Cell) (hcell : cell ∈ g.all_cells)
    (t : DState) (hinv : DRelaxInv g cell (g.cellLinks cell) t) :
    ∃ t', DjikstraSolver.relax g t cell = t' ∧ DInv g t' ∧
      sumDist g t' + t'.queue.length ≤ sumDist g t + t.queue.length := by
  rw [relax_eq_foldl]
  exact relaxFold g hwf cell hcell (g.cellLinks cell) t
    (fun x hx => mem_cellLinks.1 hx) hinv

/-! ### C2: the Dijkstra loop terminates with the invariant and empty queue -/

theorem djLoop_nil (g : Grid) (fuel : Nat) (s : DState) (hq : s.queue = []) :
    djLoop g (fuel + 1) s = some s := by
  rw [djLoop_succ, hq]

theorem djLoop_cons (g : Grid) (fuel : Nat) (s : DState) (d : Nat) (c : Cell)
    (rest : List (Nat × Cell)) (hq : s.queue = (d, c) :: rest) :
    djLoop g (fuel + 1) s =
      djLoop g fuel (DjikstraSolver.relax g { s with queue := rest } c) := by
  rw [djLoop_succ, hq]

theorem djLoop_spec (g : Grid) (hwf : g.WF) :
    ∀ (fuel : Nat) (s : DState), DInv g s →
      sumDist g s + s.queue.length < fuel →
      ∃ sF, djLoop g fuel s = some sF ∧ DInv g sF ∧ sF.queue = [] := by
  intro fuel
  induction fuel with
  | zero =>
    intro s _ hm
    exact absurd hm (by omega)
  | succ fuel ih =>
    intro s hinv hm
    obtain ⟨h0, h1, h2, h3, h4⟩ := hinv
    cases hq : s.queue with
    | nil => exact ⟨s, djLoop_nil g fuel s hq, ⟨h0, h1, h2, h3, h4⟩, hq⟩
    | cons top rest =>
      obtain ⟨d0, cell⟩ := top
      have hcell : cell ∈ g.all_cells := by
        have := h0 (d0, cell) (by rw [hq]; exact List.mem_cons_self _ _)
        exact this
      have hinv' : DRelaxInv g cell (g.cellLinks cell) { s with queue := rest } := by
        refine ⟨?_, h1, h2, h3, ?_⟩
        · intro q hqm
          exact h0 q (by rw [hq]; exact List.mem_cons_of_mem _ hqm)
        · intro u v hu huv
          rcases h4 u v hu huv with hle | ⟨d, hd⟩
          · exact Or.inl hle
          · rw [hq] at hd
            rcases List.mem_cons.1 hd with heq | hmem
            · refine Or.inr (Or.inr ⟨?_, mem_cellLinks.2 ?_⟩)
              · have := congrArg Prod.snd heq
                exact this
              · have hu2 : u = cell := congrArg Prod.snd heq
                rw [← hu2]
                exact huv
            · exact Or.inr (Or.inl ⟨d, hmem⟩)
      obtain ⟨t', hrel, hinvt, hmeas⟩ := relax_spec g hwf cell hcell _ hinv'
      rw [djLoop_cons g fuel s d0 cell rest hq, hrel]
      apply ih t' hinvt
      have hq1 : ({ s with queue := rest } : DState).queue = rest := rfl
      have hsum1 : sumDist g { s with queue := rest } = sumDist g s := rfl
      rw [hq1, hsum1] at hmeas
      have hslen : s.queue.length = rest.length + 1 := by
        rw [hq]
        rfl
      omega

/-! ### C2: the initial solver state satisfies the invariant -/

theorem dj_run (g : Grid) (hR : 1 ≤ g.num_rows) (hC : 1 ≤ g.num_cols) (hwf : g.WF) :
    ∃ sF, djLoop g (djFuel g)
        { DjikstraSolver.initialize g freshState with
          queue := addToQueue ( DjikstraSolver.initialize g freshState).queue ⟨0, 0⟩ 0 }
      = some sF ∧ DInv g sF ∧ sF.queue = [] := by
  obtain ⟨hprev, hqueue, hstart, hothers⟩ := initialize_spec g freshState hR hC
  have hdist : ({ DjikstraSolver.initialize g freshState with
        queue := addToQueue ( DjikstraSolver.initialize g freshState).queue ⟨0, 0⟩ 0 } :
      DState).dist = ( DjikstraSolver.initialize g freshState).dist := rfl
  have hq2 : ({ DjikstraSolver.initialize g freshState with
        queue := addToQueue ( DjikstraSolver.initialize g freshState).queue ⟨0, 0⟩ 0 } :
      DState).queue = [(0, ⟨0, 0⟩)] := by
    show addToQueue ( DjikstraSolver.initialize g freshState).queue ⟨0, 0⟩ 0 = _
    rw [hqueue]
    rfl
  have hstart_mem : (⟨0, 0⟩ : Cell) ∈ g.all_cells :=
    mem_all_cells.2 ⟨le_refl 0, show (0 : Int) < g.num_rows from by omega,
      le_refl 0, show (0 : Int) < g.num_cols from by omega⟩
  have hfuel : djFuel g = 10000 * g.all_cells.length + 2 := rfl
  have hdle : ∀ x ∈ g.all_cells, ( DjikstraSolver.initialize g freshState).dist x ≤ 10000 := by
    intro x hx
    by_cases hx0 : x = ⟨0, 0⟩
    · rw [hx0, hstart]
      omega
    · rw [hothers x hx hx0]
  apply djLoop_spec g hwf
  · refine ⟨?_, ?_, ?_, ?_, ?_⟩
    · intro q hqm
      rw [hq2] at hqm
      rw [List.mem_singleton.1 hqm]
      exact hstart_mem
    · rw [hdist]
      exact hstart
    · intro x hx
      rw [hdist]
      exact hdle x hx
    · intro x hx hlt
      rw [hdist] at hlt ⊢
      by_cases hx0 : x = ⟨0, 0⟩
      · subst hx0
        refine ⟨[⟨0, 0⟩], ⟨rfl, rfl, List.chain'_singleton _, List.nodup_singleton _⟩, ?_⟩
        show 1 ≤ ( DjikstraSolver.initialize g freshState).dist ⟨0, 0⟩ + 1
        omega
      · rw [hothers x hx hx0] at hlt
        omega
    · intro u v hu huv
      by_cases hu0 : u = ⟨0, 0⟩
      · refine Or.inr ⟨0, ?_⟩
        rw [hq2, hu0]
        exact List.mem_singleton.2 rfl
      · refine Or.inl ?_
        rw [hdist]
        have hv : v ∈ g.all_cells := (hwf (u, v) huv).2
        have h1 := hdle v hv
        rw [hothers u hu hu0]
        omega
  · rw [hfuel, hq2]
    have hsum : sumDist g { DjikstraSolver.initialize g freshState with
        queue := addToQueue ( DjikstraSolver.initialize g freshState).queue ⟨0, 0⟩ 0 }
        ≤ 10000 * g.all_cells.length :=
      sum_map_le g.all_cells ( DjikstraSolver.initialize g freshState).dist 10000 hdle
    have hlen1 : ([((0 : Nat), (⟨0, 0⟩ : Cell))] : List (Nat × Cell)).length = 1 := rfl
    rw [hlen1]
    omega

/-! ### C2: the final state computes exact tree distances -/

theorem final_i4 {g : Grid} {sF : DState} (hq : sF.queue = []) (hinv : DInv g sF) :
    ∀ u v : Cell, u ∈ g.all_cells → g.Linked u v → sF.dist v ≤ sF.dist u + 1 := by
  intro u v hu huv
  rcases hinv.2.2.2.2 u v hu huv with hle | ⟨d, hd⟩
  · exact hle
  · rw [hq] at hd
    exact absurd hd (List.not_mem_nil _)

theorem final_walk_bound {g : Grid} (hsym : g.Symm) (hwf : g.WF) {sF : DState}
    (hq : sF.queue = []) (hinv : DInv g sF) :
    ∀ (l : List Cell) (x : Cell), x ∈ g.all_cells → List.Chain g.LinkedU x l →
      ∀ y, (x :: l).getLast? = some y → sF.dist y ≤ sF.dist x + l.length := by
  intro l
  induction l with
  | nil =>
    intro x _ _ y hy
    rw [List.getLast?_singleton, Option.some.injEq] at hy
    subst hy
    simp
  | cons a l ih =>
    intro x hx hc y hy
    rw [List.chain_cons] at hc
    rw [List.getLast?_cons_cons] at hy
    have hxa : g.Linked x a := by
      rcases hc.1 with h | h
      · exact h
      · exact hsym a x h
    have ha : a ∈ g.all_cells := (hwf (x, a) hxa).2
    have h1 := final_i4 hq hinv x a hx hxa
    have h2 := ih a ha hc.2 y hy
    simp only [List.length_cons]
    omega

theorem final_path_bound {g : Grid} (hsym : g.Symm) (hwf : g.WF)
    (hR : 1 ≤ g.num_rows) (hC : 1 ≤ g.num_cols) {sF : DState}
    (hq : sF.queue = []) (hinv : DInv g sF) {p : List Cell} {x : Cell}
    (hp : IsPath g p ⟨0, 0⟩ x) : sF.dist x + 1 ≤ p.length := by
  obtain ⟨hph, hpl, hpc, _⟩ := hp
  cases p with
  | nil => simp at hph
  | cons a rest =>
    rw [List.head?_cons, Option.some.injEq] at hph
    subst hph
    have hchain : List.Chain g.LinkedU ⟨0, 0⟩ rest := hpc
    have hmem : (⟨0, 0⟩ : Cell) ∈ g.all_cells :=
      mem_all_cells.2 ⟨le_refl 0, show (0 : Int) < g.num_rows from by omega,
        le_refl 0, show (0 : Int) < g.num_cols from by omega⟩
    have hb := final_walk_bound hsym hwf hq hinv rest ⟨0, 0⟩ hmem hchain x hpl
    rw [hinv.2.1] at hb
    simp only [List.length_cons]
    omega

theorem final_path_exact {g : Grid} (hsym : g.Symm) (hwf : g.WF)
    (hR : 1 ≤ g.num_rows) (hC : 1 ≤ g.num_cols) {sF : DState}
    (hq : sF.queue = []) (hinv : DInv g sF) {x : Cell}
    (hx : x ∈ g.all_cells) (hdx : sF.dist x < 10000) :
    ∃ p, IsPath g p ⟨0, 0⟩ x ∧ p.length = sF.dist x + 1 := by
  obtain ⟨p, hp, hple⟩ := hinv.2.2.2.1 x hx hdx
  exact ⟨p, hp, le_antisymm hple (final_path_bound hsym hwf hR hC hq hinv hp)⟩

theorem final_dist_eq {g : Grid} (hsym : g.Symm) (hwf : g.WF) (hup : UP g)
    (hR : 1 ≤ g.num_rows) (hC : 1 ≤ g.num_cols) {sF : DState}
    (hq : sF.queue = []) (hinv : DInv g sF) {x : Cell} {p : List Cell}
    (hx : x ∈ g.all_cells) (hp : IsPath g p ⟨0, 0⟩ x) (hlen : p.length ≤ 10000) :
    sF.dist x + 1 = p.length := by
  have hlow := final_path_bound hsym hwf hR hC hq hinv hp
  have hdx : sF.dist x < 10000 := by omega
  obtain ⟨q, hqp, hqlen⟩ := final_path_exact hsym hwf hR hC hq hinv hx hdx
  have hpq := hup ⟨0, 0⟩ x q p hqp hp
  rw [← hpq, hqlen]

/-! ### C2: path recovery walks back along the unique path -/

theorem foldl_min_const (dist : Cell → Nat) (c : Cell) :
    ∀ (ns : List Cell) (n0 : Cell), n0 = c → (∀ x ∈ ns, x = c) →
      ns.foldl (fun best y => if dist y < dist best then y else best) n0 = c := by
  intro ns
  induction ns with
  | nil =>
    intro n0 h _
    exact h
  | cons a ns ih =>
    intro n0 h hall
    rw [List.foldl_cons]
    refine ih _ ?_ (fun x hx => hall x (List.mem_cons_of_mem a hx))
    by_cases hcond : dist a < dist n0
    · rw [if_pos hcond]
      exact hall a (List.mem_cons_self a ns)
    · rw [if_neg hcond]
      exact h

theorem final_smaller_nbr {g : Grid} (hsym : g.Symm) (hwf : g.WF) (hup : UP g)
    (hR : 1 ≤ g.num_rows) (hC : 1 ≤ g.num_cols) {sF : DState}
    (hq : sF.queue = []) (hinv : DInv g sF) {w z par : Cell} {pre2 : List Cell}
    (hpath : IsPath g ((pre2 ++ [par]) ++ [w]) ⟨0, 0⟩ w)
    (hlen : pre2.length + 2 ≤ 10000)
    (hz : g.Linked w z) (hdz : sF.dist z < sF.dist w) :
    z = par := by
  have hw_cells : w ∈ g.all_cells := (hwf (w, z) hz).1
  have hz_cells : z ∈ g.all_cells := (hwf (w, z) hz).2
  have hplen : ((pre2 ++ [par]) ++ [w]).length = pre2.length + 2 := by
    simp [List.length_append]
  have hdw : sF.dist w + 1 = pre2.length + 2 :=
    (final_dist_eq hsym hwf hup hR hC hq hinv hw_cells hpath
      (by rw [hplen]; omega)).trans hplen
  have hdzlt : sF.dist z < 10000 := by omega
  obtain ⟨r, hr, hrlen⟩ := final_path_exact hsym hwf hR hC hq hinv hz_cells hdzlt
  by_cases hwr : w ∈ r
  · exfalso
    obtain ⟨q1, r1, rfl⟩ := List.append_of_mem hwr
    have hq1 : IsPath g (q1 ++ [w]) ⟨0, 0⟩ w := path_initial hr rfl
    have hupq := hup ⟨0, 0⟩ w (q1 ++ [w]) ((pre2 ++ [par]) ++ [w]) hq1 hpath
    have hq1e : q1 = pre2 ++ [par] := List.append_cancel_right hupq
    have hlr : q1.length + r1.length + 1 = sF.dist z + 1 := by
      simp only [List.length_append, List.length_cons] at hrlen
      omega
    have hlq : q1.length = pre2.length + 1 := by
      rw [hq1e]
      simp [List.length_append]
    omega
  · have hsnoc : IsPath g (r ++ [w]) ⟨0, 0⟩ w := isPath_snoc hr (Or.inr hz) hwr
    have hupq := hup ⟨0, 0⟩ w (r ++ [w]) ((pre2 ++ [par]) ++ [w]) hsnoc hpath
    have hre : r = pre2 ++ [par] := List.append_cancel_right hupq
    have hzlast : r.getLast? = some z := hr.2.1
    rw [hre, List.getLast?_append_of_ne_nil _ (List.cons_ne_nil par ([] : List Cell))]
      at hzlast
    have hsz : some par = some z := hzlast
    exact (Option.some.inj hsz).symm

theorem recoverAux_step (g : Grid) (dist : Cell → Nat) (fuel : Nat) (current : Cell)
    (hne : ¬(current.row = 0 ∧ current.col = 0)) :
    recoverAux g dist (fuel + 1) current =
      match (g.cellLinks current).filter (fun n => decide (dist n < dist current)) with
      | [] => [current]
      | n0 :: ns => current ::
          recoverAux g dist fuel
            (ns.foldl (fun best y => if dist y < dist best then y else best) n0) := by
  rw [recoverAux, if_neg hne]

theorem recover_correct {g : Grid} (hsym : g.Symm) (hwf : g.WF) (hup : UP g)
    (hR : 1 ≤ g.num_rows) (hC : 1 ≤ g.num_cols) {sF : DState}
    (hq : sF.queue = []) (hinv : DInv g sF) :
    ∀ (n : Nat) (pre : List Cell) (w : Cell) (fuel : Nat),
      pre.length = n → IsPath g (pre ++ [w]) ⟨0, 0⟩ w →
      pre.length + 1 ≤ 10000 → pre.length < fuel →
      recoverAux g sF.dist fuel w = (pre ++ [w]).reverse := by
  intro n
  induction n with
  | zero =>
    intro pre w fuel hn hpath _ hfuel
    have hpre : pre = [] := List.length_eq_zero.1 hn
    subst hpre
    have hw0 : w = ⟨0, 0⟩ := by
      have hh := hpath.1
      simp only [List.nil_append, List.head?_cons, Option.some.injEq] at hh
      exact hh
    obtain ⟨f, rfl⟩ : ∃ f, fuel = f + 1 := ⟨fuel - 1, by omega⟩
    subst hw0
    rw [recoverAux, if_pos ⟨rfl, rfl⟩]
    simp
  | succ n ih =>
    intro pre w fuel hn hpath hlen10 hfuel
    obtain ⟨f, rfl⟩ : ∃ f, fuel = f + 1 := ⟨fuel - 1, by omega⟩
    have hpre_ne : pre ≠ [] := by
      intro h
      rw [h] at hn
      simp at hn
    obtain ⟨pre2, par, rfl⟩ : ∃ pre2 par, pre = pre2 ++ [par] :=
      ⟨pre.dropLast, pre.getLast hpre_ne, (List.dropLast_append_getLast hpre_ne).symm⟩
    have hjun : g.LinkedU par w := by
      have hch := hpath.2.2.1
      rw [List.chain'_append] at hch
      refine hch.2.2 par ?_ w ?_
      · rw [List.getLast?_append_of_ne_nil _ (List.cons_ne_nil par ([] : List Cell))]
        rfl
      · rfl
    have hw_cells : w ∈ g.all_cells := by
      rcases hjun with h | h
      · exact (hwf (par, w) h).2
      · exact (hwf (w, par) h).1
    have hpar_cells : par ∈ g.all_cells := by
      rcases hjun with h | h
      · exact (hwf (par, w) h).1
      · exact (hwf (w, par) h).2
    have hwpar : g.Linked w par := by
      rcases hjun with h | h
      · exact hsym par w h
      · exact h
    have hlen128 : pre2.length + 2 ≤ 10000 := by
      simp only [List.length_append, List.length_singleton] at hlen10
      omega
    have hplen2 : ((pre2 ++ [par]) ++ [w]).length = pre2.length + 2 := by
      simp [List.length_append]
    have hlpp : (pre2 ++ [par]).length = pre2.length + 1 := by
      simp [List.length_append]
    have hpe : (pre2 ++ [par]) ++ [w] = pre2 ++ par :: [w] := by
      rw [List.append_assoc]
      rfl
    have hpar_path : IsPath g (pre2 ++ [par]) ⟨0, 0⟩ par := path_initial hpath hpe
    have hdw : sF.dist w + 1 = pre2.length + 2 :=
      (final_dist_eq hsym hwf hup hR hC hq hinv hw_cells hpath
        (by rw [hplen2]; omega)).trans hplen2
    have hdpar : sF.dist par + 1 = pre2.length + 1 :=
      (final_dist_eq hsym hwf hup hR hC hq hinv hpar_cells hpar_path
        (by rw [hlpp]; omega)).trans hlpp
    have hw_ne : w ≠ ⟨0, 0⟩ := by
      intro he
      rw [he, hinv.2.1] at hdw
      omega
    have hne : ¬(w.row = 0 ∧ w.col = 0) := fun hc => hw_ne (cell_eq hc.1 hc.2)
    have hall : ∀ z ∈ (g.cellLinks w).filter (fun x => decide (sF.dist x < sF.dist w)),
        z = par := by
      intro z hzm
      rw [List.mem_filter, decide_eq_true_eq] at hzm
      exact final_smaller_nbr hsym hwf hup hR hC hq hinv hpath hlen128
        (mem_cellLinks.1 hzm.1) hzm.2
    have hpar_mem : par ∈ (g.cellLinks w).filter
        (fun x => decide (sF.dist x < sF.dist w)) := by
      rw [List.mem_filter, decide_eq_true_eq]
      exact ⟨mem_cellLinks.2 hwpar, by omega⟩
    rw [recoverAux_step g sF.dist f w hne]
    cases hnb : (g.cellLinks w).filter (fun x => decide (sF.dist x < sF.dist w)) with
    | nil =>
      rw [hnb] at hpar_mem
      exact absurd hpar_mem (List.not_mem_nil par)
    | cons n0 ns =>
      show w :: recoverAux g sF.dist f
          (ns.foldl (fun best y => if sF.dist y < sF.dist best then y else best) n0)
        = ((pre2 ++ [par]) ++ [w]).reverse
      have hn0 : n0 = par := by
        refine hall n0 ?_
        rw [hnb]
        exact List.mem_cons_self _ _
      have hmin : ns.foldl (fun best y => if sF.dist y < sF.dist best then y else best) n0
          = par := by
        refine foldl_min_const sF.dist par ns n0 hn0 ?_
        intro x hx
        refine hall x ?_
        rw [hnb]
        exact List.mem_cons_of_mem _ hx
      rw [hmin]
      have hn2 : pre2.length = n := by
        rw [hlpp] at hn
        omega
      have hih := ih pre2 par f hn2 hpar_path (by omega) (by omega)
      rw [hih]
      simp

/-! ### C2: the weighted solver end to end -/

theorem dj_solve_path (g : Grid) (hR : 1 ≤ g.num_rows) (hC : 1 ≤ g.num_cols)
    (hsym : g.Symm) (hwf : g.WF) (hup : UP g)
    (p : List Cell) (hpath : IsPath g p ⟨0, 0⟩ ⟨g.num_rows - 1, g.num_cols - 1⟩)
    (hlen : p.length ≤ 10000) :
    DjikstraSolver.solve g freshState = some p := by
  obtain ⟨sF, hloop, hinv, hqF⟩ := dj_run g hR hC hwf
  have htgt : g.get_cell (g.num_rows - 1) (g.num_cols - 1)
      = some ⟨g.num_rows - 1, g.num_cols - 1⟩ := by
    rw [get_cell_eq]
    exact if_pos ⟨by omega, by omega, by omega, by omega⟩
  have htgt_mem : (⟨g.num_rows - 1, g.num_cols - 1⟩ : Cell) ∈ g.all_cells :=
    mem_all_cells.2 ⟨show (0 : Int) ≤ g.num_rows - 1 from by omega,
      show g.num_rows - 1 < g.num_rows from by omega,
      show (0 : Int) ≤ g.num_cols - 1 from by omega,
      show g.num_cols - 1 < g.num_cols from by omega⟩
  have hdt : sF.dist ⟨g.num_rows - 1, g.num_cols - 1⟩ + 1 = p.length :=
    final_dist_eq hsym hwf hup hR hC hqF hinv htgt_mem hpath hlen
  have hne10000 : ¬sF.dist ⟨g.num_rows - 1, g.num_cols - 1⟩ = 10000 := by omega
  have hrec : DjikstraSolver.recover_path g sF.dist = p := by
    unfold DjikstraSolver.recover_path
    rw [htgt]
    show (recoverAux g sF.dist
        (sF.dist ⟨g.num_rows - 1, g.num_cols - 1⟩ + 1) ⟨g.num_rows - 1, g.num_cols - 1⟩).reverse
      = p
    obtain ⟨pre, rfl⟩ : ∃ pre, p = pre ++ [(⟨g.num_rows - 1, g.num_cols - 1⟩ : Cell)] :=
      ⟨p.dropLast, (List.dropLast_append_getLast? _ hpath.2.1).symm⟩
    have hl2 : (pre ++ [(⟨g.num_rows - 1, g.num_cols - 1⟩ : Cell)]).length
        = pre.length + 1 := by
      simp
    have hrev := recover_correct hsym hwf hup hR hC hqF hinv pre.length pre
      ⟨g.num_rows - 1, g.num_cols - 1⟩
      (sF.dist ⟨g.num_rows - 1, g.num_cols - 1⟩ + 1) rfl hpath
      (by omega) (by omega)
    rw [hrev, List.reverse_reverse]
  unfold DjikstraSolver.solve
  rw [get_cell_start hR hC]
  dsimp only
  rw [hloop]
  dsimp only
  rw [htgt]
  dsimp only
  rw [if_neg hne10000, hrec]

theorem dj_solve_long (g : Grid) (hR : 1 ≤ g.num_rows) (hC : 1 ≤ g.num_cols)
    (hwf : g.WF)
    (hlong : ∀ q, IsPath g q ⟨0, 0⟩ ⟨g.num_rows - 1, g.num_cols - 1⟩ →
      10000 < q.length) :
    DjikstraSolver.solve g freshState = some [] := by
  obtain ⟨sF, hloop, hinv, hqF⟩ := dj_run g hR hC hwf
  have htgt : g.get_cell (g.num_rows - 1) (g.num_cols - 1)
      = some ⟨g.num_rows - 1, g.num_cols - 1⟩ := by
    rw [get_cell_eq]
    exact if_pos ⟨by omega, by omega, by omega, by omega⟩
  have htgt_mem : (⟨g.num_rows - 1, g.num_cols - 1⟩ : Cell) ∈ g.all_cells :=
    mem_all_cells.2 ⟨show (0 : Int) ≤ g.num_rows - 1 from by omega,
      show g.num_rows - 1 < g.num_rows from by omega,
      show (0 : Int) ≤ g.num_cols - 1 from by omega,
      show g.num_cols - 1 < g.num_cols from by omega⟩
  have hd10000 : sF.dist ⟨g.num_rows - 1, g.num_cols - 1⟩ = 10000 := by
    have hle := hinv.2.2.1 _ htgt_mem
    by_contra hne
    have hlt : sF.dist ⟨g.num_rows - 1, g.num_cols - 1⟩ < 10000 :=
      lt_of_le_of_ne hle hne
    obtain ⟨q2, hq2, hq2len⟩ := hinv.2.2.2.1 _ htgt_mem hlt
    have := hlong q2 hq2
    omega
  unfold DjikstraSolver.solve
  rw [get_cell_start hR hC]
  dsimp only
  rw [hloop]
  dsimp only
  rw [htgt]
  dsimp only
  rw [if_pos hd10000]

/-! ### C2: the unweighted traversal solver returns the unique path -/

theorem reachD_of_reach {g : Grid} (hsym : g.Symm) {x y : Cell} (h : g.Reach x y) :
    g.ReachD x y := by
  induction h with
  | refl => exact Relation.ReflTransGen.refl
  | tail _ hstep ih =>
    refine Relation.ReflTransGen.tail ih ?_
    rcases hstep with h1 | h1
    · exact h1
    · exact hsym _ _ h1

theorem solve_maze_unique (g : Grid) (hsym : g.Symm) (hup : UP g)
    (a b : Cell) (p : List Cell) (hpath : IsPath g p a b) :
    g.solve_maze a b = some (some p) := by
  have hD : g.ReachD a b := reachD_of_reach hsym (path_reach hpath)
  have hmain := solveMazeLoop_main g a b (dfsFuel g) [(a, [a])] []
    (by
      have h1 : dfsWeight g (a, [a]) ≤ (g.links.length + 2) ^ (g.links.length + 2) := by
        unfold dfsWeight
        exact Nat.pow_le_pow_right (by omega) (by omega)
      have h2 : stackMeasure g [(a, [a])] = dfsWeight g (a, [a]) := by
        simp [stackMeasure]
      unfold dfsFuel
      omega)
    (by
      intro e he
      rw [List.mem_singleton] at he
      subst he
      exact ⟨rfl, rfl, List.chain'_singleton a, List.nodup_singleton a, by simp, by simp⟩)
    ⟨(a, [a]), List.mem_singleton.2 rfl, reachD_unvPath hD⟩
  obtain ⟨q, hq, hqh, hql, hqc, hqn⟩ := hmain
  have hqpath : IsPath g q a b :=
    ⟨hqh, hql, List.Chain'.imp (fun u v h1 => Or.inl h1) hqc, hqn⟩
  have hpq : q = p := hup a b q p hqpath hpath
  rw [← hpq]
  exact hq

/-! ### C2: the 1×C chain grids -/

theorem chainLinks_succ (C : Int) (n : Nat) :
    chainLinks C (n + 1) = (chainLinks C n).link ⟨0, (n : Int)⟩ ⟨0, (n : Int) + 1⟩ := by
  unfold chainLinks
  rw [List.range_succ, List.foldl_append, List.foldl_cons, List.foldl_nil]

theorem chainLinks_shape (C : Int) (n : Nat) :
    (chainLinks C n).num_rows = 1 ∧ (chainLinks C n).num_cols = C := by
  induction n with
  | zero => exact ⟨rfl, rfl⟩
  | succ n ih =>
    rw [chainLinks_succ]
    exact ⟨((link_shape _ _ _).1).trans ih.1, ((link_shape _ _ _).2).trans ih.2⟩

theorem chainLinks_linked (C : Int) (n : Nat) (a b : Cell) :
    (chainLinks C n).Linked a b ↔
      ∃ i : Nat, i < n ∧ ((a = ⟨0, (i : Int)⟩ ∧ b = ⟨0, (i : Int) + 1⟩) ∨
        (a = ⟨0, (i : Int) + 1⟩ ∧ b = ⟨0, (i : Int)⟩)) := by
  induction n with
  | zero =>
    constructor
    · intro h
      exact absurd h (List.not_mem_nil _)
    · rintro ⟨i, hi, _⟩
      omega
  | succ n ih =>
    rw [chainLinks_succ, linked_link, ih]
    constructor
    · rintro (⟨i, hi, hcase⟩ | ⟨ha, hb⟩ | ⟨ha, hb⟩)
      · exact ⟨i, by omega, hcase⟩
      · exact ⟨n, by omega, Or.inl ⟨ha, hb⟩⟩
      · exact ⟨n, by omega, Or.inr ⟨ha, hb⟩⟩
    · rintro ⟨i, hi, hcase⟩
      by_cases hin : i < n
      · exact Or.inl ⟨i, hin, hcase⟩
      · have hieq : i = n := by omega
        subst hieq
        rcases hcase with ⟨ha, hb⟩ | ⟨ha, hb⟩
        · exact Or.inr (Or.inl ⟨ha, hb⟩)
        · exact Or.inr (Or.inr ⟨ha, hb⟩)

theorem reach_fixed {g : Grid} {c : Cell}
    (hc : ∀ a b : Cell, g.Linked a b → a ≠ c ∧ b ≠ c)
    {x : Cell} (h : g.Reach x c) : x = c := by
  induction h using Relation.ReflTransGen.head_induction_on with
  | refl => rfl
  | head hstep _ ih =>
    exfalso
    rw [ih] at hstep
    rcases hstep with h1 | h1
    · exact (hc _ _ h1).2 rfl
    · exact (hc _ _ h1).1 rfl

theorem chainPath_length (n : Nat) : (chainPath n).length = n + 1 := by
  unfold chainPath
  rw [List.length_map, List.length_range]

theorem chainPath_succ (n : Nat) :
    chainPath (n + 1) = chainPath n ++ [⟨0, (n : Int) + 1⟩] := by
  unfold chainPath
  rw [List.range_succ, List.map_append]
  simp only [List.map_cons, List.map_nil]
  have hcast : ((n + 1 : Nat) : Int) = (n : Int) + 1 := by
    push_cast
    ring
  rw [hcast]

theorem chainPath_mem (n : Nat) (c : Cell) :
    c ∈ chainPath n ↔ ∃ i : Nat, i ≤ n ∧ c = ⟨0, (i : Int)⟩ := by
  unfold chainPath
  rw [List.mem_map]
  constructor
  · rintro ⟨i, hi, rfl⟩
    exact ⟨i, by
      have := List.mem_range.1 hi
      omega, rfl⟩
  · rintro ⟨i, hi, rfl⟩
    exact ⟨i, List.mem_range.2 (by omega), rfl⟩

theorem chain_inv (C : Int) :
    ∀ n : Nat, (n : Int) < C →
      (chainLinks C n).Symm ∧ (chainLinks C n).WF ∧ UP (chainLinks C n) ∧
        IsPath (chainLinks C n) (chainPath n) ⟨0, 0⟩ ⟨0, (n : Int)⟩ := by
  intro n
  induction n with
  | zero =>
    intro _
    refine ⟨?_, ?_, up_nil rfl, ?_⟩
    · intro a b hab
      exact absurd hab (List.not_mem_nil _)
    · intro q hq
      exact absurd hq (List.not_mem_nil _)
    · exact ⟨rfl, rfl, List.chain'_singleton _, List.nodup_singleton _⟩
  | succ n ih =>
    intro h
    have hn : (n : Int) < C := by
      push_cast at h
      omega
    obtain ⟨hsym, hwf, hup, hpath⟩ := ih hn
    have hshape := chainLinks_shape C n
    have hnr : ¬(chainLinks C n).Reach ⟨0, (n : Int)⟩ ⟨0, (n : Int) + 1⟩ := by
      intro hr
      have hfix : ∀ a b : Cell, (chainLinks C n).Linked a b →
          a ≠ (⟨0, (n : Int) + 1⟩ : Cell) ∧ b ≠ (⟨0, (n : Int) + 1⟩ : Cell) := by
        intro a b hab
        rw [chainLinks_linked] at hab
        obtain ⟨i, hi, hcase⟩ := hab
        constructor
        · intro he
          rcases hcase with ⟨ha, _⟩ | ⟨ha, _⟩ <;>
            · rw [he] at ha
              injection ha with h1 h2
              omega
        · intro he
          rcases hcase with ⟨_, hb⟩ | ⟨_, hb⟩ <;>
            · rw [he] at hb
              injection hb with h1 h2
              omega
      have hfx := reach_fixed hfix hr
      injection hfx with h1 h2
      omega
    have hmemn : (⟨0, (n : Int)⟩ : Cell) ∈ (chainLinks C n).all_cells :=
      mem_all_cells.2 ⟨le_refl 0,
        show (0 : Int) < (chainLinks C n).num_rows from by rw [hshape.1]; omega,
        show (0 : Int) ≤ (n : Int) from by omega,
        show (n : Int) < (chainLinks C n).num_cols from by rw [hshape.2]; omega⟩
    have hmemn1 : (⟨0, (n : Int) + 1⟩ : Cell) ∈ (chainLinks C n).all_cells :=
      mem_all_cells.2 ⟨le_refl 0,
        show (0 : Int) < (chainLinks C n).num_rows from by rw [hshape.1]; omega,
        show (0 : Int) ≤ (n : Int) + 1 from by omega,
        show (n : Int) + 1 < (chainLinks C n).num_cols from by
          rw [hshape.2]
          push_cast at h
          omega⟩
    have hcast : ((n + 1 : Nat) : Int) = (n : Int) + 1 := by
      push_cast
      ring
    rw [chainLinks_succ]
    refine ⟨symm_link hsym _ _, wf_link hwf hmemn hmemn1, up_link hup hnr, ?_⟩
    rw [chainPath_succ]
    have hend : (⟨0, ((n + 1 : Nat) : Int)⟩ : Cell) = ⟨0, (n : Int) + 1⟩ := by
      rw [hcast]
    rw [hend]
    have hlift : IsPath ((chainLinks C n).link ⟨0, (n : Int)⟩ ⟨0, (n : Int) + 1⟩)
        (chainPath n) ⟨0, 0⟩ ⟨0, (n : Int)⟩ := by
      obtain ⟨h1, h2, h3, h4⟩ := hpath
      exact ⟨h1, h2, List.Chain'.imp (fun u v hab => linkedU_mono_link hab) h3, h4⟩
    have hlink2 : ((chainLinks C n).link ⟨0, (n : Int)⟩ ⟨0, (n : Int) + 1⟩).LinkedU
        ⟨0, (n : Int)⟩ ⟨0, (n : Int) + 1⟩ := linkedU_link.2 (Or.inr (Or.inl ⟨rfl, rfl⟩))
    have hnm : (⟨0, (n : Int) + 1⟩ : Cell) ∉ chainPath n := by
      rw [chainPath_mem]
      rintro ⟨i, hi, heq⟩
      injection heq with h1 h2
      omega
    exact isPath_snoc hlift hlink2 hnm

theorem chainGrid_inv (n : Nat) :
    (chainGrid n).Symm ∧ (chainGrid n).WF ∧ UP (chainGrid n) ∧
      IsPath (chainGrid n) (chainPath n) ⟨0, 0⟩ ⟨0, (n : Int)⟩ ∧
      (chainGrid n).num_rows = 1 ∧ (chainGrid n).num_cols = (n : Int) + 1 := by
  have h := chain_inv ((n : Int) + 1) n (by omega)
  exact ⟨h.1, h.2.1, h.2.2.1, h.2.2.2, (chainLinks_shape _ _).1, (chainLinks_shape _ _).2⟩

/-- C2: on a grid whose link relation forms a tree (symmetric, well-formed,
unique simple paths), when a simple path `p` joins the solvers' fixed start
`(0, 0)` and end `(R−1, C−1)` — by uniqueness the only such node sequence,
so its edge count `p.length − 1` is the tree distance — and its node count
is at most `10000`, the weighted shortest-path solver returns exactly `p`,
and the unweighted traversal solver returns the same ordered node sequence.
The node-count bound is necessary: see `C2_counterexample`. -/
theorem C2_solvers_agree (g : Grid) (hR : 1 ≤ g.num_rows) (hC : 1 ≤ g.num_cols)
    (hsym : g.Symm) (hwf : g.WF) (hup : UP g)
    (p : List Cell) (hpath : IsPath g p ⟨0, 0⟩ ⟨g.num_rows - 1, g.num_cols - 1⟩)
    (hlen : p.length ≤ 10000) :
    DjikstraSolver.solve g freshState = some p ∧
      g.solve_maze ⟨0, 0⟩ ⟨g.num_rows - 1, g.num_cols - 1⟩ = some (some p) :=
  ⟨dj_solve_path g hR hC hsym hwf hup p hpath hlen,
    solve_maze_unique g hsym hup ⟨0, 0⟩ ⟨g.num_rows - 1, g.num_cols - 1⟩ p hpath⟩

/-- C2 witness: the 1×2 grid with its two cells linked; both solvers return
the two-node path. -/
theorem C2_solvers_agree_witness :
    DjikstraSolver.solve (chainLinks 2 1) freshState = some (chainPath 1) ∧
      (chainLinks 2 1).solve_maze ⟨0, 0⟩
        ⟨(chainLinks 2 1).num_rows - 1, (chainLinks 2 1).num_cols - 1⟩
        = some (some (chainPath 1)) :=
  C2_solvers_agree (chainLinks 2 1) (by decide) (by decide)
    (chain_inv 2 1 (by decide)).1 (chain_inv 2 1 (by decide)).2.1
    (chain_inv 2 1 (by decide)).2.2.1 (chainPath 1)
    (chain_inv 2 1 (by decide)).2.2.2 (by decide)

/-- C2 counterexample: on the 1×10001 chain — a spanning tree — a corner-to-
corner path exists and the unweighted traversal solver returns it, but its
node count is 10001 (tree distance 10000, exactly the sentinel), so the final
`target.distance == 10000` check of the weighted solver misfires and it
returns the not-found value `[]`: the solvers disagree and the weighted
result's edge count is not the tree distance. -/
theorem C2_counterexample :
    IsPath (chainGrid 10000) (chainPath 10000) ⟨0, 0⟩
        ⟨(chainGrid 10000).num_rows - 1, (chainGrid 10000).num_cols - 1⟩ ∧
    (chainGrid 10000).solve_maze ⟨0, 0⟩
        ⟨(chainGrid 10000).num_rows - 1, (chainGrid 10000).num_cols - 1⟩
      = some (some (chainPath 10000)) ∧
    DjikstraSolver.solve (chainGrid 10000) freshState = some [] ∧
    chainPath 10000 ≠ [] := by
  obtain ⟨hsym, hwf, hup, hpath, hrows, hcols⟩ := chainGrid_inv 10000
  have hend : (⟨(chainGrid 10000).num_rows - 1, (chainGrid 10000).num_cols - 1⟩ : Cell)
      = ⟨0, ((10000 : Nat) : Int)⟩ := by
    rw [hrows, hcols]
    exact cell_eq (show (1 : Int) - 1 = 0 from by omega)
      (show ((10000 : Nat) : Int) + 1 - 1 = ((10000 : Nat) : Int) from by omega)
  have hR10 : 1 ≤ (chainGrid 10000).num_rows := by
    rw [hrows]
  have hC10 : 1 ≤ (chainGrid 10000).num_cols := by
    rw [hcols]
    omega
  have hlong : ∀ q, IsPath (chainGrid 10000) q ⟨0, 0⟩
      ⟨(chainGrid 10000).num_rows - 1, (chainGrid 10000).num_cols - 1⟩ →
      10000 < q.length := by
    intro q hq
    rw [hend] at hq
    have hqp := hup ⟨0, 0⟩ ⟨0, ((10000 : Nat) : Int)⟩ q (chainPath 10000) hq hpath
    rw [hqp, chainPath_length]
    omega
  refine ⟨?_, ?_, dj_solve_long (chainGrid 10000) hR10 hC10 hwf hlong, ?_⟩
  · rw [hend]
    exact hpath
  · rw [hend]
    exact solve_maze_unique (chainGrid 10000) hsym hup ⟨0, 0⟩
      ⟨0, ((10000 : Nat) : Int)⟩ (chainPath 10000) hpath
  · intro hnil
    have hlen := chainPath_length 10000
    rw [hnil] at hlen
    simp at hlen

end Maze
